import Mathlib

/-!
Verification of the folder-tree reconciliation and change-detection core of
grafana-git-sync.

Go strings are modelled as `List Char` (`GoString`), Go byte slices as
`List Nat`, Go maps as association lists, and the Grafana HTTP API as an
explicit response function with its own state (`Api`).  All definitions are
translated from `pkg/sync/service.go` and the grafana client source; the
standard-library path functions (`filepath.Clean`, `filepath.Dir`,
`filepath.Rel`, `strings.Split`, `strings.Join`, `crypto/sha256`) are
modelled faithfully for the Unix separator convention.
-/

set_option autoImplicit false

abbrev GoString := List Char

/-- Convert a Lean string literal to the `GoString` model. -/
def str (s : String) : GoString := s.data

/-- Association-list lookup, modelling Go map indexing `m[k]`. -/
def lookupA {α : Type} (k : GoString) : List (GoString × α) → Option α
  | [] => none
  | (k', v) :: rest => if k' = k then some v else lookupA k rest

/-- Association-list update, modelling Go map assignment `m[k] = v`. -/
def setA {α : Type} (k : GoString) (v : α) : List (GoString × α) → List (GoString × α)
  | [] => [(k, v)]
  | (k', v') :: rest => if k' = k then (k, v) :: rest else (k', v') :: setA k v rest

theorem lookupA_setA_self {α : Type} (k : GoString) (v : α) :
    ∀ l : List (GoString × α), lookupA k (setA k v l) = some v := by
  intro l
  induction l with
  | nil => simp [setA, lookupA]
  | cons hd tl ih =>
    obtain ⟨k', v'⟩ := hd
    by_cases h : k' = k <;> simp [setA, lookupA, h, ih]

theorem lookupA_setA_ne {α : Type} (k k' : GoString) (v : α) (hne : k' ≠ k) :
    ∀ l : List (GoString × α), lookupA k' (setA k v l) = lookupA k' l := by
  intro l
  induction l with
  | nil => simp [setA, lookupA, Ne.symm hne]
  | cons hd tl ih =>
    obtain ⟨k₀, v₀⟩ := hd
    by_cases h : k₀ = k
    · subst h
      simp [setA, lookupA, Ne.symm hne]
    · by_cases h' : k₀ = k'
      · subst h'
        simp [setA, lookupA, h, hne]
      · simp [setA, lookupA, h, h', ih]

/-- `strings.Split(s, "/")` : split on every slash, keeping empty parts. -/
def splitSlash : GoString → List GoString
  | [] => [[]]
  | c :: cs =>
    if c = '/' then [] :: splitSlash cs
    else
      match splitSlash cs with
      | [] => [[c]]
      | p :: ps => (c :: p) :: ps

/-- `strings.Join(parts, "/")`. -/
def joinSlash : List GoString → GoString
  | [] => []
  | [p] => p
  | p :: q :: ps => p ++ '/' :: joinSlash (q :: ps)

theorem splitSlash_ne_nil : ∀ s : GoString, splitSlash s ≠ [] := by
  intro s
  induction s with
  | nil => simp [splitSlash]
  | cons c cs ih =>
    by_cases h : c = '/'
    · simp [splitSlash, h]
    · simp only [splitSlash, h, if_false]
      cases hs : splitSlash cs <;> simp

theorem splitSlash_parts_slashfree :
    ∀ (s : GoString) (p : GoString), p ∈ splitSlash s → '/' ∉ p := by
  intro s
  induction s with
  | nil => intro p hp; simp [splitSlash] at hp; simp [hp]
  | cons c cs ih =>
    intro p hp
    by_cases h : c = '/'
    · simp [splitSlash, h] at hp
      rcases hp with hp | hp
      · simp [hp]
      · exact ih p hp
    · simp only [splitSlash, h, if_false] at hp
      cases hs : splitSlash cs with
      | nil => exact absurd hs (splitSlash_ne_nil cs)
      | cons q qs =>
        rw [hs] at hp
        simp at hp
        rcases hp with hp | hp
        · subst hp
          intro hmem
          simp at hmem
          rcases hmem with hmem | hmem
          · exact h hmem.symm
          · exact ih q (by simp [hs]) hmem
        · exact ih p (by simp [hs, hp])

theorem joinSlash_cons (p : GoString) (ps : List GoString) (h : ps ≠ []) :
    joinSlash (p :: ps) = p ++ '/' :: joinSlash ps := by
  cases ps with
  | nil => exact absurd rfl h
  | cons q qs => rfl

theorem splitSlash_slashfree (p : GoString) (hp : '/' ∉ p) : splitSlash p = [p] := by
  induction p with
  | nil => simp [splitSlash]
  | cons c cs ih =>
    have hc : c ≠ '/' := fun h => hp (by simp [h])
    have hcs : '/' ∉ cs := fun h => hp (by simp [h])
    simp only [splitSlash, hc, if_false, ih hcs]

theorem splitSlash_append_cons (x : GoString) (hx : '/' ∉ x) :
    ∀ s : GoString, splitSlash (x ++ '/' :: s) = x :: splitSlash s := by
  induction x with
  | nil => intro s; simp [splitSlash]
  | cons c cs ih =>
    intro s
    have hc : c ≠ '/' := by intro h; exact hx (by simp [h])
    have hcs : '/' ∉ cs := by intro h; exact hx (by simp [h])
    simp only [List.cons_append, splitSlash, hc, if_false, List.append_eq]
    rw [ih hcs s]

theorem splitSlash_joinSlash :
    ∀ ps : List GoString, ps ≠ [] → (∀ p ∈ ps, '/' ∉ p) →
      splitSlash (joinSlash ps) = ps := by
  intro ps
  induction ps with
  | nil => intro h; exact absurd rfl h
  | cons p qs ih =>
    intro _ hfree
    cases qs with
    | nil => simpa [joinSlash] using splitSlash_slashfree p (hfree p (by simp))
    | cons q rs =>
      rw [joinSlash_cons p (q :: rs) (by simp)]
      rw [splitSlash_append_cons p (hfree p (by simp))]
      rw [ih (by simp) (fun x hx => hfree x (by simp [hx]))]

theorem slash_mem_joinSlash (p q : GoString) (ps : List GoString) :
    '/' ∈ joinSlash (p :: q :: ps) := by
  rw [joinSlash_cons p (q :: ps) (by simp)]
  simp

/-! ### SHA-256, modelling `crypto/sha256.Sum256` -/

/-- Truncate to a 32-bit word. -/
def w32 (x : Nat) : Nat := x % 4294967296

/-- 32-bit rotate right. -/
def rotr32 (n x : Nat) : Nat := w32 (x / 2 ^ n + x % 2 ^ n * 2 ^ (32 - n))

def bigSigma0 (x : Nat) : Nat := Nat.xor (Nat.xor (rotr32 2 x) (rotr32 13 x)) (rotr32 22 x)
def bigSigma1 (x : Nat) : Nat := Nat.xor (Nat.xor (rotr32 6 x) (rotr32 11 x)) (rotr32 25 x)
def smallSigma0 (x : Nat) : Nat := Nat.xor (Nat.xor (rotr32 7 x) (rotr32 18 x)) (x / 2 ^ 3)
def smallSigma1 (x : Nat) : Nat := Nat.xor (Nat.xor (rotr32 17 x) (rotr32 19 x)) (x / 2 ^ 10)
def chFn (x y z : Nat) : Nat := Nat.xor (Nat.land x y) (Nat.land (Nat.xor x 4294967295) z)
def majFn (x y z : Nat) : Nat := Nat.xor (Nat.xor (Nat.land x y) (Nat.land x z)) (Nat.land y z)

def sha256K : List Nat :=
  [1116352408, 1899447441, 3049323471, 3921009573, 961987163,
   1508970993, 2453635748, 2870763221, 3624381080, 310598401,
   607225278, 1426881987, 1925078388, 2162078206, 2614888103,
   3248222580, 3835390401, 4022224774, 264347078, 604807628,
   770255983, 1249150122, 1555081692, 1996064986, 2554220882,
   2821834349, 2952996808, 3210313671, 3336571891, 3584528711,
   113926993, 338241895, 666307205, 773529912, 1294757372,
   1396182291, 1695183700, 1986661051, 2177026350, 2456956037,
   2730485921, 2820302411, 3259730800, 3345764771, 3516065817,
   3600352804, 4094571909, 275423344, 430227734, 506948616,
   659060556, 883997877, 958139571, 1322822218, 1537002063,
   1747873779, 1955562222, 2024104815, 2227730452, 2361852424,
   2428436474, 2756734187, 3204031479, 3329325298]

def sha256H0 : List Nat :=
  [1779033703, 3144134277, 1013904242, 2773480762, 1359893119,
   2600822924, 528734635, 1541459225]

/-- 64-bit big-endian length encoding used by the SHA-256 padding. -/
def be64 (n : Nat) : List Nat :=
  [n / 2 ^ 56 % 256, n / 2 ^ 48 % 256, n / 2 ^ 40 % 256, n / 2 ^ 32 % 256,
   n / 2 ^ 24 % 256, n / 2 ^ 16 % 256, n / 2 ^ 8 % 256, n % 256]

def padMessage (msg : List Nat) : List Nat :=
  let z := (119 - msg.length % 64) % 64
  msg ++ 128 :: List.replicate z 0 ++ be64 (8 * msg.length)

/-- Group bytes into big-endian 32-bit words. -/
def toWords : List Nat → List Nat
  | b0 :: b1 :: b2 :: b3 :: rest => (((b0 * 256 + b1) * 256 + b2) * 256 + b3) :: toWords rest
  | _ => []

/-- Extend a 16-word block by `n` message-schedule words. -/
def extendSchedule : List Nat → Nat → List Nat
  | w, 0 => w
  | w, Nat.succ n =>
    let l := w.length
    let nw := w32 (smallSigma1 (w.getD (l - 2) 0) + w.getD (l - 7) 0 +
                   smallSigma0 (w.getD (l - 15) 0) + w.getD (l - 16) 0)
    extendSchedule (w ++ [nw]) n

/-- One round of the SHA-256 compression function over the 8 working registers. -/
def sha256Round (regs : List Nat) (k w : Nat) : List Nat :=
  match regs with
  | [a, b, c, d, e, f, g, h] =>
    let t1 := w32 (h + bigSigma1 e + chFn e f g + k + w)
    let t2 := w32 (bigSigma0 a + majFn a b c)
    [w32 (t1 + t2), a, b, c, w32 (d + t1), e, f, g]
  | other => other

def sha256Rounds : List Nat → List Nat → List Nat → List Nat
  | regs, k :: ks, w :: ws => sha256Rounds (sha256Round regs k w) ks ws
  | regs, _, _ => regs

/-- Process one 64-byte block (given as 16 words) into the hash state. -/
def sha256Block (H : List Nat) (ws : List Nat) : List Nat :=
  let regs := sha256Rounds H sha256K (extendSchedule ws 48)
  List.zipWith (fun a b => w32 (a + b)) H regs

def sha256Blocks (H : List Nat) : List Nat → List Nat
  | w0 :: w1 :: w2 :: w3 :: w4 :: w5 :: w6 :: w7 :: w8 :: w9 :: w10 :: w11 :: w12 :: w13 :: w14 :: w15 :: rest =>
    sha256Blocks (sha256Block H [w0, w1, w2, w3, w4, w5, w6, w7, w8, w9, w10, w11, w12, w13, w14, w15]) rest
  | _ => H

/-- SHA-256 digest of a byte sequence, as 32-bit words. -/
def sha256 (msg : List Nat) : List Nat :=
  sha256Blocks sha256H0 (toWords (padMessage msg))

def hexDigit (n : Nat) : Char :=
  if n < 10 then Char.ofNat (48 + n) else Char.ofNat (87 + n)

/-- Lower-case hex encoding of a 32-bit word, as `encoding/hex` renders bytes. -/
def wordToHex (w : Nat) : GoString :=
  [hexDigit (w / 2 ^ 28 % 16), hexDigit (w / 2 ^ 24 % 16), hexDigit (w / 2 ^ 20 % 16),
   hexDigit (w / 2 ^ 16 % 16), hexDigit (w / 2 ^ 12 % 16), hexDigit (w / 2 ^ 8 % 16),
   hexDigit (w / 2 ^ 4 % 16), hexDigit (w % 16)]

/-- `computeFileHash` from `pkg/sync/service.go`: hex of the SHA-256 of the content. -/
def computeFileHash (content : List Nat) : GoString :=
  (sha256 content).foldr (fun w acc => wordToHex w ++ acc) []

/-! ### The sync `Service` and change detection (`pkg/sync/service.go`) -/

/-- The `sync.Service` state: the fingerprint table `fileHashes` plus the
configured dashboards directory (the other fields play no role here). -/
structure Service where
  dashboardsDir : GoString
  fileHashes : List (GoString × GoString)
deriving DecidableEq, Repr

/-- `NewService`: the fingerprint table starts empty. -/
def NewService (dashboardsDir : GoString) : Service := ⟨dashboardsDir, []⟩

/-- `HasFileChanged` from `pkg/sync/service.go`:
hash the content; report changed when the path is new or the stored hash
differs, updating the table in that case. -/
def HasFileChanged (s : Service) (path : GoString) (content : List Nat) : Bool × Service :=
  let newHash := computeFileHash content
  match lookupA path s.fileHashes with
  | none => (true, { s with fileHashes := setA path newHash s.fileHashes })
  | some oldHash =>
    if oldHash ≠ newHash then (true, { s with fileHashes := setA path newHash s.fileHashes })
    else (false, s)

/-- `GetChangedFiles` from `pkg/sync/service.go`.  `fsys` models `os.ReadFile`:
`none` is a read error (the file is logged and skipped), `some bytes` its
content.  The middle component is the function's `error` result. -/
def GetChangedFiles (s : Service) (fsys : GoString → Option (List Nat)) :
    List GoString → List GoString × Option GoString × Service
  | [] => ([], none, s)
  | f :: rest =>
    match fsys f with
    | none => GetChangedFiles s fsys rest
    | some content =>
      let r := HasFileChanged s f content
      let rec' := GetChangedFiles r.2 fsys rest
      (if r.1 then f :: rec'.1 else rec'.1, rec'.2.1, rec'.2.2)

theorem hasFileChanged_other_key (s : Service) (path q : GoString) (content : List Nat)
    (hne : q ≠ path) :
    lookupA q (HasFileChanged s path content).2.fileHashes = lookupA q s.fileHashes := by
  unfold HasFileChanged
  cases h : lookupA path s.fileHashes with
  | none => simp [h, lookupA_setA_ne path q _ hne]
  | some old =>
    by_cases he : old = computeFileHash content
    · simp [h, he]
    · simp [h, he, lookupA_setA_ne path q _ hne]

theorem gcf_filter (fsys : GoString → Option (List Nat)) :
    ∀ (files : List GoString) (s : Service),
      GetChangedFiles s fsys files =
        GetChangedFiles s fsys (files.filter (fun f => (fsys f).isSome)) := by
  intro files
  induction files with
  | nil => intro s; rfl
  | cons f rest ih =>
    intro s
    cases hf : fsys f with
    | none => simp [GetChangedFiles, hf, ih s]
    | some content => simp [GetChangedFiles, hf, ih]

theorem gcf_err (fsys : GoString → Option (List Nat)) :
    ∀ (files : List GoString) (s : Service),
      (GetChangedFiles s fsys files).2.1 = none := by
  intro files
  induction files with
  | nil => intro s; rfl
  | cons f rest ih =>
    intro s
    cases hf : fsys f with
    | none => simp [GetChangedFiles, hf, ih s]
    | some content => simp [GetChangedFiles, hf, ih]

theorem gcf_sublist (fsys : GoString → Option (List Nat)) :
    ∀ (files : List GoString) (s : Service),
      (GetChangedFiles s fsys files).1.Sublist
        (files.filter (fun f => (fsys f).isSome)) := by
  intro files
  induction files with
  | nil => intro s; simp [GetChangedFiles]
  | cons f rest ih =>
    intro s
    cases hf : fsys f with
    | none => simpa [GetChangedFiles, hf] using ih s
    | some content =>
      simp only [GetChangedFiles, hf, List.filter_cons, Option.isSome_some, if_true]
      by_cases hb : (HasFileChanged s f content).1
      · simpa [hb] using List.Sublist.cons₂ f (ih (HasFileChanged s f content).2)
      · simpa [hb] using List.Sublist.cons f (ih (HasFileChanged s f content).2)

theorem gcf_untouched (fsys : GoString → Option (List Nat)) :
    ∀ (files : List GoString) (s : Service) (p : GoString), fsys p = none →
      lookupA p (GetChangedFiles s fsys files).2.2.fileHashes = lookupA p s.fileHashes := by
  intro files
  induction files with
  | nil => intro s p _; rfl
  | cons f rest ih =>
    intro s p hp
    cases hf : fsys f with
    | none => simp [GetChangedFiles, hf, ih s p hp]
    | some content =>
      have hne : p ≠ f := by intro h; rw [h, hf] at hp; exact Option.noConfusion hp
      simp only [GetChangedFiles, hf]
      rw [ih (HasFileChanged s f content).2 p hp,
        hasFileChanged_other_key s f p content hne]

/-- C4: `HasFileChanged(path, content)` returns true exactly when the table has
no entry for `path` or the entry differs from the SHA-256 fingerprint of
`content`; after every call the entry for `path` equals that fingerprint, so a
path absent from the table is always classified as changed on first sight. -/
theorem hasFileChanged_contract :
    ∀ (s : Service) (path : GoString) (content : List Nat),
      ((HasFileChanged s path content).1 = true ↔
        (lookupA path s.fileHashes = none ∨
         lookupA path s.fileHashes ≠ some (computeFileHash content))) ∧
      lookupA path (HasFileChanged s path content).2.fileHashes =
        some (computeFileHash content) := by
  intro s path content
  unfold HasFileChanged
  cases h : lookupA path s.fileHashes with
  | none => simp [h, lookupA_setA_self]
  | some old =>
    by_cases he : old = computeFileHash content
    · subst he; simp [h]
    · simp [h, he, lookupA_setA_self]

/-- C8: `GetChangedFiles` never aborts on an unreadable file: it behaves as if
run on the readable sublist only, returns a nil error, returns a subset of the
readable paths in input order, and leaves the fingerprint entry of every
unreadable path untouched. -/
theorem getChangedFiles_contract (s : Service) (fsys : GoString → Option (List Nat))
    (files : List GoString) :
    GetChangedFiles s fsys files =
      GetChangedFiles s fsys (files.filter (fun f => (fsys f).isSome)) ∧
    (GetChangedFiles s fsys files).2.1 = none ∧
    (GetChangedFiles s fsys files).1.Sublist (files.filter (fun f => (fsys f).isSome)) ∧
    ∀ p, fsys p = none →
      lookupA p (GetChangedFiles s fsys files).2.2.fileHashes = lookupA p s.fileHashes :=
  ⟨gcf_filter fsys files s, gcf_err fsys files s, gcf_sublist fsys files s,
   fun p hp => gcf_untouched fsys files s p hp⟩

/-- Demo read function used by the C8 witness: only `"a"` is readable. -/
def fsysDemo (p : GoString) : Option (List Nat) :=
  if p = str "a" then some [1, 2] else none

/-- Witness for C8 at a concrete input: path `"b"` is unreadable, and its
fingerprint entry is untouched by the batch call. -/
theorem getChangedFiles_contract_witness :
    lookupA (str "b")
        (GetChangedFiles (NewService []) fsysDemo [str "a", str "b"]).2.2.fileHashes =
      lookupA (str "b") (NewService []).fileHashes :=
  (getChangedFiles_contract (NewService []) fsysDemo [str "a", str "b"]).2.2.2
    (str "b") (by decide)

/-! ### Path splitting helpers from the grafana client source -/

/-- The client's `replaceSeparators`: map both `/` and `\` to `sep`. -/
def replaceSeparators (s : GoString) (sep : Char) : GoString :=
  s.map (fun c => if c = '/' ∨ c = '\\' then sep else c)

/-- Accumulator loop of the client's `splitBy`. -/
def splitByAux (sep : Char) : GoString → GoString → List GoString
  | [], current => if current = [] then [] else [current]
  | c :: cs, current =>
    if c = sep then
      if current = [] then splitByAux sep cs []
      else current :: splitByAux sep cs []
    else splitByAux sep cs (current ++ [c])

/-- The client's `splitBy`: split on `sep`, dropping empty parts. -/
def splitBy (s : GoString) (sep : Char) : List GoString := splitByAux sep s []

/-- The client's `splitPath`: support both `/` and `\` as separators. -/
def splitPath (path : GoString) : List GoString :=
  splitBy (replaceSeparators path '/') '/'

/-- The client's `splitFolderPath`: drop empty and `"."` segments. -/
def splitFolderPath (path : GoString) : List GoString :=
  if path = [] ∨ path = str "." then []
  else (splitPath path).filter (fun p => decide (p ≠ []) && decide (p ≠ str "."))

/-! ### Model of Go `path/filepath` (Unix separator convention) -/

/-- Segment-level core of `filepath.Clean`: drop empty and `"."` elements,
resolve `".."` against the accumulated prefix (dropping it at a root). -/
def cleanSegs (rooted : Bool) : List GoString → List GoString → List GoString
  | acc, [] => acc.reverse
  | acc, s :: rest =>
    if s = [] ∨ s = str "." then cleanSegs rooted acc rest
    else if s = str ".." then
      match acc with
      | a :: acc' =>
        if a = str ".." then cleanSegs rooted (s :: a :: acc') rest
        else cleanSegs rooted acc' rest
      | [] => if rooted then cleanSegs rooted [] rest else cleanSegs rooted [s] rest
    else cleanSegs rooted (s :: acc) rest

/-- `filepath.Clean` for the Unix convention. -/
def cleanPath (p : GoString) : GoString :=
  if p = [] then str "."
  else
    let rooted := decide (p.head? = some '/')
    let core := joinSlash (cleanSegs rooted [] (splitBy p '/'))
    if rooted then '/' :: core
    else if core = [] then str "." else core

/-- The prefix of `p` up to and including its last separator. -/
def dirRaw (p : GoString) : GoString := (p.reverse.dropWhile (fun c => c ≠ '/')).reverse

/-- `filepath.Dir` for the Unix convention. -/
def goDir (p : GoString) : GoString := cleanPath (dirRaw p)

def ddots : GoString := str ".."

/-- Strip the common leading segments of two segment lists. -/
def dropCommon : List GoString → List GoString → List GoString × List GoString
  | b :: bs, t :: ts => if b = t then dropCommon bs ts else (b :: bs, t :: ts)
  | bs, ts => (bs, ts)

/-- `filepath.Rel` for the Unix convention (`none` is the error result). -/
def goRel (basep targp : GoString) : Option GoString :=
  let base0 := cleanPath basep
  let targ0 := cleanPath targp
  if targ0 = base0 then some (str ".")
  else
    let base := if base0 = str "." then [] else base0
    let targ := if targ0 = str "." then [] else targ0
    if (decide (base.head? = some '/')) ≠ (decide (targ.head? = some '/')) then none
    else
      let pair := dropCommon (splitBy base '/') (splitBy targ '/')
      if pair.1.head? = some ddots then none
      else if pair.1 ≠ [] then
        some (joinSlash (List.replicate pair.1.length ddots ++ pair.2))
      else some (joinSlash pair.2)

/-- `filepath.ToSlash` is the identity under the Unix convention. -/
def toSlash (p : GoString) : GoString := p

/-- `detectFolderFromPath` from `pkg/sync/service.go`. -/
def detectFolderFromPath (s : Service) (filePath : GoString) : GoString :=
  match goRel s.dashboardsDir (goDir filePath) with
  | none => []
  | some rel0 =>
    let rel := toSlash rel0
    if rel = str "." ∨ rel = [] then [] else rel

/-! ### The folder graph (`BuildFolderGraph`, `HasParent`)

`sync.FolderNode` is a pointer structure whose nodes live in the
`map[string]*FolderNode` keyed by `FullPath`.  A map entry, once created, is
never replaced, and every stored child pointer is `graph[currPath]` at the
moment of insertion, so Go pointer equality between nodes of one graph
coincides with equality of their `FullPath` keys.  We therefore represent a
child pointer by the child's `FullPath`. -/

structure FolderNode where
  name : GoString
  fullPath : GoString
  children : List GoString
  uid : GoString
  id : Int
deriving DecidableEq, Repr

abbrev Graph := List (GoString × FolderNode)

/-- `graph[parentPath].Children = append(...)` guarded by the duplicate check.
A missing parent would be a nil-pointer dereference in Go; it never occurs
(the parent prefix is always inserted first). -/
def addChildIfAbsent (parent child : GoString) (g : Graph) : Graph :=
  match lookupA parent g with
  | none => g
  | some n =>
    if child ∈ n.children then g
    else setA parent { n with children := n.children ++ [child] } g

/-- One iteration of the inner loop of `BuildFolderGraph` at index `i`. -/
def insertStep (parts : List GoString) (g : Graph) (i : Nat) : Graph :=
  let curr := joinSlash (parts.take (i + 1))
  let g1 :=
    match lookupA curr g with
    | some _ => g
    | none => setA curr ⟨parts.getD i [], curr, [], [], 0⟩ g
  if 0 < i then addChildIfAbsent (joinSlash (parts.take i)) curr g1 else g1

/-- Processing of one dashboard path's relative folder string. -/
def insertRel (g : Graph) (rel : GoString) : Graph :=
  if rel = str "." ∨ rel = [] then g
  else (List.range (splitSlash rel).length).foldl (insertStep (splitSlash rel)) g

/-- `rel, _ := filepath.Rel(baseDir, filepath.Dir(path))` (empty on error),
then `filepath.ToSlash`. -/
def relFolderOf (baseDir p : GoString) : GoString :=
  toSlash ((goRel baseDir (goDir p)).getD [])

/-- `BuildFolderGraph` from `pkg/sync/service.go`. -/
def BuildFolderGraph (dashboardPaths : List GoString) (baseDir : GoString) : Graph :=
  dashboardPaths.foldl (fun g p => insertRel g (relFolderOf baseDir p)) []

/-- `HasParent` from `pkg/sync/service.go`: scan every node's children for a
pointer equal to `node`. -/
def HasParent (node : FolderNode) (g : Graph) : Bool :=
  g.any (fun kv => kv.2.children.any (fun c => c = node.fullPath))

/-! ### Characterization of the built graph -/

def hasKey (k : GoString) (g : Graph) : Prop := (lookupA k g).isSome = true

def hasEdge (p c : GoString) (g : Graph) : Prop :=
  ∃ n, lookupA p g = some n ∧ c ∈ n.children

def trivialRel (rel : GoString) : Prop := rel = str "." ∨ rel = []

/-- The keys contributed by one relative folder string. -/
def keyFrom (rel k : GoString) : Prop :=
  ¬ trivialRel rel ∧
  ∃ i, i < (splitSlash rel).length ∧ k = joinSlash ((splitSlash rel).take (i + 1))

/-- The parent/child edges contributed by one relative folder string. -/
def edgeFrom (rel p c : GoString) : Prop :=
  ¬ trivialRel rel ∧
  ∃ i, 0 < i ∧ i < (splitSlash rel).length ∧
    p = joinSlash ((splitSlash rel).take i) ∧ c = joinSlash ((splitSlash rel).take (i + 1))

/-- Structural invariant of the graph maintained by `BuildFolderGraph`. -/
def graphInv (g : Graph) : Prop :=
  (g.map Prod.fst).Nodup ∧
  ∀ k n, lookupA k g = some n →
    n.fullPath = k ∧ n.name = (splitSlash k).getLastD [] ∧ n.children.Nodup ∧
    ∀ c ∈ n.children, ∃ cn, lookupA c g = some cn ∧ c = k ++ '/' :: cn.name

theorem mem_of_lookupA {α : Type} (k : GoString) (n : α) :
    ∀ l : List (GoString × α), lookupA k l = some n → (k, n) ∈ l := by
  intro l
  induction l with
  | nil => intro h; simp [lookupA] at h
  | cons hd tl ih =>
    obtain ⟨k', v'⟩ := hd
    intro h
    by_cases hk : k' = k
    · subst hk
      simp [lookupA] at h
      simp [h]
    · simp [lookupA, hk] at h
      simp [ih h]

theorem lookupA_of_mem_nodup {α : Type} (k : GoString) (n : α) :
    ∀ l : List (GoString × α), (l.map Prod.fst).Nodup → (k, n) ∈ l →
      lookupA k l = some n := by
  intro l
  induction l with
  | nil => intro _ h; simp at h
  | cons hd tl ih =>
    obtain ⟨k', v'⟩ := hd
    intro hnd hmem
    simp at hmem
    rcases hmem with ⟨hk, hv⟩ | hmem
    · subst hk; subst hv; simp [lookupA]
    · have hne : k' ≠ k := by
        intro hkk
        subst hkk
        simp only [List.map_cons, List.nodup_cons] at hnd
        exact hnd.1 (List.mem_map_of_mem Prod.fst hmem)
      simp only [lookupA, hne, if_false]
      exact ih (by simp only [List.map_cons, List.nodup_cons] at hnd; exact hnd.2) hmem

theorem setA_fresh_append {α : Type} (k : GoString) (v : α) :
    ∀ l : List (GoString × α), lookupA k l = none → setA k v l = l ++ [(k, v)] := by
  intro l
  induction l with
  | nil => intro _; rfl
  | cons hd tl ih =>
    obtain ⟨k', v'⟩ := hd
    intro h
    by_cases hk : k' = k
    · simp [lookupA, hk] at h
    · simp [lookupA, hk] at h
      simp [setA, hk, ih h]

theorem setA_existing_keys {α : Type} (k : GoString) (v : α) :
    ∀ l : List (GoString × α), (lookupA k l).isSome →
      (setA k v l).map Prod.fst = l.map Prod.fst := by
  intro l
  induction l with
  | nil => intro h; simp [lookupA] at h
  | cons hd tl ih =>
    obtain ⟨k', v'⟩ := hd
    intro h
    by_cases hk : k' = k
    · simp [setA, hk]
    · simp [lookupA, hk] at h
      simp [setA, hk, ih h]

theorem hasKey_setA {α : Type} (k k' : GoString) (v : α) (l : List (GoString × α)) :
    (lookupA k (setA k' v l)).isSome = true ↔ (lookupA k l).isSome = true ∨ k = k' := by
  by_cases hk : k = k'
  · subst hk
    simp [lookupA_setA_self]
  · rw [lookupA_setA_ne k' k v hk]
    simp [hk]

theorem take_getLastD :
    ∀ (l : List GoString) (i : Nat) (d : GoString) (h : i < l.length),
      (l.take (i + 1)).getLastD d = l[i] := by
  intro l
  induction l with
  | nil => intro i d h; simp at h
  | cons x xs ih =>
    intro i d h
    cases i with
    | zero => simp
    | succ j =>
      have hj : j < xs.length := by simpa using h
      simp only [List.take_succ_cons, List.getLastD_cons]
      rw [ih j x hj]
      simp

theorem lookupA_none_not_mem {α : Type} (k : GoString) :
    ∀ l : List (GoString × α), lookupA k l = none → k ∉ l.map Prod.fst := by
  intro l
  induction l with
  | nil => intro _; simp
  | cons hd tl ih =>
    obtain ⟨k', v'⟩ := hd
    intro h
    by_cases hk : k' = k
    · simp [lookupA, hk] at h
    · simp [lookupA, hk] at h
      simp [ih h, Ne.symm hk]

theorem join_append_single (x : GoString) :
    ∀ l : List GoString, l ≠ [] → joinSlash (l ++ [x]) = joinSlash l ++ '/' :: x := by
  intro l
  induction l with
  | nil => intro h; exact absurd rfl h
  | cons p ps ih =>
    intro _
    cases ps with
    | nil => simp [joinSlash]
    | cons q qs =>
      calc joinSlash ((p :: q :: qs) ++ [x])
          = joinSlash (p :: (q :: qs ++ [x])) := by simp
        _ = p ++ '/' :: joinSlash (q :: qs ++ [x]) := joinSlash_cons p _ (by simp)
        _ = p ++ '/' :: (joinSlash (q :: qs) ++ '/' :: x) := by rw [ih (by simp)]
        _ = (p ++ '/' :: joinSlash (q :: qs)) ++ '/' :: x := by simp
        _ = joinSlash (p :: q :: qs) ++ '/' :: x := by
              rw [joinSlash_cons p (q :: qs) (by simp)]

theorem take_succ_getElem {α : Type} (l : List α) (i : Nat) (h : i < l.length) :
    l.take (i + 1) = l.take i ++ [l[i]] := by
  rw [List.take_succ]
  congr 1
  rw [List.getElem?_eq_getElem h]
  rfl

theorem take_ne_nil {α : Type} (l : List α) (i : Nat) (h0 : 0 < i) (h : i ≤ l.length) :
    l.take i ≠ [] := by
  intro hcon
  have : (l.take i).length = i := by simp [List.length_take]; omega
  rw [hcon] at this
  simp at this
  omega

theorem join_take_succ (parts : List GoString) (i : Nat) (h0 : 0 < i)
    (hi : i < parts.length) :
    joinSlash (parts.take (i + 1)) = joinSlash (parts.take i) ++ '/' :: parts[i] := by
  rw [take_succ_getElem parts i hi]
  exact join_append_single parts[i] _ (take_ne_nil parts i h0 (le_of_lt hi))

theorem splitSlash_join_take (parts : List GoString) (i : Nat) (hi : i < parts.length)
    (hfree : ∀ x ∈ parts, '/' ∉ x) :
    splitSlash (joinSlash (parts.take (i + 1))) = parts.take (i + 1) := by
  apply splitSlash_joinSlash
  · exact take_ne_nil parts (i + 1) (by omega) (by omega)
  · intro p hp
    exact hfree p (List.mem_of_mem_take hp)

theorem lastSeg_join_take (parts : List GoString) (i : Nat) (hi : i < parts.length)
    (hfree : ∀ x ∈ parts, '/' ∉ x) :
    (splitSlash (joinSlash (parts.take (i + 1)))).getLastD [] = parts[i] := by
  rw [splitSlash_join_take parts i hi hfree]
  exact take_getLastD parts i [] hi

theorem join_take_len_lt (parts : List GoString) (i : Nat) (h0 : 0 < i)
    (hi : i < parts.length) :
    joinSlash (parts.take i) ≠ joinSlash (parts.take (i + 1)) := by
  intro h
  have := join_take_succ parts i h0 hi
  rw [← h] at this
  have hlen : (joinSlash (parts.take i)).length =
      (joinSlash (parts.take i)).length + 1 + parts[i].length := by
    conv_lhs => rw [this]
    simp
    omega
  omega

theorem addChild_keys (p c : GoString) (g : Graph) (k : GoString) :
    (lookupA k (addChildIfAbsent p c g)).isSome = (lookupA k g).isSome := by
  unfold addChildIfAbsent
  cases hp : lookupA p g with
  | none => rfl
  | some n =>
    by_cases hc : c ∈ n.children
    · simp [hc]
    · simp only [hc, if_false]
      by_cases hk : k = p
      · subst hk
        simp [lookupA_setA_self, hp]
      · rw [lookupA_setA_ne p k _ hk]

theorem addChild_edges (p c : GoString) (g : Graph) (q d : GoString) :
    hasEdge q d (addChildIfAbsent p c g) ↔
      hasEdge q d g ∨ (q = p ∧ d = c ∧ hasKey p g) := by
  unfold addChildIfAbsent hasEdge hasKey
  cases hp : lookupA p g with
  | none =>
    simp [hp]
  | some n =>
    by_cases hc : c ∈ n.children
    · simp only [hc, if_true]
      constructor
      · exact fun h => Or.inl h
      · rintro (h | ⟨hq, hd, _⟩)
        · exact h
        · exact ⟨n, by rw [hq]; exact hp, by rw [hd]; exact hc⟩
    · simp only [hc, if_false]
      constructor
      · rintro ⟨m, hm, hdm⟩
        by_cases hq : q = p
        · subst hq
          rw [lookupA_setA_self] at hm
          cases hm
          simp at hdm
          rcases hdm with hdm | hdm
          · exact Or.inl ⟨n, hp, hdm⟩
          · exact Or.inr ⟨rfl, hdm, by simp [hp]⟩
        · rw [lookupA_setA_ne p q _ hq] at hm
          exact Or.inl ⟨m, hm, hdm⟩
      · rintro (⟨m, hm, hdm⟩ | ⟨hq, hd, _⟩)
        · by_cases hq : q = p
          · subst hq
            rw [hp] at hm
            cases hm
            exact ⟨_, lookupA_setA_self q _ g, by simp [hdm]⟩
          · exact ⟨m, by rw [lookupA_setA_ne p q _ hq]; exact hm, hdm⟩
        · subst hq; subst hd
          exact ⟨_, lookupA_setA_self q _ g, by simp⟩

theorem setA_fresh_edges (k : GoString) (v : FolderNode) (g : Graph) (q d : GoString)
    (hfresh : lookupA k g = none) (hempty : v.children = []) :
    hasEdge q d (setA k v g) ↔ hasEdge q d g := by
  unfold hasEdge
  by_cases hq : q = k
  · subst hq
    rw [hfresh]
    simp [lookupA_setA_self, hempty]
  · rw [lookupA_setA_ne k q _ hq]

theorem insertStep_keys (parts : List GoString) (g : Graph) (i : Nat) (k : GoString) :
    hasKey k (insertStep parts g i) ↔
      hasKey k g ∨ k = joinSlash (parts.take (i + 1)) := by
  unfold insertStep hasKey
  cases hc : lookupA (joinSlash (parts.take (i + 1))) g with
  | some n =>
    simp only [hc]
    by_cases hi : 0 < i
    · simp only [hi, if_true, addChild_keys]
      constructor
      · exact fun h => Or.inl h
      · rintro (h | h)
        · exact h
        · rw [h, hc]; rfl
    · simp only [hi, if_false]
      constructor
      · exact fun h => Or.inl h
      · rintro (h | h)
        · exact h
        · rw [h, hc]; rfl
  | none =>
    simp only [hc]
    by_cases hi : 0 < i
    · simp only [hi, if_true, addChild_keys]
      exact hasKey_setA k _ _ g
    · simp only [hi, if_false]
      exact hasKey_setA k _ _ g

theorem insertStep_edges (parts : List GoString) (g : Graph) (i : Nat) (q d : GoString)
    (hpar : 0 < i → hasKey (joinSlash (parts.take i)) g) :
    hasEdge q d (insertStep parts g i) ↔
      hasEdge q d g ∨
        (0 < i ∧ q = joinSlash (parts.take i) ∧ d = joinSlash (parts.take (i + 1))) := by
  unfold insertStep
  cases hc : lookupA (joinSlash (parts.take (i + 1))) g with
  | some n =>
    simp only [hc]
    by_cases hi : 0 < i
    · rw [if_pos hi]
      rw [addChild_edges]
      constructor
      · rintro (h | ⟨hq, hd, _⟩)
        · exact Or.inl h
        · exact Or.inr ⟨hi, hq, hd⟩
      · rintro (h | ⟨_, hq, hd⟩)
        · exact Or.inl h
        · exact Or.inr ⟨hq, hd, hpar hi⟩
    · rw [if_neg hi]
      exact ⟨fun h => Or.inl h, by rintro (h | ⟨h0, _, _⟩); exact h; exact absurd h0 hi⟩
  | none =>
    simp only [hc]
    by_cases hi : 0 < i
    · rw [if_pos hi]
      rw [addChild_edges]
      rw [setA_fresh_edges _ _ _ _ _ hc rfl]
      have hk : hasKey (joinSlash (parts.take i)) (setA (joinSlash (parts.take (i + 1))) ⟨parts.getD i [], joinSlash (parts.take (i + 1)), [], [], 0⟩ g) := by
        unfold hasKey
        rw [hasKey_setA]
        exact Or.inl (hpar hi)
      constructor
      · rintro (h | ⟨hq, hd, _⟩)
        · exact Or.inl h
        · exact Or.inr ⟨hi, hq, hd⟩
      · rintro (h | ⟨_, hq, hd⟩)
        · exact Or.inl h
        · exact Or.inr ⟨hq, hd, hk⟩
    · rw [if_neg hi]
      rw [setA_fresh_edges _ _ _ _ _ hc rfl]
      exact ⟨fun h => Or.inl h, by rintro (h | ⟨h0, _, _⟩); exact h; exact absurd h0 hi⟩

theorem insertNode_inv (parts : List GoString) (g : Graph) (i : Nat)
    (hi : i < parts.length) (hfree : ∀ x ∈ parts, '/' ∉ x)
    (hinv : graphInv g)
    (hfresh : lookupA (joinSlash (parts.take (i + 1))) g = none) :
    graphInv (setA (joinSlash (parts.take (i + 1)))
      ⟨parts.getD i [], joinSlash (parts.take (i + 1)), [], [], 0⟩ g) := by
  obtain ⟨hnd, hval⟩ := hinv
  constructor
  · rw [setA_fresh_append _ _ _ hfresh]
    simp only [List.map_append, List.map_cons, List.map_nil]
    rw [List.nodup_append]
    refine ⟨hnd, List.nodup_singleton _, ?_⟩
    intro x hx hmem
    rw [List.mem_singleton] at hmem
    subst hmem
    exact lookupA_none_not_mem _ g hfresh hx
  · intro k n hk
    by_cases hkc : k = joinSlash (parts.take (i + 1))
    · subst hkc
      rw [lookupA_setA_self] at hk
      cases hk
      refine ⟨rfl, ?_, List.nodup_nil, by simp⟩
      rw [lastSeg_join_take parts i hi hfree]
      exact List.getD_eq_getElem parts [] hi
    · rw [lookupA_setA_ne _ _ _ hkc] at hk
      obtain ⟨hfp, hnm, hcnd, hch⟩ := hval k n hk
      refine ⟨hfp, hnm, hcnd, ?_⟩
      intro c hc
      obtain ⟨cn, hcn, heq⟩ := hch c hc
      have hcne : c ≠ joinSlash (parts.take (i + 1)) := by
        intro hcc
        rw [hcc, hfresh] at hcn
        exact Option.noConfusion hcn
      exact ⟨cn, by rw [lookupA_setA_ne _ _ _ hcne]; exact hcn, heq⟩

theorem addChild_inv (parts : List GoString) (g : Graph) (i : Nat)
    (h0 : 0 < i) (hi : i < parts.length) (hfree : ∀ x ∈ parts, '/' ∉ x)
    (hinv : graphInv g)
    (hchild : (lookupA (joinSlash (parts.take (i + 1))) g).isSome = true) :
    graphInv (addChildIfAbsent (joinSlash (parts.take i))
      (joinSlash (parts.take (i + 1))) g) := by
  obtain ⟨hnd, hval⟩ := hinv
  unfold addChildIfAbsent
  cases hp : lookupA (joinSlash (parts.take i)) g with
  | none => exact ⟨hnd, hval⟩
  | some n =>
    by_cases hcmem : joinSlash (parts.take (i + 1)) ∈ n.children
    · simp only [hcmem, if_true]
      exact ⟨hnd, hval⟩
    · simp only [hcmem, if_false]
      obtain ⟨cn, hcn⟩ : ∃ cn, lookupA (joinSlash (parts.take (i + 1))) g = some cn := by
        cases hcc : lookupA (joinSlash (parts.take (i + 1))) g with
        | none => rw [hcc] at hchild; simp at hchild
        | some cn => exact ⟨cn, rfl⟩
      have hparcur : joinSlash (parts.take i) ≠ joinSlash (parts.take (i + 1)) :=
        join_take_len_lt parts i h0 hi
      have hcnname : cn.name = parts[i] := by
        have := (hval _ cn hcn).2.1
        rw [this, lastSeg_join_take parts i hi hfree]
      have hcurr_eq : joinSlash (parts.take (i + 1)) =
          joinSlash (parts.take i) ++ '/' :: cn.name := by
        rw [hcnname]
        exact join_take_succ parts i h0 hi
      have hnfp := hval _ n hp
      constructor
      · rw [setA_existing_keys _ _ g (by rw [hp]; rfl)]
        exact hnd
      · intro k m hk
        by_cases hkp : k = joinSlash (parts.take i)
        · subst hkp
          rw [lookupA_setA_self] at hk
          cases hk
          refine ⟨hnfp.1, hnfp.2.1, ?_, ?_⟩
          · simp only [List.nodup_append]
            exact ⟨hnfp.2.2.1, List.nodup_singleton _, by simp [hcmem]⟩
          · intro c hc
            simp only [List.mem_append, List.mem_singleton] at hc
            rcases hc with hc | hc
            · obtain ⟨dn, hdn, heq⟩ := hnfp.2.2.2 c hc
              by_cases hcp : c = joinSlash (parts.take i)
              · subst hcp
                rw [hp] at hdn
                cases hdn
                exact ⟨_, lookupA_setA_self _ _ g, heq⟩
              · exact ⟨dn, by rw [lookupA_setA_ne _ _ _ hcp]; exact hdn, heq⟩
            · subst hc
              refine ⟨cn, ?_, hcurr_eq⟩
              rw [lookupA_setA_ne _ _ _ (Ne.symm hparcur)]
              exact hcn
        · rw [lookupA_setA_ne _ _ _ hkp] at hk
          obtain ⟨hfp, hnm, hcnd, hch⟩ := hval k m hk
          refine ⟨hfp, hnm, hcnd, ?_⟩
          intro c hc
          obtain ⟨dn, hdn, heq⟩ := hch c hc
          by_cases hcp : c = joinSlash (parts.take i)
          · subst hcp
            rw [hp] at hdn
            cases hdn
            exact ⟨_, lookupA_setA_self _ _ g, heq⟩
          · exact ⟨dn, by rw [lookupA_setA_ne _ _ _ hcp]; exact hdn, heq⟩

theorem insertStep_inv (parts : List GoString) (g : Graph) (i : Nat)
    (hi : i < parts.length) (hfree : ∀ x ∈ parts, '/' ∉ x)
    (hinv : graphInv g) : graphInv (insertStep parts g i) := by
  unfold insertStep
  cases hc : lookupA (joinSlash (parts.take (i + 1))) g with
  | some n =>
    simp only [hc]
    by_cases h0 : 0 < i
    · rw [if_pos h0]
      exact addChild_inv parts g i h0 hi hfree hinv (by rw [hc]; rfl)
    · rw [if_neg h0]
      exact hinv
  | none =>
    simp only [hc]
    have hinv1 := insertNode_inv parts g i hi hfree hinv hc
    by_cases h0 : 0 < i
    · rw [if_pos h0]
      exact addChild_inv parts _ i h0 hi hfree hinv1
        (by rw [lookupA_setA_self]; rfl)
    · rw [if_neg h0]
      exact hinv1

def insertUpTo (parts : List GoString) (n : Nat) (g : Graph) : Graph :=
  (List.range n).foldl (insertStep parts) g

theorem insertUpTo_succ (parts : List GoString) (n : Nat) (g : Graph) :
    insertUpTo parts (n + 1) g = insertStep parts (insertUpTo parts n g) n := by
  unfold insertUpTo
  rw [List.range_succ, List.foldl_append]
  rfl

theorem insertUpTo_keys (parts : List GoString) (g : Graph) :
    ∀ (n : Nat) (k : GoString),
      hasKey k (insertUpTo parts n g) ↔
        hasKey k g ∨ ∃ i, i < n ∧ k = joinSlash (parts.take (i + 1)) := by
  intro n
  induction n with
  | zero => intro k; simp [insertUpTo, List.range_zero]
  | succ m ih =>
    intro k
    rw [insertUpTo_succ, insertStep_keys, ih]
    constructor
    · rintro ((h | ⟨i, hin, hk⟩) | h)
      · exact Or.inl h
      · exact Or.inr ⟨i, by omega, hk⟩
      · exact Or.inr ⟨m, by omega, h⟩
    · rintro (h | ⟨i, hin, hk⟩)
      · exact Or.inl (Or.inl h)
      · by_cases him : i = m
        · subst him; exact Or.inr hk
        · exact Or.inl (Or.inr ⟨i, by omega, hk⟩)

theorem insertUpTo_edges (parts : List GoString) (g : Graph) :
    ∀ (n : Nat) (q d : GoString),
      hasEdge q d (insertUpTo parts n g) ↔
        hasEdge q d g ∨
          ∃ i, 0 < i ∧ i < n ∧ q = joinSlash (parts.take i) ∧
            d = joinSlash (parts.take (i + 1)) := by
  intro n
  induction n with
  | zero => intro q d; simp [insertUpTo, List.range_zero]
  | succ m ih =>
    intro q d
    have hpar : 0 < m → hasKey (joinSlash (parts.take m)) (insertUpTo parts m g) := by
      intro h0
      rw [insertUpTo_keys]
      refine Or.inr ⟨m - 1, by omega, ?_⟩
      have hm : m - 1 + 1 = m := by omega
      rw [hm]
    rw [insertUpTo_succ, insertStep_edges parts _ m q d hpar, ih]
    constructor
    · rintro ((h | ⟨i, h0, hin, hq, hd⟩) | ⟨h0, hq, hd⟩)
      · exact Or.inl h
      · exact Or.inr ⟨i, h0, by omega, hq, hd⟩
      · exact Or.inr ⟨m, h0, by omega, hq, hd⟩
    · rintro (h | ⟨i, h0, hin, hq, hd⟩)
      · exact Or.inl (Or.inl h)
      · by_cases him : i = m
        · subst him; exact Or.inr ⟨h0, hq, hd⟩
        · exact Or.inl (Or.inr ⟨i, h0, by omega, hq, hd⟩)

theorem insertUpTo_inv (parts : List GoString) (g : Graph)
    (hfree : ∀ x ∈ parts, '/' ∉ x) :
    ∀ n, n ≤ parts.length → graphInv g → graphInv (insertUpTo parts n g) := by
  intro n
  induction n with
  | zero => intro _ h; exact h
  | succ m ih =>
    intro hle hinv
    rw [insertUpTo_succ]
    exact insertStep_inv parts _ m (by omega) hfree (ih (by omega) hinv)

theorem insertRel_keys (g : Graph) (rel : GoString) (k : GoString) :
    hasKey k (insertRel g rel) ↔ hasKey k g ∨ keyFrom rel k := by
  unfold insertRel keyFrom trivialRel
  by_cases htr : rel = str "." ∨ rel = []
  · simp only [htr, if_true]
    simp [htr]
  · rw [if_neg htr]
    rw [show (List.range (splitSlash rel).length).foldl (insertStep (splitSlash rel)) g =
        insertUpTo (splitSlash rel) (splitSlash rel).length g from rfl]
    rw [insertUpTo_keys]
    constructor
    · rintro (h | ⟨i, hin, hk⟩)
      · exact Or.inl h
      · exact Or.inr ⟨htr, i, hin, hk⟩
    · rintro (h | ⟨_, i, hin, hk⟩)
      · exact Or.inl h
      · exact Or.inr ⟨i, hin, hk⟩

theorem insertRel_edges (g : Graph) (rel : GoString) (q d : GoString) :
    hasEdge q d (insertRel g rel) ↔ hasEdge q d g ∨ edgeFrom rel q d := by
  unfold insertRel edgeFrom trivialRel
  by_cases htr : rel = str "." ∨ rel = []
  · simp only [htr, if_true]
    simp [htr]
  · rw [if_neg htr]
    rw [show (List.range (splitSlash rel).length).foldl (insertStep (splitSlash rel)) g =
        insertUpTo (splitSlash rel) (splitSlash rel).length g from rfl]
    rw [insertUpTo_edges]
    constructor
    · rintro (h | ⟨i, h0, hin, hq, hd⟩)
      · exact Or.inl h
      · exact Or.inr ⟨htr, i, h0, hin, hq, hd⟩
    · rintro (h | ⟨_, i, h0, hin, hq, hd⟩)
      · exact Or.inl h
      · exact Or.inr ⟨i, h0, hin, hq, hd⟩

theorem insertRel_inv (g : Graph) (rel : GoString) (hinv : graphInv g) :
    graphInv (insertRel g rel) := by
  unfold insertRel
  by_cases htr : rel = str "." ∨ rel = []
  · simp only [htr, if_true]
    exact hinv
  · simp only [htr, if_false]
    exact insertUpTo_inv (splitSlash rel) g
      (fun x hx => splitSlash_parts_slashfree rel x hx)
      (splitSlash rel).length (le_refl _) hinv

theorem buildFold_keys (b : GoString) :
    ∀ (ps : List GoString) (g : Graph) (k : GoString),
      hasKey k (ps.foldl (fun g' p => insertRel g' (relFolderOf b p)) g) ↔
        hasKey k g ∨ ∃ p ∈ ps, keyFrom (relFolderOf b p) k := by
  intro ps
  induction ps with
  | nil => intro g k; simp
  | cons p rest ih =>
    intro g k
    rw [List.foldl_cons, ih, insertRel_keys]
    constructor
    · rintro ((h | h) | ⟨x, hx, hk⟩)
      · exact Or.inl h
      · exact Or.inr ⟨p, by simp, h⟩
      · exact Or.inr ⟨x, by simp [hx], hk⟩
    · rintro (h | ⟨x, hx, hk⟩)
      · exact Or.inl (Or.inl h)
      · rcases List.mem_cons.mp hx with hx | hx
        · subst hx; exact Or.inl (Or.inr hk)
        · exact Or.inr ⟨x, hx, hk⟩

theorem buildFold_edges (b : GoString) :
    ∀ (ps : List GoString) (g : Graph) (q d : GoString),
      hasEdge q d (ps.foldl (fun g' p => insertRel g' (relFolderOf b p)) g) ↔
        hasEdge q d g ∨ ∃ p ∈ ps, edgeFrom (relFolderOf b p) q d := by
  intro ps
  induction ps with
  | nil => intro g q d; simp
  | cons p rest ih =>
    intro g q d
    rw [List.foldl_cons, ih, insertRel_edges]
    constructor
    · rintro ((h | h) | ⟨x, hx, hk⟩)
      · exact Or.inl h
      · exact Or.inr ⟨p, by simp, h⟩
      · exact Or.inr ⟨x, by simp [hx], hk⟩
    · rintro (h | ⟨x, hx, hk⟩)
      · exact Or.inl (Or.inl h)
      · rcases List.mem_cons.mp hx with hx | hx
        · subst hx; exact Or.inl (Or.inr hk)
        · exact Or.inr ⟨x, hx, hk⟩

theorem buildFolderGraph_keys (ps : List GoString) (b : GoString) (k : GoString) :
    hasKey k (BuildFolderGraph ps b) ↔ ∃ p ∈ ps, keyFrom (relFolderOf b p) k := by
  unfold BuildFolderGraph
  rw [buildFold_keys]
  simp [hasKey, lookupA]

theorem buildFolderGraph_edges (ps : List GoString) (b : GoString) (q d : GoString) :
    hasEdge q d (BuildFolderGraph ps b) ↔ ∃ p ∈ ps, edgeFrom (relFolderOf b p) q d := by
  unfold BuildFolderGraph
  rw [buildFold_edges]
  simp [hasEdge, lookupA]

theorem buildFolderGraph_inv (ps : List GoString) (b : GoString) :
    graphInv (BuildFolderGraph ps b) := by
  unfold BuildFolderGraph
  have : ∀ (qs : List GoString) (g : Graph), graphInv g →
      graphInv (qs.foldl (fun g' p => insertRel g' (relFolderOf b p)) g) := by
    intro qs
    induction qs with
    | nil => intro g h; exact h
    | cons p rest ih =>
      intro g h
      rw [List.foldl_cons]
      exact ih _ (insertRel_inv g _ h)
  refine this ps [] ⟨List.nodup_nil, ?_⟩
  intro k n hk
  simp [lookupA] at hk

theorem slash_mem_joinSlash_two (l : List GoString) (h : 2 ≤ l.length) :
    '/' ∈ joinSlash l := by
  cases l with
  | nil => simp at h
  | cons a t =>
    cases t with
    | nil => simp at h
    | cons b t' => exact slash_mem_joinSlash a b t'

theorem hasParent_iff_edge (node : FolderNode) (g : Graph)
    (hnd : (g.map Prod.fst).Nodup) :
    HasParent node g = true ↔ ∃ q, hasEdge q node.fullPath g := by
  unfold HasParent hasEdge
  rw [List.any_eq_true]
  constructor
  · rintro ⟨⟨q, n⟩, hmem, hany⟩
    rw [List.any_eq_true] at hany
    obtain ⟨c, hc, heq⟩ := hany
    have hceq : c = node.fullPath := by simpa using heq
    subst hceq
    exact ⟨q, n, lookupA_of_mem_nodup q n g hnd hmem, hc⟩
  · rintro ⟨q, n, hq, hc⟩
    exact ⟨(q, n), mem_of_lookupA q n g hq,
      List.any_eq_true.mpr ⟨node.fullPath, hc, by simp⟩⟩

/-- C6: in the graph returned by `BuildFolderGraph`, each `fullPath` keys
exactly one node, every node records its own key as `FullPath`, and every
child reference of a node with key `k` points at a node of the graph whose
key is `k`, a separator, and the child's name. -/
theorem buildFolderGraph_structure (ps : List GoString) (b : GoString) :
    ((BuildFolderGraph ps b).map Prod.fst).Nodup ∧
    ∀ k n, lookupA k (BuildFolderGraph ps b) = some n →
      n.fullPath = k ∧
      ∀ c ∈ n.children, ∃ cn, lookupA c (BuildFolderGraph ps b) = some cn ∧
        c = k ++ '/' :: cn.name := by
  obtain ⟨h1, h2⟩ := buildFolderGraph_inv ps b
  exact ⟨h1, fun k n hk => ⟨(h2 k n hk).1, (h2 k n hk).2.2.2⟩⟩

/-- Witness for C6 on a concrete build: the child reference `"a/b"` held by
node `"a"` is the parent key plus a slash plus the child's name. -/
theorem buildFolderGraph_structure_witness :
    ∃ cn, lookupA (str "a/b") (BuildFolderGraph [str "a/b/f.json"] []) = some cn ∧
      str "a/b" = str "a" ++ '/' :: cn.name :=
  ((buildFolderGraph_structure [str "a/b/f.json"] []).2 (str "a")
    ⟨str "a", str "a", [str "a/b"], [], 0⟩ (by decide)).2 (str "a/b") (by decide)

/-- C2: building the forest from `ps ++ ps`, or from any permutation of `ps`,
yields the same key set, the same name at every common key, and the same
parent/child edge set as building from `ps`; and in every build no node's
children list contains the same reference twice. -/
theorem buildFolderGraph_order_indep (ps qs : List GoString) (b : GoString)
    (h : qs = ps ++ ps ∨ ps.Perm qs) :
    (∀ k, hasKey k (BuildFolderGraph ps b) ↔ hasKey k (BuildFolderGraph qs b)) ∧
    (∀ k n m, lookupA k (BuildFolderGraph ps b) = some n →
        lookupA k (BuildFolderGraph qs b) = some m → n.name = m.name) ∧
    (∀ q d, hasEdge q d (BuildFolderGraph ps b) ↔ hasEdge q d (BuildFolderGraph qs b)) ∧
    (∀ k n, lookupA k (BuildFolderGraph qs b) = some n → n.children.Nodup) := by
  have hmem : ∀ p : GoString, p ∈ ps ↔ p ∈ qs := by
    intro p
    rcases h with h | h
    · subst h; simp
    · exact h.mem_iff
  refine ⟨?_, ?_, ?_, ?_⟩
  · intro k
    rw [buildFolderGraph_keys, buildFolderGraph_keys]
    constructor
    · rintro ⟨p, hp, hkf⟩; exact ⟨p, (hmem p).mp hp, hkf⟩
    · rintro ⟨p, hp, hkf⟩; exact ⟨p, (hmem p).mpr hp, hkf⟩
  · intro k n m hn hm
    have h1 := ((buildFolderGraph_inv ps b).2 k n hn).2.1
    have h2 := ((buildFolderGraph_inv qs b).2 k m hm).2.1
    rw [h1, h2]
  · intro q d
    rw [buildFolderGraph_edges, buildFolderGraph_edges]
    constructor
    · rintro ⟨p, hp, hkf⟩; exact ⟨p, (hmem p).mp hp, hkf⟩
    · rintro ⟨p, hp, hkf⟩; exact ⟨p, (hmem p).mpr hp, hkf⟩
  · intro k n hk
    exact ((buildFolderGraph_inv qs b).2 k n hk).2.2.1

/-- Witness for C2 on a concrete input: duplicating the path list leaves the
key `"a"` present in both builds. -/
theorem buildFolderGraph_order_indep_witness :
    hasKey (str "a") (BuildFolderGraph [str "a/b/f.json"] []) ↔
      hasKey (str "a")
        (BuildFolderGraph ([str "a/b/f.json"] ++ [str "a/b/f.json"]) []) :=
  (buildFolderGraph_order_indep [str "a/b/f.json"] ([str "a/b/f.json"] ++ [str "a/b/f.json"])
    [] (Or.inl rfl)).1 (str "a")

/-- C7: a node of a built forest has no parent edge (`HasParent` is false)
exactly when its `fullPath` contains no separator. -/
theorem hasParent_iff_no_separator (ps : List GoString) (b : GoString)
    (node : FolderNode)
    (h : ∃ k, lookupA k (BuildFolderGraph ps b) = some node) :
    (HasParent node (BuildFolderGraph ps b) = false ↔ '/' ∉ node.fullPath) := by
  obtain ⟨k, hk⟩ := h
  have hinv := buildFolderGraph_inv ps b
  have hfp : node.fullPath = k := (hinv.2 k node hk).1
  rw [← Bool.not_eq_true, hasParent_iff_edge node _ hinv.1, hfp]
  constructor
  · intro hno
    intro hslash
    apply hno
    have hkey : hasKey k (BuildFolderGraph ps b) := by
      unfold hasKey
      rw [hk]
      rfl
    obtain ⟨p, hp, hntr, i, hi, hkeq⟩ := (buildFolderGraph_keys ps b k).mp hkey
    have hine : i ≠ 0 := by
      intro h0
      subst h0
      cases hparts : splitSlash (relFolderOf b p) with
      | nil => exact splitSlash_ne_nil _ hparts
      | cons x rest =>
        rw [hparts] at hkeq
        simp only [List.take_succ_cons, List.take_zero] at hkeq
        have : joinSlash [x] = x := rfl
        rw [this] at hkeq
        have hxfree : '/' ∉ x := splitSlash_parts_slashfree _ x (by rw [hparts]; simp)
        rw [hkeq] at hslash
        exact hxfree hslash
    refine ⟨joinSlash ((splitSlash (relFolderOf b p)).take i), ?_⟩
    rw [buildFolderGraph_edges]
    exact ⟨p, hp, hntr, i, Nat.pos_of_ne_zero hine, hi, rfl, hkeq⟩
  · intro hfree ⟨q, hedge⟩
    obtain ⟨p, hp, hntr, i, h0, hi, _, hkeq⟩ := (buildFolderGraph_edges ps b q k).mp hedge
    apply hfree
    rw [hkeq]
    apply slash_mem_joinSlash_two
    rw [List.length_take]
    omega

/-- Witness for C7 on a concrete forest: the root node `"a"` has no parent and
its `fullPath` has no separator. -/
theorem hasParent_iff_no_separator_witness :
    HasParent ⟨str "a", str "a", [str "a/b"], [], 0⟩
        (BuildFolderGraph [str "a/b/f.json"] []) = false ↔
      '/' ∉ (FolderNode.mk (str "a") (str "a") [str "a/b"] [] 0).fullPath :=
  hasParent_iff_no_separator [str "a/b/f.json"] []
    ⟨str "a", str "a", [str "a/b"], [], 0⟩ ⟨str "a", by decide⟩

/-! ### The Grafana client

The client (`Client` in the grafana package) holds the folder cache
`folders : map[string]int` and talks to the server over HTTP.  The remote
surface is modelled by `Api`: a response function for the two endpoints the
reconciler uses, threading a server state of type `ρ`; the `Except` layer
models a transport error from `c.client.Do`. -/

structure GFolder where
  id : Int
  uid : GoString
  title : GoString
  parentUid : GoString
deriving DecidableEq, Repr

structure ListResp where
  status : Nat
  folders : List GFolder
deriving DecidableEq, Repr

structure CreateResp where
  status : Nat
  id : Int
  uid : GoString
  body : GoString
deriving DecidableEq, Repr

structure Api (ρ : Type) where
  list : ρ → GoString → Except GoString ListResp × ρ
  create : ρ → GoString → GoString → Except GoString CreateResp × ρ

abbrev FolderCache := List (GoString × Int)

/-- The matching loop of `getFolderByTitle`: first folder whose title equals
`title` and whose parent reference matches `parentUid` (empty means root). -/
def findFolderMatch : List GFolder → GoString → GoString → Int × GoString
  | [], _, _ => (0, [])
  | f :: fs, title, parentUid =>
    if f.title = title ∧ ((parentUid = [] ∧ f.parentUid = []) ∨
        (parentUid ≠ [] ∧ f.parentUid = parentUid)) then
      (f.id, f.uid)
    else findFolderMatch fs title parentUid

/-- `getFolderByTitle` from the grafana client: list the parent scope and
return the first match, `(0, "")` when not found. -/
def getFolderByTitle {ρ : Type} (api : Api ρ) (st : ρ) (title parentUid : GoString) :
    Except GoString (Int × GoString) × ρ :=
  match api.list st parentUid with
  | (.error e, st') => (.error e, st')
  | (.ok r, st') =>
    if r.status ≠ 200 then (.error (str "failed to list folders"), st')
    else (.ok (findFolderMatch r.folders title parentUid), st')

/-- The reconciler's view of a `sync.FolderNode` subtree: children resolved to
subtrees.  `id`/`uid` are the fields the walk mutates in place. -/
inductive FolderTree where
  | mk (name fullPath : GoString) (id : Int) (uid : GoString)
      (children : List FolderTree)

def FolderTree.name : FolderTree → GoString
  | .mk n _ _ _ _ => n

def FolderTree.fullPath : FolderTree → GoString
  | .mk _ fp _ _ _ => fp

def FolderTree.nodeId : FolderTree → Int
  | .mk _ _ i _ _ => i

def FolderTree.nodeUid : FolderTree → GoString
  | .mk _ _ _ u _ => u

def FolderTree.children : FolderTree → List FolderTree
  | .mk _ _ _ _ cs => cs

mutual
/-- `CreateFolderTreeFromNode` from the grafana client: query-before-create
per node, conflict recovery by re-query, cache write-through, then recurse
into the children with the resolved uid as their parent reference.  Returns
the Go error, the tree with its in-place mutations, the server state, and the
client's folder cache. -/
def CreateFolderTreeFromNode {ρ : Type} (api : Api ρ) (st : ρ) (cache : FolderCache)
    (node : FolderTree) (parentUid : GoString) :
    Except GoString Unit × FolderTree × ρ × FolderCache :=
  match node with
  | .mk name fullPath id0 uid0 children =>
    match getFolderByTitle api st name parentUid with
    | (.error e, st1) =>
      (.error (str "failed to check existing folder: " ++ e),
       .mk name fullPath id0 uid0 children, st1, cache)
    | (.ok (eid, euid), st1) =>
      if 0 < eid then
        let res := createChildren api st1 (setA fullPath eid cache) children euid
        (res.1, .mk name fullPath eid euid res.2.1, res.2.2)
      else
        match api.create st1 name parentUid with
        | (.error e, st2) => (.error e, .mk name fullPath id0 uid0 children, st2, cache)
        | (.ok cr, st2) =>
          if 300 ≤ cr.status then
            if cr.status = 409 ∨ cr.status = 412 then
              match getFolderByTitle api st2 name parentUid with
              | (.error _, st3) =>
                (.error (str "folder exists but cannot retrieve: " ++ cr.body),
                 .mk name fullPath id0 uid0 children, st3, cache)
              | (.ok (eid2, euid2), st3) =>
                if eid2 = 0 then
                  (.error (str "folder exists but cannot retrieve: " ++ cr.body),
                   .mk name fullPath id0 uid0 children, st3, cache)
                else
                  let res :=
                    createChildren api st3 (setA fullPath eid2 cache) children euid2
                  (res.1, .mk name fullPath eid2 euid2 res.2.1, res.2.2)
            else
              (.error (str "failed to create folder " ++ name ++ str ": " ++ cr.body),
               .mk name fullPath id0 uid0 children, st2, cache)
          else
            let res := createChildren api st2 (setA fullPath cr.id cache) children cr.uid
            (res.1, .mk name fullPath cr.id cr.uid res.2.1, res.2.2)

/-- The child loop of `CreateFolderTreeFromNode`: stop at the first failing
child, propagating its error. -/
def createChildren {ρ : Type} (api : Api ρ) (st : ρ) (cache : FolderCache)
    (children : List FolderTree) (parentUid : GoString) :
    Except GoString Unit × List FolderTree × ρ × FolderCache :=
  match children with
  | [] => (.ok (), [], st, cache)
  | c :: rest =>
    let rc := CreateFolderTreeFromNode api st cache c parentUid
    match rc.1 with
    | .error e => (.error e, rc.2.1 :: rest, rc.2.2)
    | .ok _ =>
      let rr := createChildren api rc.2.2.1 rc.2.2.2 rest parentUid
      (rr.1, rc.2.1 :: rr.2.1, rr.2.2)
end

/-- Server-side folder state for the honest Grafana server model. -/
structure GState where
  folders : List GFolder
  nextId : Nat
  creates : Nat
deriving DecidableEq, Repr

/-- Title/parent match used by the honest server's create-conflict check;
it is the same condition the client applies when listing. -/
def matchCondB (f : GFolder) (title parentUid : GoString) : Bool :=
  decide (f.title = title ∧ ((parentUid = [] ∧ f.parentUid = []) ∨
    (parentUid ≠ [] ∧ f.parentUid = parentUid)))

def mkUid (n : Nat) : GoString := 'u' :: Nat.toDigits 10 n

/-- Honest Grafana server: listing returns every folder with status 200 and
no state change; create returns 409 when a folder with the same title and
parent reference exists, and otherwise appends a fresh folder with a fresh
positive id.  `creates` counts the create requests received. -/
def honest : Api GState where
  list st _ := (.ok ⟨200, st.folders⟩, st)
  create st title parentUid :=
    if st.folders.any (fun f => matchCondB f title parentUid) then
      (.ok ⟨409, 0, [], str "conflict"⟩, { st with creates := st.creates + 1 })
    else
      (.ok ⟨200, Int.ofNat st.nextId, mkUid st.nextId, []⟩,
       ⟨st.folders ++ [⟨Int.ofNat st.nextId, mkUid st.nextId, title, parentUid⟩],
        st.nextId + 1, st.creates + 1⟩)

/-- Sanity condition on the server state: folder ids are positive and the
next id to be allocated is positive. -/
def wellFormedServer (st : GState) : Prop :=
  (∀ f ∈ st.folders, 0 < f.id) ∧ 1 ≤ st.nextId

/-- The per-segment loop of `createFolderRecursive`, carrying `currentPath`,
`folderID` and `currentUID` exactly as the Go loop does. -/
def createFolderLoop {ρ : Type} (api : Api ρ) :
    List GoString → ρ → FolderCache → GoString → Int → GoString →
    Except GoString Int × ρ × FolderCache
  | [], st, cache, _, folderID, _ => (.ok folderID, st, cache)
  | name :: rest, st, cache, currentPath, _, currentUID =>
    let currentPath' := if currentPath = [] then name else currentPath ++ '/' :: name
    match getFolderByTitle api st name currentUID with
    | (.error e, st1) =>
      (.error (str "failed to check existing folder: " ++ e), st1, cache)
    | (.ok (eid, euid), st1) =>
      if 0 < eid then
        createFolderLoop api rest st1 (setA currentPath' eid cache) currentPath' eid euid
      else
        match api.create st1 name currentUID with
        | (.error e, st2) => (.error e, st2, cache)
        | (.ok cr, st2) =>
          if 300 ≤ cr.status then
            if cr.status = 409 ∨ cr.status = 412 then
              match getFolderByTitle api st2 name currentUID with
              | (.error _, st3) =>
                (.error (str "folder exists but cannot retrieve: " ++ cr.body), st3, cache)
              | (.ok (eid2, euid2), st3) =>
                if eid2 = 0 then
                  (.error (str "folder exists but cannot retrieve: " ++ cr.body), st3, cache)
                else
                  createFolderLoop api rest st3 (setA currentPath' eid2 cache)
                    currentPath' eid2 euid2
            else
              (.error (str "failed to create folder " ++ name ++ str ": " ++ cr.body),
               st2, cache)
          else
            createFolderLoop api rest st2 (setA currentPath' cr.id cache)
              currentPath' cr.id cr.uid

/-- `createFolderRecursive` from the grafana client. -/
def createFolderRecursive {ρ : Type} (api : Api ρ) (st : ρ) (cache : FolderCache)
    (folderPath parentUID : GoString) : Except GoString Int × ρ × FolderCache :=
  let parts := splitFolderPath folderPath
  if parts = [] then (.error (str "empty folder path"), st, cache)
  else createFolderLoop api parts st cache [] 0 parentUID

/-- `CreateFolderTree` from the grafana client: cache check first, then the
recursive create from the root scope. -/
def CreateFolderTree {ρ : Type} (api : Api ρ) (st : ρ) (cache : FolderCache)
    (folderPath : GoString) : Except GoString Int × ρ × FolderCache :=
  match lookupA folderPath cache with
  | some id => (.ok id, st, cache)
  | none => createFolderRecursive api st cache folderPath []

/-! ### C10: degenerate folder paths -/

def noDoubleDot : GoString → Bool
  | c1 :: c2 :: rest => if c1 = '.' ∧ c2 = '.' then false else noDoubleDot (c2 :: rest)
  | _ => true

/-- A folder path that normalizes to zero segments, as the claim describes it:
only separator characters and `"."` segments. -/
def degeneratePath (p : GoString) : Prop :=
  (∀ c ∈ p, c = '/' ∨ c = '\\' ∨ c = '.') ∧ noDoubleDot p = true

instance degeneratePathDec (p : GoString) : Decidable (degeneratePath p) :=
  inferInstanceAs
    (Decidable ((∀ c ∈ p, c = '/' ∨ c = '\\' ∨ c = '.') ∧ noDoubleDot p = true))

theorem splitByAux_eq_splitSlash :
    ∀ (s cur : GoString),
      splitByAux '/' s cur =
        ((cur ++ (splitSlash s).headD []) :: (splitSlash s).tail).filter
          (fun p => decide (p ≠ [])) := by
  intro s
  induction s with
  | nil =>
    intro cur
    by_cases hcur : cur = []
    · simp [splitByAux, splitSlash, hcur]
    · simp [splitByAux, splitSlash, hcur]
  | cons c cs ih =>
    intro cur
    by_cases hc : c = '/'
    · subst hc
      rw [show splitSlash ('/' :: cs) = [] :: splitSlash cs from by simp [splitSlash]]
      by_cases hcur : cur = []
      · simp only [splitByAux, if_pos rfl, hcur, if_pos rfl]
        rw [ih []]
        cases hs : splitSlash cs with
        | nil => exact absurd hs (splitSlash_ne_nil cs)
        | cons p ps => simp
      · simp only [splitByAux, if_pos rfl, hcur, if_neg hcur]
        rw [ih []]
        cases hs : splitSlash cs with
        | nil => exact absurd hs (splitSlash_ne_nil cs)
        | cons p ps => simp [hcur]
    · obtain ⟨p, ps, hps⟩ : ∃ p ps, splitSlash cs = p :: ps := by
        cases h : splitSlash cs with
        | nil => exact absurd h (splitSlash_ne_nil cs)
        | cons p ps => exact ⟨p, ps, rfl⟩
      have hsplit : splitSlash (c :: cs) = (c :: p) :: ps := by
        simp only [splitSlash, hc, if_false, hps]
      rw [hsplit]
      simp only [splitByAux, hc, if_false]
      rw [ih (cur ++ [c]), hps]
      simp

theorem splitBy_eq_filter (s : GoString) :
    splitBy s '/' = (splitSlash s).filter (fun p => decide (p ≠ [])) := by
  unfold splitBy
  rw [splitByAux_eq_splitSlash s []]
  cases hs : splitSlash s with
  | nil => exact absurd hs (splitSlash_ne_nil s)
  | cons p ps => simp

theorem splitSlash_headD_empty :
    ∀ cs : GoString, (splitSlash cs).headD [] = [] ↔
      (cs = [] ∨ cs.head? = some '/') := by
  intro cs
  cases cs with
  | nil => simp [splitSlash]
  | cons c t =>
    by_cases hc : c = '/'
    · simp [splitSlash, hc]
    · obtain ⟨p, ps, hps⟩ : ∃ p ps, splitSlash t = p :: ps := by
        cases h : splitSlash t with
        | nil => exact absurd h (splitSlash_ne_nil t)
        | cons p ps => exact ⟨p, ps, rfl⟩
      simp only [splitSlash, hc, if_false, hps]
      simp [hc]

theorem noDoubleDot_cons2 (c1 c2 : Char) (rest : GoString) :
    noDoubleDot (c1 :: c2 :: rest) =
      if c1 = '.' ∧ c2 = '.' then false else noDoubleDot (c2 :: rest) := rfl

theorem allParts_iff :
    ∀ s : GoString, (∀ p ∈ splitSlash s, p = [] ∨ p = ['.']) ↔
      ((∀ c ∈ s, c = '/' ∨ c = '.') ∧ noDoubleDot s = true) := by
  intro s
  induction s with
  | nil => simp [splitSlash, noDoubleDot]
  | cons c cs ih =>
    by_cases hc : c = '/'
    · subst hc
      have hnd : noDoubleDot ('/' :: cs) = noDoubleDot cs := by
        cases cs with
        | nil => rfl
        | cons c2 t => simp [noDoubleDot]
      constructor
      · intro h
        have hcs := ih.mp (fun p hp => h p (by simp [splitSlash, hp]))
        refine ⟨?_, by rw [hnd]; exact hcs.2⟩
        intro x hx
        rcases List.mem_cons.mp hx with hx | hx
        · exact Or.inl hx
        · exact hcs.1 x hx
      · rintro ⟨hch, hndd⟩
        intro p hp
        simp only [splitSlash, if_pos rfl] at hp
        rcases List.mem_cons.mp hp with hp | hp
        · exact Or.inl hp
        · exact (ih.mpr ⟨fun x hx => hch x (by simp [hx]), by rw [hnd] at hndd; exact hndd⟩) p hp
    · obtain ⟨p, ps, hps⟩ : ∃ p ps, splitSlash cs = p :: ps := by
        cases h : splitSlash cs with
        | nil => exact absurd h (splitSlash_ne_nil cs)
        | cons p ps => exact ⟨p, ps, rfl⟩
      have hsplit : splitSlash (c :: cs) = (c :: p) :: ps := by
        simp only [splitSlash, hc, if_false, hps]
      rw [hsplit]
      constructor
      · intro h
        have hcp := h (c :: p) (by simp)
        rcases hcp with hcp | hcp
        · exact absurd hcp (by simp)
        · have hcp2 : c = '.' ∧ p = [] := by
            have h1 : c :: p = '.' :: [] := hcp
            injection h1 with ha hb
            exact ⟨ha, hb⟩
          obtain ⟨hcd, hp0⟩ := hcp2
          subst hcd
          have hcsparts : ∀ q ∈ splitSlash cs, q = [] ∨ q = ['.'] := by
            intro q hq
            rw [hps] at hq
            rcases List.mem_cons.mp hq with hq | hq
            · subst hq; rw [hp0]; exact Or.inl rfl
            · exact h q (by simp [hq])
          have hcs := ih.mp hcsparts
          have hhead : cs = [] ∨ cs.head? = some '/' := by
            rw [← splitSlash_headD_empty]
            rw [hps, hp0]
            rfl
          refine ⟨?_, ?_⟩
          · intro x hx
            rcases List.mem_cons.mp hx with hx | hx
            · exact Or.inr (hx.trans rfl)
            · exact hcs.1 x hx
          · rcases hhead with hcs0 | hcs0
            · subst hcs0; rfl
            · cases cs with
              | nil => rfl
              | cons c2 t =>
                have hc2 : c2 = '/' := by simpa using hcs0
                subst hc2
                rw [noDoubleDot_cons2]
                have hcond : ¬(('.' : Char) = '.' ∧ ('/' : Char) = '.') := by decide
                rw [if_neg hcond]
                exact hcs.2
      · rintro ⟨hch, hndd⟩
        have hcd : c = '.' := by
          rcases hch c (by simp) with h | h
          · exact absurd h hc
          · exact h
        subst hcd
        have hcschars : ∀ x ∈ cs, x = '/' ∨ x = '.' := fun x hx => hch x (by simp [hx])
        have hndcs : noDoubleDot cs = true := by
          cases cs with
          | nil => rfl
          | cons c2 t =>
            rw [noDoubleDot_cons2] at hndd
            by_cases h2 : ('.' : Char) = '.' ∧ c2 = '.'
            · rw [if_pos h2] at hndd; exact absurd hndd (by simp)
            · rw [if_neg h2] at hndd; exact hndd
        have hhead : cs = [] ∨ cs.head? = some '/' := by
          cases cs with
          | nil => exact Or.inl rfl
          | cons c2 t =>
            refine Or.inr ?_
            have hc2 : c2 = '/' := by
              rcases hcschars c2 (by simp) with h | h
              · exact h
              · exfalso
                rw [noDoubleDot_cons2, if_pos ⟨rfl, h⟩] at hndd
                exact absurd hndd (by simp)
            simp [hc2]
        have hpnil : p = [] := by
          have := (splitSlash_headD_empty cs).mpr hhead
          rw [hps] at this
          simpa using this
        have hparts := ih.mpr ⟨hcschars, hndcs⟩
        intro q hq
        rcases List.mem_cons.mp hq with hq | hq
        · subst hq; rw [hpnil]; exact Or.inr rfl
        · exact hparts q (by simp [hps, hq])

theorem repSep_dot (c : Char) :
    ((if c = '/' ∨ c = '\\' then '/' else c) = '.') ↔ c = '.' := by
  by_cases h : c = '/' ∨ c = '\\'
  · rw [if_pos h]
    constructor
    · intro hh
      exact absurd hh (by decide)
    · intro hh
      subst hh
      rcases h with h | h <;> exact absurd h (by decide)
  · rw [if_neg h]

theorem noDoubleDot_rep :
    ∀ p : GoString, noDoubleDot (replaceSeparators p '/') = noDoubleDot p := by
  intro p
  induction p with
  | nil => rfl
  | cons c1 rest ih =>
    cases rest with
    | nil => rfl
    | cons c2 r =>
      rw [show replaceSeparators (c1 :: c2 :: r) '/' =
          (if c1 = '/' ∨ c1 = '\\' then '/' else c1) ::
          replaceSeparators (c2 :: r) '/' from rfl]
      rw [show replaceSeparators (c2 :: r) '/' =
          (if c2 = '/' ∨ c2 = '\\' then '/' else c2) ::
          replaceSeparators r '/' from rfl]
      rw [noDoubleDot_cons2, noDoubleDot_cons2]
      by_cases hd : c1 = '.' ∧ c2 = '.'
      · rw [if_pos hd,
          if_pos ⟨(repSep_dot c1).mpr hd.1, (repSep_dot c2).mpr hd.2⟩]
      · rw [if_neg hd, if_neg (fun hcon =>
          hd ⟨(repSep_dot c1).mp hcon.1, (repSep_dot c2).mp hcon.2⟩)]
        have h2 := ih
        rw [show replaceSeparators (c2 :: r) '/' =
            (if c2 = '/' ∨ c2 = '\\' then '/' else c2) ::
            replaceSeparators r '/' from rfl] at h2
        exact h2

theorem chars_rep_iff (p : GoString) :
    (∀ c ∈ replaceSeparators p '/', c = '/' ∨ c = '.') ↔
      (∀ c ∈ p, c = '/' ∨ c = '\\' ∨ c = '.') := by
  unfold replaceSeparators
  constructor
  · intro h c hc
    have hmem := h _ (List.mem_map_of_mem _ hc)
    by_cases hs : c = '/' ∨ c = '\\'
    · rcases hs with hs | hs
      · exact Or.inl hs
      · exact Or.inr (Or.inl hs)
    · rw [if_neg hs] at hmem
      rcases hmem with hmem | hmem
      · exact Or.inl hmem
      · exact Or.inr (Or.inr hmem)
  · intro h c' hc'
    rw [List.mem_map] at hc'
    obtain ⟨c, hc, hfc⟩ := hc'
    subst hfc
    by_cases hs : c = '/' ∨ c = '\\'
    · rw [if_pos hs]
      exact Or.inl rfl
    · rw [if_neg hs]
      rcases h c hc with h1 | h1 | h1
      · exact Or.inl h1
      · exact absurd (Or.inr h1) hs
      · exact Or.inr h1

theorem degenerate_iff (p : GoString) :
    degeneratePath p ↔ splitFolderPath p = [] := by
  unfold splitFolderPath
  by_cases hsp : p = [] ∨ p = str "."
  · rw [if_pos hsp]
    constructor
    · intro _
      rfl
    · intro _
      rcases hsp with h | h <;> subst h <;> exact (by decide)
  · rw [if_neg hsp]
    unfold splitPath
    rw [splitBy_eq_filter]
    constructor
    · intro hdeg
      rw [List.filter_eq_nil_iff]
      intro a ha
      rw [List.mem_filter] at ha
      have hall := (allParts_iff (replaceSeparators p '/')).mpr
        ⟨(chars_rep_iff p).mpr hdeg.1, by rw [noDoubleDot_rep]; exact hdeg.2⟩
      rcases hall a ha.1 with h | h
      · subst h
        simp at ha
      · rw [h]
        intro hcon
        simp only [Bool.and_eq_true, decide_eq_true_eq] at hcon
        exact hcon.2 (by rfl)
    · intro hnil
      rw [List.filter_eq_nil_iff] at hnil
      have hall : ∀ a ∈ splitSlash (replaceSeparators p '/'), a = [] ∨ a = ['.'] := by
        intro a ha
        by_cases hae : a = []
        · exact Or.inl hae
        · have hmem : a ∈ (splitSlash (replaceSeparators p '/')).filter
              (fun q => decide (q ≠ [])) := by
            rw [List.mem_filter]
            exact ⟨ha, by simp [hae]⟩
          have := hnil a hmem
          simp only [Bool.and_eq_true, decide_eq_true_eq, not_and, not_not] at this
          exact Or.inr (this hae)
      have := (allParts_iff (replaceSeparators p '/')).mp hall
      exact ⟨(chars_rep_iff p).mp this.1, by rw [← noDoubleDot_rep]; exact this.2⟩

/-- C10: for every folder path consisting only of separators and `"."`
segments (so that segment splitting yields zero segments), and a cache with
no entry for that exact string, `CreateFolderTree` fails with
`"empty folder path"` for every possible remote, leaving the server state and
the cache untouched — no remote query or create is issued. -/
theorem createFolderTree_degenerate :
    (∀ p : GoString, degeneratePath p ↔ splitFolderPath p = []) ∧
    ∀ (ρ : Type) (api : Api ρ) (st : ρ) (cache : FolderCache) (p : GoString),
      degeneratePath p → lookupA p cache = none →
      CreateFolderTree api st cache p =
        (.error (str "empty folder path"), st, cache) := by
  refine ⟨degenerate_iff, ?_⟩
  intro ρ api st cache p hdeg hmiss
  unfold CreateFolderTree
  rw [hmiss]
  unfold createFolderRecursive
  rw [(degenerate_iff p).mp hdeg]
  rfl

/-- Witness for C10: the path `"/."` is degenerate and fails without touching
anything, here against the honest server. -/
theorem createFolderTree_degenerate_witness :
    CreateFolderTree honest ⟨[], 1, 0⟩ [] (str "/.") =
      (.error (str "empty folder path"), ⟨[], 1, 0⟩, []) :=
  createFolderTree_degenerate.2 GState honest ⟨[], 1, 0⟩ [] (str "/.")
    (by decide) rfl

/-- C3: during reconciliation of a node whose existence query missed, a create
failure with a conflict status (409/412) followed by a successful re-query
that finds the pre-existing folder does not fail the node: the node adopts
that folder's id/uid, the cache entry for its fullPath is that id, and the
walk continues into the children; any non-conflict create failure status is
propagated to the caller as an error. -/
theorem conflict_convergence {ρ : Type} (api : Api ρ) (st st1 st2 st3 : ρ)
    (c : FolderCache) (name fullPath : GoString) (id0 : Int) (uid0 : GoString)
    (cs : List FolderTree) (p : GoString) (L L' : List GFolder)
    (cr : CreateResp) (eid2 : Int) (euid2 : GoString)
    (h1 : api.list st p = (.ok ⟨200, L⟩, st1))
    (h2 : ¬ 0 < (findFolderMatch L name p).1)
    (h3 : api.create st1 name p = (.ok cr, st2))
    (h4 : 300 ≤ cr.status)
    (h5 : api.list st2 p = (.ok ⟨200, L'⟩, st3))
    (h6 : findFolderMatch L' name p = (eid2, euid2))
    (h7 : eid2 ≠ 0) :
    ((cr.status = 409 ∨ cr.status = 412) →
      CreateFolderTreeFromNode api st c (.mk name fullPath id0 uid0 cs) p =
        ((createChildren api st3 (setA fullPath eid2 c) cs euid2).1,
         .mk name fullPath eid2 euid2
           (createChildren api st3 (setA fullPath eid2 c) cs euid2).2.1,
         (createChildren api st3 (setA fullPath eid2 c) cs euid2).2.2) ∧
      lookupA fullPath (setA fullPath eid2 c) = some eid2) ∧
    (¬(cr.status = 409 ∨ cr.status = 412) →
      CreateFolderTreeFromNode api st c (.mk name fullPath id0 uid0 cs) p =
        (.error (str "failed to create folder " ++ name ++ str ": " ++ cr.body),
         .mk name fullPath id0 uid0 cs, st2, c)) := by
  obtain ⟨e0, u0, he⟩ : ∃ e0 u0, findFolderMatch L name p = (e0, u0) := ⟨_, _, rfl⟩
  rw [he] at h2
  simp only at h2
  have hg1 : getFolderByTitle api st name p = (.ok (e0, u0), st1) := by
    unfold getFolderByTitle
    rw [h1]
    simp [he]
  have hg2 : getFolderByTitle api st2 name p = (.ok (eid2, euid2), st3) := by
    unfold getFolderByTitle
    rw [h5]
    simp [h6]
  have hcommon :
      CreateFolderTreeFromNode api st c (.mk name fullPath id0 uid0 cs) p =
        (if cr.status = 409 ∨ cr.status = 412 then
          match getFolderByTitle api st2 name p with
          | (.error _, st3') =>
            (.error (str "folder exists but cannot retrieve: " ++ cr.body),
             .mk name fullPath id0 uid0 cs, st3', c)
          | (.ok (eid2', euid2'), st3') =>
            if eid2' = 0 then
              (.error (str "folder exists but cannot retrieve: " ++ cr.body),
               .mk name fullPath id0 uid0 cs, st3', c)
            else
              ((createChildren api st3' (setA fullPath eid2' c) cs euid2').1,
               .mk name fullPath eid2' euid2'
                 (createChildren api st3' (setA fullPath eid2' c) cs euid2').2.1,
               (createChildren api st3' (setA fullPath eid2' c) cs euid2').2.2)
         else
          (.error (str "failed to create folder " ++ name ++ str ": " ++ cr.body),
           .mk name fullPath id0 uid0 cs, st2, c)) := by
    simp only [CreateFolderTreeFromNode]
    rw [hg1]
    simp only [if_neg h2]
    rw [h3]
    simp only [if_pos h4]
  constructor
  · intro hconf
    refine ⟨?_, lookupA_setA_self fullPath eid2 c⟩
    rw [hcommon, if_pos hconf, hg2]
    simp only [if_neg h7]
  · intro hconf
    rw [hcommon, if_neg hconf]

inductive ScriptItem where
  | ls (r : ListResp)
  | cr (r : CreateResp)
deriving DecidableEq, Repr

/-- A scripted remote used by witnesses: responses are consumed from a list,
so races (a folder appearing between the query and the create) can be
exhibited. -/
def scripted : Api (List ScriptItem) where
  list st _ :=
    match st with
    | .ls r :: rest => (.ok r, rest)
    | _ => (.error (str "net"), st)
  create st _ _ :=
    match st with
    | .cr r :: rest => (.ok r, rest)
    | _ => (.error (str "net"), st)

/-- Witness for C3: query misses, create returns 409, re-query finds the
pre-existing folder `(id 7, uid "u7")`; the node converges onto it. -/
theorem conflict_convergence_witness :
    CreateFolderTreeFromNode scripted
        [.ls ⟨200, []⟩, .cr ⟨409, 0, [], str "x"⟩,
         .ls ⟨200, [⟨7, str "u7", str "a", []⟩]⟩] []
        (.mk (str "a") (str "a") 0 [] []) [] =
      (.ok (), .mk (str "a") (str "a") 7 (str "u7") [], [], [(str "a", 7)]) :=
  (((conflict_convergence scripted
      [.ls ⟨200, []⟩, .cr ⟨409, 0, [], str "x"⟩,
       .ls ⟨200, [⟨7, str "u7", str "a", []⟩]⟩]
      [.cr ⟨409, 0, [], str "x"⟩, .ls ⟨200, [⟨7, str "u7", str "a", []⟩]⟩]
      [.ls ⟨200, [⟨7, str "u7", str "a", []⟩]⟩] []
      [] (str "a") (str "a") 0 [] [] []
      [] [⟨7, str "u7", str "a", []⟩] ⟨409, 0, [], str "x"⟩ 7 (str "u7")
      rfl (by decide) rfl (by decide) rfl (by decide) (by decide)).1
    (Or.inl rfl)).1).trans rfl

/-! ### Honest-server computation lemmas -/

/-- The client-side match condition of `getFolderByTitle`, as a proposition. -/
abbrev clientMatch (f : GFolder) (title parentUid : GoString) : Prop :=
  f.title = title ∧ ((parentUid = [] ∧ f.parentUid = []) ∨
    (parentUid ≠ [] ∧ f.parentUid = parentUid))

theorem findFolderMatch_found_append (ext : List GFolder) (title parentUid : GoString) :
    ∀ l : List GFolder, 0 < (findFolderMatch l title parentUid).1 →
      findFolderMatch (l ++ ext) title parentUid = findFolderMatch l title parentUid := by
  intro l
  induction l with
  | nil => intro h; simp [findFolderMatch] at h
  | cons f fs ih =>
    intro h
    by_cases hcond : clientMatch f title parentUid
    · simp only [List.cons_append, findFolderMatch, if_pos hcond]
    · simp only [findFolderMatch, if_neg hcond] at h
      simp only [List.cons_append, findFolderMatch, if_neg hcond]
      exact ih h

theorem findFolderMatch_nomatch (title parentUid : GoString) :
    ∀ l : List GFolder, (∀ f ∈ l, ¬ clientMatch f title parentUid) →
      ∀ ext, findFolderMatch (l ++ ext) title parentUid =
        findFolderMatch ext title parentUid := by
  intro l
  induction l with
  | nil => intro _ ext; rfl
  | cons f fs ih =>
    intro h ext
    simp only [List.cons_append, findFolderMatch, if_neg (h f (by simp))]
    exact ih (fun x hx => h x (by simp [hx])) ext

theorem findFolderMatch_miss (title parentUid : GoString) :
    ∀ l : List GFolder, (∀ f ∈ l, 0 < f.id) →
      ¬ 0 < (findFolderMatch l title parentUid).1 →
      ∀ f ∈ l, ¬ clientMatch f title parentUid := by
  intro l
  induction l with
  | nil => intro _ _ f hf; simp at hf
  | cons g gs ih =>
    intro hpos hmiss f hf
    by_cases hcond : clientMatch g title parentUid
    · exfalso
      apply hmiss
      simp only [findFolderMatch, if_pos hcond]
      exact hpos g (by simp)
    · rcases List.mem_cons.mp hf with hf | hf
      · subst hf; exact hcond
      · refine ih (fun x hx => hpos x (by simp [hx])) ?_ f hf
        simpa only [findFolderMatch, if_neg hcond] using hmiss

theorem findFolderMatch_head (f : GFolder) (fs : List GFolder)
    (title parentUid : GoString) (h : clientMatch f title parentUid) :
    findFolderMatch (f :: fs) title parentUid = (f.id, f.uid) := by
  simp only [findFolderMatch, if_pos h]

theorem clientMatch_self (id : Int) (uid : GoString) (title parentUid : GoString) :
    clientMatch ⟨id, uid, title, parentUid⟩ title parentUid := by
  refine ⟨rfl, ?_⟩
  by_cases h : parentUid = []
  · exact Or.inl ⟨h, h⟩
  · exact Or.inr ⟨h, rfl⟩

theorem any_matchCondB_iff (l : List GFolder) (title parentUid : GoString) :
    (l.any fun f => matchCondB f title parentUid) = true ↔
      ∃ f ∈ l, clientMatch f title parentUid := by
  simp [List.any_eq_true, matchCondB, clientMatch]

theorem getFolderByTitle_honest (st : GState) (title parentUid : GoString) :
    getFolderByTitle honest st title parentUid =
      (.ok (findFolderMatch st.folders title parentUid), st) := rfl

theorem honest_create_nomatch (st : GState) (title parentUid : GoString)
    (h : ¬ ∃ f ∈ st.folders, clientMatch f title parentUid) :
    honest.create st title parentUid =
      (.ok ⟨200, Int.ofNat st.nextId, mkUid st.nextId, []⟩,
       ⟨st.folders ++ [⟨Int.ofNat st.nextId, mkUid st.nextId, title, parentUid⟩],
        st.nextId + 1, st.creates + 1⟩) := by
  show (if (st.folders.any fun f => matchCondB f title parentUid) = true then _ else _) = _
  rw [if_neg (fun hc => h ((any_matchCondB_iff st.folders title parentUid).mp hc))]

theorem walk_honest_found (st : GState) (c : FolderCache) (name fp : GoString)
    (id0 : Int) (uid0 : GoString) (cs : List FolderTree) (p : GoString)
    (eid : Int) (euid : GoString)
    (he : findFolderMatch st.folders name p = (eid, euid)) (hpos : 0 < eid) :
    CreateFolderTreeFromNode honest st c (.mk name fp id0 uid0 cs) p =
      ((createChildren honest st (setA fp eid c) cs euid).1,
       .mk name fp eid euid (createChildren honest st (setA fp eid c) cs euid).2.1,
       (createChildren honest st (setA fp eid c) cs euid).2.2) := by
  simp only [CreateFolderTreeFromNode, getFolderByTitle_honest, he]
  rw [if_pos hpos]

theorem walk_honest_created (st : GState) (c : FolderCache) (name fp : GoString)
    (id0 : Int) (uid0 : GoString) (cs : List FolderTree) (p : GoString)
    (hmiss : ¬ 0 < (findFolderMatch st.folders name p).1)
    (hno : ¬ ∃ f ∈ st.folders, clientMatch f name p) :
    CreateFolderTreeFromNode honest st c (.mk name fp id0 uid0 cs) p =
      (let st2 : GState :=
        ⟨st.folders ++ [⟨Int.ofNat st.nextId, mkUid st.nextId, name, p⟩],
         st.nextId + 1, st.creates + 1⟩
       ((createChildren honest st2 (setA fp (Int.ofNat st.nextId) c) cs
           (mkUid st.nextId)).1,
        .mk name fp (Int.ofNat st.nextId) (mkUid st.nextId)
          (createChildren honest st2 (setA fp (Int.ofNat st.nextId) c) cs
            (mkUid st.nextId)).2.1,
        (createChildren honest st2 (setA fp (Int.ofNat st.nextId) c) cs
          (mkUid st.nextId)).2.2)) := by
  obtain ⟨e0, u0, he⟩ : ∃ e0 u0, findFolderMatch st.folders name p = (e0, u0) :=
    ⟨_, _, rfl⟩
  rw [he] at hmiss
  simp only at hmiss
  simp only [CreateFolderTreeFromNode, getFolderByTitle_honest, he]
  rw [if_neg hmiss, honest_create_nomatch st name p hno]
  have h200 : ¬ (300 ≤ 200) := by decide
  simp only [if_neg h200]

/-! ### Idempotence of the reconciliation walk against the honest server -/

/-- Stability of one node's walk: the server only gains folders, stays
well-formed, and after a successful run, re-running the walk on the resolved
tree against any extension of the resulting server state succeeds with the
same assignments and leaves the server untouched. -/
def NodeStable (t : FolderTree) : Prop :=
  ∀ (st : GState) (c : FolderCache) (p : GoString), wellFormedServer st →
    (∃ D, (CreateFolderTreeFromNode honest st c t p).2.2.1.folders =
      st.folders ++ D) ∧
    wellFormedServer (CreateFolderTreeFromNode honest st c t p).2.2.1 ∧
    ((CreateFolderTreeFromNode honest st c t p).1 = .ok () →
      ∀ (st' : GState) (c' : FolderCache),
        (∃ ext, st'.folders =
          (CreateFolderTreeFromNode honest st c t p).2.2.1.folders ++ ext) →
        ∃ c2, CreateFolderTreeFromNode honest st' c'
            (CreateFolderTreeFromNode honest st c t p).2.1 p =
          (.ok (), (CreateFolderTreeFromNode honest st c t p).2.1, st', c2))

/-- The same stability property for a children list. -/
def ChildrenStable (cs : List FolderTree) : Prop :=
  ∀ (st : GState) (c : FolderCache) (p : GoString), wellFormedServer st →
    (∃ D, (createChildren honest st c cs p).2.2.1.folders = st.folders ++ D) ∧
    wellFormedServer (createChildren honest st c cs p).2.2.1 ∧
    ((createChildren honest st c cs p).1 = .ok () →
      ∀ (st' : GState) (c' : FolderCache),
        (∃ ext, st'.folders =
          (createChildren honest st c cs p).2.2.1.folders ++ ext) →
        ∃ c2, createChildren honest st' c' ((createChildren honest st c cs p).2.1) p =
          (.ok (), (createChildren honest st c cs p).2.1, st', c2))

theorem childrenStable_nil : ChildrenStable [] := by
  intro st c p hwf
  refine ⟨⟨[], by simp [createChildren]⟩, hwf, ?_⟩
  intro _ st' c' _
  exact ⟨c', rfl⟩

theorem childrenStable_cons (c0 : FolderTree) (rest : List FolderTree)
    (h0 : NodeStable c0) (hrest : ChildrenStable rest) :
    ChildrenStable (c0 :: rest) := by
  intro st c p hwf
  obtain ⟨hD0, hwf0, hre0⟩ := h0 st c p hwf
  cases hrc : (CreateFolderTreeFromNode honest st c c0 p).1 with
  | error e =>
    have hcc : createChildren honest st c (c0 :: rest) p =
        (.error e, (CreateFolderTreeFromNode honest st c c0 p).2.1 :: rest,
         (CreateFolderTreeFromNode honest st c c0 p).2.2) := by
      simp only [createChildren]
      rw [hrc]
    rw [hcc]
    refine ⟨hD0, hwf0, ?_⟩
    intro hok
    exact absurd hok (by simp)
  | ok u =>
    cases u
    have hcc : createChildren honest st c (c0 :: rest) p =
        ((createChildren honest (CreateFolderTreeFromNode honest st c c0 p).2.2.1
            (CreateFolderTreeFromNode honest st c c0 p).2.2.2 rest p).1,
         (CreateFolderTreeFromNode honest st c c0 p).2.1 ::
           (createChildren honest (CreateFolderTreeFromNode honest st c c0 p).2.2.1
             (CreateFolderTreeFromNode honest st c c0 p).2.2.2 rest p).2.1,
         (createChildren honest (CreateFolderTreeFromNode honest st c c0 p).2.2.1
           (CreateFolderTreeFromNode honest st c c0 p).2.2.2 rest p).2.2) := by
      simp only [createChildren]
      rw [hrc]
    obtain ⟨hD1, hwf1, hre1⟩ :=
      hrest (CreateFolderTreeFromNode honest st c c0 p).2.2.1
        (CreateFolderTreeFromNode honest st c c0 p).2.2.2 p hwf0
    rw [hcc]
    refine ⟨?_, hwf1, ?_⟩
    · obtain ⟨D0, h1⟩ := hD0
      obtain ⟨D1, h2⟩ := hD1
      exact ⟨D0 ++ D1, by rw [h2, h1, List.append_assoc]⟩
    · intro hok st' c' hext
      obtain ⟨ext, hext⟩ := hext
      have hre0' := hre0 hrc st' c' ?hx
      case hx =>
        obtain ⟨D1, h2⟩ := hD1
        exact ⟨D1 ++ ext, by rw [hext, h2, List.append_assoc]⟩
      obtain ⟨c2a, heqa⟩ := hre0'
      obtain ⟨c2, heqb⟩ := hre1 hok st' c2a ⟨ext, hext⟩
      refine ⟨c2, ?_⟩
      simp only [createChildren]
      rw [heqa]
      simp only
      rw [heqb]

theorem nodeStable_mk (name fp : GoString) (id0 : Int) (uid0 : GoString)
    (cs : List FolderTree) (hcs : ChildrenStable cs) :
    NodeStable (.mk name fp id0 uid0 cs) := by
  intro st c p hwf
  obtain ⟨e0, u0, he⟩ : ∃ e0 u0, findFolderMatch st.folders name p = (e0, u0) :=
    ⟨_, _, rfl⟩
  by_cases hpos : 0 < e0
  · -- the existence query finds a folder: adopt it
    have hw := walk_honest_found st c name fp id0 uid0 cs p e0 u0 he hpos
    obtain ⟨hD, hwf1, hre⟩ := hcs st (setA fp e0 c) u0 hwf
    rw [hw]
    refine ⟨hD, hwf1, ?_⟩
    intro hok st' c' hext
    obtain ⟨ext, hext⟩ := hext
    have hfind' : findFolderMatch st'.folders name p = (e0, u0) := by
      obtain ⟨D, hDeq⟩ := hD
      have : st'.folders = st.folders ++ (D ++ ext) := by
        rw [hext, hDeq, List.append_assoc]
      rw [this, findFolderMatch_found_append (D ++ ext) name p st.folders
        (by rw [he]; exact hpos), he]
    have hw' := walk_honest_found st' c' name fp e0 u0
      ((createChildren honest st (setA fp e0 c) cs u0).2.1) p e0 u0 hfind' hpos
    obtain ⟨c2, hre'⟩ := hre hok st' (setA fp e0 c') ⟨ext, hext⟩
    refine ⟨c2, ?_⟩
    rw [hw', hre']
  · -- the existence query misses: the folder is created
    have hnomatch : ¬ ∃ f ∈ st.folders, clientMatch f name p := by
      rintro ⟨f, hf, hm⟩
      exact findFolderMatch_miss name p st.folders hwf.1
        (by rw [he]; exact hpos) f hf hm
    have hw := walk_honest_created st c name fp id0 uid0 cs p
      (by rw [he]; exact hpos) hnomatch
    simp only at hw
    set newf : GFolder := ⟨Int.ofNat st.nextId, mkUid st.nextId, name, p⟩ with hnewf
    set st2 : GState := ⟨st.folders ++ [newf], st.nextId + 1, st.creates + 1⟩ with hst2
    have hwf2 : wellFormedServer st2 := by
      constructor
      · intro f hf
        rcases List.mem_append.mp hf with hf | hf
        · exact hwf.1 f hf
        · have : f = newf := by simpa using hf
          subst this
          show 0 < Int.ofNat st.nextId
          have h1 := hwf.2
          rw [Int.ofNat_eq_natCast]
          omega
      · show 1 ≤ st.nextId + 1
        omega
    obtain ⟨hD, hwf1, hre⟩ :=
      hcs st2 (setA fp (Int.ofNat st.nextId) c) (mkUid st.nextId) hwf2
    rw [hw]
    refine ⟨?_, hwf1, ?_⟩
    · obtain ⟨D, hDeq⟩ := hD
      refine ⟨[newf] ++ D, ?_⟩
      rw [hDeq]
      show st2.folders ++ D = st.folders ++ ([newf] ++ D)
      rw [hst2]
      simp [List.append_assoc]
    · intro hok st' c' hext
      obtain ⟨ext, hext⟩ := hext
      have hfind' : findFolderMatch st'.folders name p =
          (Int.ofNat st.nextId, mkUid st.nextId) := by
        obtain ⟨D, hDeq⟩ := hD
        have hsplit : st'.folders = st.folders ++ (newf :: (D ++ ext)) := by
          rw [hext, hDeq]
          show st2.folders ++ D ++ ext = st.folders ++ (newf :: (D ++ ext))
          rw [hst2]
          simp [List.append_assoc]
        rw [hsplit, findFolderMatch_nomatch name p st.folders
          (fun f hf hm => hnomatch ⟨f, hf, hm⟩) (newf :: (D ++ ext)),
          findFolderMatch_head newf (D ++ ext) name p (clientMatch_self _ _ _ _)]
      have hposn : 0 < Int.ofNat st.nextId := by
        have h1 := hwf.2
        rw [Int.ofNat_eq_natCast]
        omega
      have hw' := walk_honest_found st' c' name fp (Int.ofNat st.nextId)
        (mkUid st.nextId)
        ((createChildren honest st2 (setA fp (Int.ofNat st.nextId) c) cs
          (mkUid st.nextId)).2.1) p (Int.ofNat st.nextId) (mkUid st.nextId)
        hfind' hposn
      obtain ⟨c2, hre'⟩ := hre hok st' (setA fp (Int.ofNat st.nextId) c')
        ⟨ext, hext⟩
      refine ⟨c2, ?_⟩
      rw [hw', hre']

theorem folderTree_strongInd {P : FolderTree → Prop}
    (h : ∀ name fp id0 uid0 cs, (∀ c ∈ cs, P c) → P (.mk name fp id0 uid0 cs)) :
    ∀ t, P t := by
  have aux : ∀ (n : Nat) (t : FolderTree), sizeOf t ≤ n → P t := by
    intro n
    induction n with
    | zero =>
      intro t ht
      cases t with
      | mk name fp id0 uid0 cs =>
        simp at ht
    | succ m ih =>
      intro t ht
      cases t with
      | mk name fp id0 uid0 cs =>
        refine h name fp id0 uid0 cs ?_
        intro c hc
        refine ih c ?_
        have h1 : sizeOf c < sizeOf cs := List.sizeOf_lt_of_mem hc
        have h2 : sizeOf cs < sizeOf (FolderTree.mk name fp id0 uid0 cs) := by
          simp
        omega
  exact fun t => aux (sizeOf t) t (le_refl _)

theorem childrenStable_of_all (cs : List FolderTree)
    (h : ∀ x ∈ cs, NodeStable x) : ChildrenStable cs := by
  induction cs with
  | nil => exact childrenStable_nil
  | cons c0 rest ih =>
    exact childrenStable_cons c0 rest (h c0 (by simp))
      (ih (fun x hx => h x (by simp [hx])))

theorem nodeStable_all : ∀ t : FolderTree, NodeStable t := by
  apply folderTree_strongInd
  intro name fp id0 uid0 cs hIH
  exact nodeStable_mk name fp id0 uid0 cs (childrenStable_of_all cs hIH)

/-- C1: against the honest server, a second run of the reconciliation walk on
the tree produced by a successful first run, with the server state the first
run left behind, succeeds, assigns every node the same id/uid (the returned
tree is unchanged), leaves the server state untouched, and in particular
issues zero create calls (the server's create counter is unchanged); every
node is resolved by the existence query alone. -/
theorem reconcile_idempotent (st : GState) (c : FolderCache) (t : FolderTree)
    (p : GoString) (t1 : FolderTree) (st1 : GState) (c1 : FolderCache)
    (hwf : wellFormedServer st)
    (hrun : CreateFolderTreeFromNode honest st c t p = (.ok (), t1, st1, c1)) :
    (∃ c2, CreateFolderTreeFromNode honest st1 c1 t1 p = (.ok (), t1, st1, c2)) ∧
    (CreateFolderTreeFromNode honest st1 c1 t1 p).2.2.1.creates = st1.creates := by
  obtain ⟨_, _, hre⟩ := nodeStable_all t st c p hwf
  rw [hrun] at hre
  simp only at hre
  obtain ⟨c2, hre'⟩ := hre trivial st1 c1 ⟨[], by simp⟩
  exact ⟨⟨c2, hre'⟩, by rw [hre']⟩

/-- Witness for C1: a two-node tree reconciled against an initially empty
server (two creates); the second run returns the same tree, the same server
state, and its create counter is unchanged. -/
theorem reconcile_idempotent_witness :
    (∃ c2, CreateFolderTreeFromNode honest
        ⟨[⟨1, str "u1", str "a", []⟩, ⟨2, str "u2", str "b", str "u1"⟩], 3, 2⟩
        [(str "a", 1), (str "a/b", 2)]
        (.mk (str "a") (str "a") 1 (str "u1")
          [.mk (str "b") (str "a/b") 2 (str "u2") []]) [] =
      (.ok (),
       .mk (str "a") (str "a") 1 (str "u1")
         [.mk (str "b") (str "a/b") 2 (str "u2") []],
       ⟨[⟨1, str "u1", str "a", []⟩, ⟨2, str "u2", str "b", str "u1"⟩], 3, 2⟩, c2)) ∧
    (CreateFolderTreeFromNode honest
        ⟨[⟨1, str "u1", str "a", []⟩, ⟨2, str "u2", str "b", str "u1"⟩], 3, 2⟩
        [(str "a", 1), (str "a/b", 2)]
        (.mk (str "a") (str "a") 1 (str "u1")
          [.mk (str "b") (str "a/b") 2 (str "u2") []]) []).2.2.1.creates = 2 :=
  reconcile_idempotent ⟨[], 1, 0⟩ []
    (.mk (str "a") (str "a") 0 [] [.mk (str "b") (str "a/b") 0 [] []]) []
    (.mk (str "a") (str "a") 1 (str "u1")
      [.mk (str "b") (str "a/b") 2 (str "u2") []])
    ⟨[⟨1, str "u1", str "a", []⟩, ⟨2, str "u2", str "b", str "u1"⟩], 3, 2⟩
    [(str "a", 1), (str "a/b", 2)]
    (by constructor
        · intro f hf
          simp at hf
        · decide)
    rfl

/-! ### C5: the cache is written exactly by the successful resolutions -/

def applyWrites (ws : List (GoString × Int)) (c : FolderCache) : FolderCache :=
  ws.foldl (fun acc kv => setA kv.1 kv.2 acc) c

mutual
/-- The successful find-or-create events of one walk, in execution order: an
entry `(fullPath, id)` is recorded exactly in the three success branches of
`CreateFolderTreeFromNode` (query hit, create success, conflict recovery);
every failure branch records nothing. -/
def walkEvents {ρ : Type} (api : Api ρ) (st : ρ) (cache : FolderCache)
    (node : FolderTree) (p : GoString) : List (GoString × Int) :=
  match node with
  | .mk name fullPath _ _ children =>
    match getFolderByTitle api st name p with
    | (.error _, _) => []
    | (.ok (eid, euid), st1) =>
      if 0 < eid then
        (fullPath, eid) ::
          childrenEvents api st1 (setA fullPath eid cache) children euid
      else
        match api.create st1 name p with
        | (.error _, _) => []
        | (.ok cr, st2) =>
          if 300 ≤ cr.status then
            if cr.status = 409 ∨ cr.status = 412 then
              match getFolderByTitle api st2 name p with
              | (.error _, _) => []
              | (.ok (eid2, euid2), st3) =>
                if eid2 = 0 then []
                else
                  (fullPath, eid2) ::
                    childrenEvents api st3 (setA fullPath eid2 cache) children euid2
            else []
          else
            (fullPath, cr.id) ::
              childrenEvents api st2 (setA fullPath cr.id cache) children cr.uid

def childrenEvents {ρ : Type} (api : Api ρ) (st : ρ) (cache : FolderCache)
    (children : List FolderTree) (p : GoString) : List (GoString × Int) :=
  match children with
  | [] => []
  | c :: rest =>
    let rc := CreateFolderTreeFromNode api st cache c p
    match rc.1 with
    | .error _ => walkEvents api st cache c p
    | .ok _ =>
      walkEvents api st cache c p ++ childrenEvents api rc.2.2.1 rc.2.2.2 rest p
end

def EventsNode (t : FolderTree) : Prop :=
  ∀ (ρ : Type) (api : Api ρ) (st : ρ) (cache : FolderCache) (p : GoString),
    (CreateFolderTreeFromNode api st cache t p).2.2.2 =
      applyWrites (walkEvents api st cache t p) cache

def EventsChildren (cs : List FolderTree) : Prop :=
  ∀ (ρ : Type) (api : Api ρ) (st : ρ) (cache : FolderCache) (p : GoString),
    (createChildren api st cache cs p).2.2.2 =
      applyWrites (childrenEvents api st cache cs p) cache

theorem applyWrites_cons (k : GoString) (v : Int) (ws : List (GoString × Int))
    (c : FolderCache) :
    applyWrites ((k, v) :: ws) c = applyWrites ws (setA k v c) := rfl

theorem applyWrites_append (ws1 ws2 : List (GoString × Int)) (c : FolderCache) :
    applyWrites (ws1 ++ ws2) c = applyWrites ws2 (applyWrites ws1 c) :=
  List.foldl_append _ _ _ _

theorem eventsChildren_nil : EventsChildren [] := by
  intro ρ api st cache p
  rfl

theorem eventsChildren_cons (c0 : FolderTree) (rest : List FolderTree)
    (h0 : EventsNode c0) (hrest : EventsChildren rest) :
    EventsChildren (c0 :: rest) := by
  intro ρ api st cache p
  cases hrc : (CreateFolderTreeFromNode api st cache c0 p).1 with
  | error e =>
    have hcc : createChildren api st cache (c0 :: rest) p =
        (.error e, (CreateFolderTreeFromNode api st cache c0 p).2.1 :: rest,
         (CreateFolderTreeFromNode api st cache c0 p).2.2) := by
      simp only [createChildren]
      rw [hrc]
    have hev : childrenEvents api st cache (c0 :: rest) p =
        walkEvents api st cache c0 p := by
      simp only [childrenEvents]
      rw [hrc]
    rw [hcc, hev]
    exact h0 ρ api st cache p
  | ok u =>
    cases u
    have hcc : createChildren api st cache (c0 :: rest) p =
        ((createChildren api (CreateFolderTreeFromNode api st cache c0 p).2.2.1
            (CreateFolderTreeFromNode api st cache c0 p).2.2.2 rest p).1,
         (CreateFolderTreeFromNode api st cache c0 p).2.1 ::
           (createChildren api (CreateFolderTreeFromNode api st cache c0 p).2.2.1
             (CreateFolderTreeFromNode api st cache c0 p).2.2.2 rest p).2.1,
         (createChildren api (CreateFolderTreeFromNode api st cache c0 p).2.2.1
           (CreateFolderTreeFromNode api st cache c0 p).2.2.2 rest p).2.2) := by
      simp only [createChildren]
      rw [hrc]
    have hev : childrenEvents api st cache (c0 :: rest) p =
        walkEvents api st cache c0 p ++
          childrenEvents api (CreateFolderTreeFromNode api st cache c0 p).2.2.1
            (CreateFolderTreeFromNode api st cache c0 p).2.2.2 rest p := by
      simp only [childrenEvents]
      rw [hrc]
    rw [hcc, hev, applyWrites_append]
    simp only
    rw [hrest ρ api _ _ p, h0 ρ api st cache p]

theorem eventsNode_mk (name fp : GoString) (id0 : Int) (uid0 : GoString)
    (cs : List FolderTree) (hcs : EventsChildren cs) :
    EventsNode (.mk name fp id0 uid0 cs) := by
  intro ρ api st cache p
  rcases hq : getFolderByTitle api st name p with ⟨r1, st1⟩
  cases r1 with
  | error e =>
    simp only [CreateFolderTreeFromNode, walkEvents, hq]
    rfl
  | ok pr =>
    rcases pr with ⟨eid, euid⟩
    by_cases hpos : 0 < eid
    · simp only [CreateFolderTreeFromNode, walkEvents, hq, if_pos hpos]
      rw [applyWrites_cons]
      exact hcs ρ api st1 (setA fp eid cache) euid
    · rcases hc : api.create st1 name p with ⟨r2, st2⟩
      cases r2 with
      | error e =>
        simp only [CreateFolderTreeFromNode, walkEvents, hq, if_neg hpos, hc]
        rfl
      | ok cr =>
        by_cases hst : 300 ≤ cr.status
        · by_cases hconf : cr.status = 409 ∨ cr.status = 412
          · rcases hq2 : getFolderByTitle api st2 name p with ⟨r3, st3⟩
            cases r3 with
            | error e =>
              simp only [CreateFolderTreeFromNode, walkEvents, hq, if_neg hpos, hc,
                if_pos hst, if_pos hconf, hq2]
              rfl
            | ok pr2 =>
              rcases pr2 with ⟨eid2, euid2⟩
              by_cases h0 : eid2 = 0
              · simp only [CreateFolderTreeFromNode, walkEvents, hq, if_neg hpos, hc,
                  if_pos hst, if_pos hconf, hq2, if_pos h0]
                rfl
              · simp only [CreateFolderTreeFromNode, walkEvents, hq, if_neg hpos, hc,
                  if_pos hst, if_pos hconf, hq2, if_neg h0]
                rw [applyWrites_cons]
                exact hcs ρ api st3 (setA fp eid2 cache) euid2
          · simp only [CreateFolderTreeFromNode, walkEvents, hq, if_neg hpos, hc,
              if_pos hst, if_neg hconf]
            rfl
        · simp only [CreateFolderTreeFromNode, walkEvents, hq, if_neg hpos, hc,
            if_neg hst]
          rw [applyWrites_cons]
          exact hcs ρ api st2 (setA fp cr.id cache) cr.uid

theorem eventsChildren_of_all (cs : List FolderTree)
    (h : ∀ x ∈ cs, EventsNode x) : EventsChildren cs := by
  induction cs with
  | nil => exact eventsChildren_nil
  | cons c0 rest ih =>
    exact eventsChildren_cons c0 rest (h c0 (by simp))
      (ih (fun x hx => h x (by simp [hx])))

theorem eventsNode_all : ∀ t : FolderTree, EventsNode t := by
  apply folderTree_strongInd
  intro name fp id0 uid0 cs hIH
  exact eventsNode_mk name fp id0 uid0 cs (eventsChildren_of_all cs hIH)

theorem findFolderMatch_mem (title parentUid : GoString) :
    ∀ l : List GFolder, 0 < (findFolderMatch l title parentUid).1 →
      ∃ f ∈ l, f.id = (findFolderMatch l title parentUid).1 := by
  intro l
  induction l with
  | nil => intro h; simp [findFolderMatch] at h
  | cons f fs ih =>
    intro h
    by_cases hcond : clientMatch f title parentUid
    · simp only [findFolderMatch, if_pos hcond]
      exact ⟨f, by simp, rfl⟩
    · simp only [findFolderMatch, if_neg hcond] at h ⊢
      obtain ⟨g, hg, hid⟩ := ih h
      exact ⟨g, by simp [hg], hid⟩

theorem events_honest_found (st : GState) (cache : FolderCache)
    (name fp : GoString) (id0 : Int) (uid0 : GoString) (cs : List FolderTree)
    (p : GoString) (eid : Int) (euid : GoString)
    (he : findFolderMatch st.folders name p = (eid, euid)) (hpos : 0 < eid) :
    walkEvents honest st cache (.mk name fp id0 uid0 cs) p =
      (fp, eid) :: childrenEvents honest st (setA fp eid cache) cs euid := by
  simp only [walkEvents, getFolderByTitle_honest, he]
  rw [if_pos hpos]

theorem events_honest_created (st : GState) (cache : FolderCache)
    (name fp : GoString) (id0 : Int) (uid0 : GoString) (cs : List FolderTree)
    (p : GoString)
    (hmiss : ¬ 0 < (findFolderMatch st.folders name p).1)
    (hno : ¬ ∃ f ∈ st.folders, clientMatch f name p) :
    walkEvents honest st cache (.mk name fp id0 uid0 cs) p =
      (fp, Int.ofNat st.nextId) ::
        childrenEvents honest
          ⟨st.folders ++ [⟨Int.ofNat st.nextId, mkUid st.nextId, name, p⟩],
           st.nextId + 1, st.creates + 1⟩
          (setA fp (Int.ofNat st.nextId) cache) cs (mkUid st.nextId) := by
  obtain ⟨e0, u0, he⟩ : ∃ e0 u0, findFolderMatch st.folders name p = (e0, u0) :=
    ⟨_, _, rfl⟩
  rw [he] at hmiss
  simp only at hmiss
  simp only [walkEvents, getFolderByTitle_honest, he]
  rw [if_neg hmiss, honest_create_nomatch st name p hno]
  have h200 : ¬ (300 ≤ 200) := by decide
  simp only [if_neg h200]

def IdsNode (t : FolderTree) : Prop :=
  ∀ (st : GState) (cache : FolderCache) (p : GoString), wellFormedServer st →
    ∀ kv ∈ walkEvents honest st cache t p,
      ∃ f ∈ (CreateFolderTreeFromNode honest st cache t p).2.2.1.folders,
        f.id = kv.2

def IdsChildren (cs : List FolderTree) : Prop :=
  ∀ (st : GState) (cache : FolderCache) (p : GoString), wellFormedServer st →
    ∀ kv ∈ childrenEvents honest st cache cs p,
      ∃ f ∈ (createChildren honest st cache cs p).2.2.1.folders, f.id = kv.2

theorem idsChildren_nil : IdsChildren [] := by
  intro st cache p _ kv hkv
  simp [childrenEvents] at hkv

theorem idsChildren_cons (c0 : FolderTree) (rest : List FolderTree)
    (h0 : IdsNode c0) (hrest : IdsChildren rest) : IdsChildren (c0 :: rest) := by
  intro st cache p hwf kv hkv
  cases hrc : (CreateFolderTreeFromNode honest st cache c0 p).1 with
  | error e =>
    have hcc : createChildren honest st cache (c0 :: rest) p =
        (.error e, (CreateFolderTreeFromNode honest st cache c0 p).2.1 :: rest,
         (CreateFolderTreeFromNode honest st cache c0 p).2.2) := by
      simp only [createChildren]
      rw [hrc]
    have hev : childrenEvents honest st cache (c0 :: rest) p =
        walkEvents honest st cache c0 p := by
      simp only [childrenEvents]
      rw [hrc]
    rw [hev] at hkv
    rw [hcc]
    exact h0 st cache p hwf kv hkv
  | ok u =>
    cases u
    have hcc : createChildren honest st cache (c0 :: rest) p =
        ((createChildren honest (CreateFolderTreeFromNode honest st cache c0 p).2.2.1
            (CreateFolderTreeFromNode honest st cache c0 p).2.2.2 rest p).1,
         (CreateFolderTreeFromNode honest st cache c0 p).2.1 ::
           (createChildren honest (CreateFolderTreeFromNode honest st cache c0 p).2.2.1
             (CreateFolderTreeFromNode honest st cache c0 p).2.2.2 rest p).2.1,
         (createChildren honest (CreateFolderTreeFromNode honest st cache c0 p).2.2.1
           (CreateFolderTreeFromNode honest st cache c0 p).2.2.2 rest p).2.2) := by
      simp only [createChildren]
      rw [hrc]
    have hev : childrenEvents honest st cache (c0 :: rest) p =
        walkEvents honest st cache c0 p ++
          childrenEvents honest (CreateFolderTreeFromNode honest st cache c0 p).2.2.1
            (CreateFolderTreeFromNode honest st cache c0 p).2.2.2 rest p := by
      simp only [childrenEvents]
      rw [hrc]
    have hwf0 : wellFormedServer (CreateFolderTreeFromNode honest st cache c0 p).2.2.1 :=
      (nodeStable_all c0 st cache p hwf).2.1
    rw [hev] at hkv
    rw [hcc]
    simp only
    rcases List.mem_append.mp hkv with hkv | hkv
    · obtain ⟨f, hf, hid⟩ := h0 st cache p hwf kv hkv
      obtain ⟨D, hD⟩ :=
        (childrenStable_of_all rest (fun x _ => nodeStable_all x)
          (CreateFolderTreeFromNode honest st cache c0 p).2.2.1
          (CreateFolderTreeFromNode honest st cache c0 p).2.2.2 p hwf0).1
      refine ⟨f, ?_, hid⟩
      rw [hD]
      exact List.mem_append_left _ hf
    · exact hrest (CreateFolderTreeFromNode honest st cache c0 p).2.2.1
        (CreateFolderTreeFromNode honest st cache c0 p).2.2.2 p hwf0 kv hkv

theorem idsNode_mk (name fp : GoString) (id0 : Int) (uid0 : GoString)
    (cs : List FolderTree) (hcs : IdsChildren cs) :
    IdsNode (.mk name fp id0 uid0 cs) := by
  intro st cache p hwf kv hkv
  obtain ⟨e0, u0, he⟩ : ∃ e0 u0, findFolderMatch st.folders name p = (e0, u0) :=
    ⟨_, _, rfl⟩
  by_cases hpos : 0 < e0
  · rw [events_honest_found st cache name fp id0 uid0 cs p e0 u0 he hpos] at hkv
    rw [walk_honest_found st cache name fp id0 uid0 cs p e0 u0 he hpos]
    simp only
    rcases List.mem_cons.mp hkv with hkv | hkv
    · subst hkv
      obtain ⟨f, hf, hid⟩ := findFolderMatch_mem name p st.folders (by rw [he]; exact hpos)
      rw [he] at hid
      obtain ⟨D, hD⟩ :=
        (childrenStable_of_all cs (fun x _ => nodeStable_all x) st
          (setA fp e0 cache) u0 hwf).1
      refine ⟨f, ?_, hid⟩
      rw [hD]
      exact List.mem_append_left _ hf
    · exact hcs st (setA fp e0 cache) u0 hwf kv hkv
  · have hnomatch : ¬ ∃ f ∈ st.folders, clientMatch f name p := by
      rintro ⟨f, hf, hm⟩
      exact findFolderMatch_miss name p st.folders hwf.1
        (by rw [he]; exact hpos) f hf hm
    have hmiss : ¬ 0 < (findFolderMatch st.folders name p).1 := by
      rw [he]
      exact hpos
    rw [events_honest_created st cache name fp id0 uid0 cs p hmiss hnomatch] at hkv
    have hw := walk_honest_created st cache name fp id0 uid0 cs p hmiss hnomatch
    simp only at hw
    rw [hw]
    simp only
    set newf : GFolder := ⟨Int.ofNat st.nextId, mkUid st.nextId, name, p⟩ with hnewf
    set st2 : GState := ⟨st.folders ++ [newf], st.nextId + 1, st.creates + 1⟩ with hst2
    have hwf2 : wellFormedServer st2 := by
      constructor
      · intro f hf
        rcases List.mem_append.mp hf with hf | hf
        · exact hwf.1 f hf
        · have hfe : f = newf := by simpa using hf
          subst hfe
          show 0 < Int.ofNat st.nextId
          have h1 := hwf.2
          rw [Int.ofNat_eq_natCast]
          omega
      · show 1 ≤ st.nextId + 1
        omega
    rcases List.mem_cons.mp hkv with hkv | hkv
    · subst hkv
      obtain ⟨D, hD⟩ :=
        (childrenStable_of_all cs (fun x _ => nodeStable_all x) st2
          (setA fp (Int.ofNat st.nextId) cache) (mkUid st.nextId) hwf2).1
      refine ⟨newf, ?_, rfl⟩
      rw [hD]
      refine List.mem_append_left _ ?_
      rw [hst2]
      simp
    · exact hcs st2 (setA fp (Int.ofNat st.nextId) cache) (mkUid st.nextId) hwf2 kv hkv

theorem idsChildren_of_all (cs : List FolderTree)
    (h : ∀ x ∈ cs, IdsNode x) : IdsChildren cs := by
  induction cs with
  | nil => exact idsChildren_nil
  | cons c0 rest ih =>
    exact idsChildren_cons c0 rest (h c0 (by simp))
      (ih (fun x hx => h x (by simp [hx])))

theorem idsNode_all : ∀ t : FolderTree, IdsNode t := by
  apply folderTree_strongInd
  intro name fp id0 uid0 cs hIH
  exact idsNode_mk name fp id0 uid0 cs (idsChildren_of_all cs hIH)

/-- The successful find-or-create cache events of the `createFolderRecursive`
loop, in execution order: an entry `(currentPath, id)` is recorded exactly in
the three success branches of each segment (query hit, create success,
conflict recovery); a failing segment records nothing and ends the loop. -/
def loopEvents {ρ : Type} (api : Api ρ) :
    List GoString → ρ → FolderCache → GoString → GoString → List (GoString × Int)
  | [], _, _, _, _ => []
  | name :: rest, st, cache, currentPath, currentUID =>
    let currentPath' := if currentPath = [] then name else currentPath ++ '/' :: name
    match getFolderByTitle api st name currentUID with
    | (.error _, _) => []
    | (.ok (eid, euid), st1) =>
      if 0 < eid then
        (currentPath', eid) ::
          loopEvents api rest st1 (setA currentPath' eid cache) currentPath' euid
      else
        match api.create st1 name currentUID with
        | (.error _, _) => []
        | (.ok cr, st2) =>
          if 300 ≤ cr.status then
            if cr.status = 409 ∨ cr.status = 412 then
              match getFolderByTitle api st2 name currentUID with
              | (.error _, _) => []
              | (.ok (eid2, euid2), st3) =>
                if eid2 = 0 then []
                else
                  (currentPath', eid2) ::
                    loopEvents api rest st3 (setA currentPath' eid2 cache)
                      currentPath' euid2
            else []
          else
            (currentPath', cr.id) ::
              loopEvents api rest st2 (setA currentPath' cr.id cache)
                currentPath' cr.uid

/-- The successful find-or-create cache events of one `CreateFolderTree` call:
nothing on a cache hit or a degenerate path, otherwise the per-segment events
of the `createFolderRecursive` loop started at the root scope. -/
def createFolderTreeEvents {ρ : Type} (api : Api ρ) (st : ρ) (cache : FolderCache)
    (folderPath : GoString) : List (GoString × Int) :=
  match lookupA folderPath cache with
  | some _ => []
  | none =>
    if splitFolderPath folderPath = [] then []
    else loopEvents api (splitFolderPath folderPath) st cache [] []

theorem loopEvents_cache {ρ : Type} (api : Api ρ) :
    ∀ (parts : List GoString) (st : ρ) (cache : FolderCache)
      (cp : GoString) (fid : Int) (uid : GoString),
      (createFolderLoop api parts st cache cp fid uid).2.2 =
        applyWrites (loopEvents api parts st cache cp uid) cache := by
  intro parts
  induction parts with
  | nil => intro st cache cp fid uid; rfl
  | cons name rest ih =>
    intro st cache cp fid uid
    rcases hq : getFolderByTitle api st name uid with ⟨r1, st1⟩
    cases r1 with
    | error e =>
      simp only [createFolderLoop, loopEvents, hq]
      rfl
    | ok pr =>
      rcases pr with ⟨eid, euid⟩
      by_cases hpos : 0 < eid
      · simp only [createFolderLoop, loopEvents, hq, if_pos hpos]
        rw [applyWrites_cons]
        exact ih st1 _ _ eid euid
      · rcases hc : api.create st1 name uid with ⟨r2, st2⟩
        cases r2 with
        | error e =>
          simp only [createFolderLoop, loopEvents, hq, if_neg hpos, hc]
          rfl
        | ok cr =>
          by_cases hst : 300 ≤ cr.status
          · by_cases hconf : cr.status = 409 ∨ cr.status = 412
            · rcases hq2 : getFolderByTitle api st2 name uid with ⟨r3, st3⟩
              cases r3 with
              | error e =>
                simp only [createFolderLoop, loopEvents, hq, if_neg hpos, hc,
                  if_pos hst, if_pos hconf, hq2]
                rfl
              | ok pr2 =>
                rcases pr2 with ⟨eid2, euid2⟩
                by_cases h0 : eid2 = 0
                · simp only [createFolderLoop, loopEvents, hq, if_neg hpos, hc,
                    if_pos hst, if_pos hconf, hq2, if_pos h0]
                  rfl
                · simp only [createFolderLoop, loopEvents, hq, if_neg hpos, hc,
                    if_pos hst, if_pos hconf, hq2, if_neg h0]
                  rw [applyWrites_cons]
                  exact ih st3 _ _ eid2 euid2
            · simp only [createFolderLoop, loopEvents, hq, if_neg hpos, hc,
                if_pos hst, if_neg hconf]
              rfl
          · simp only [createFolderLoop, loopEvents, hq, if_neg hpos, hc, if_neg hst]
            rw [applyWrites_cons]
            exact ih st2 _ _ cr.id cr.uid

theorem loop_honest_found (st : GState) (cache : FolderCache) (name : GoString)
    (rest : List GoString) (cp : GoString) (fid e0 : Int) (u0 uid : GoString)
    (he : findFolderMatch st.folders name uid = (e0, u0)) (hpos : 0 < e0) :
    createFolderLoop honest (name :: rest) st cache cp fid uid =
      createFolderLoop honest rest st
        (setA (if cp = [] then name else cp ++ '/' :: name) e0 cache)
        (if cp = [] then name else cp ++ '/' :: name) e0 u0 := by
  simp only [createFolderLoop, getFolderByTitle_honest, he]
  rw [if_pos hpos]

theorem loopEvents_honest_found (st : GState) (cache : FolderCache) (name : GoString)
    (rest : List GoString) (cp : GoString) (e0 : Int) (u0 uid : GoString)
    (he : findFolderMatch st.folders name uid = (e0, u0)) (hpos : 0 < e0) :
    loopEvents honest (name :: rest) st cache cp uid =
      ((if cp = [] then name else cp ++ '/' :: name), e0) ::
        loopEvents honest rest st
          (setA (if cp = [] then name else cp ++ '/' :: name) e0 cache)
          (if cp = [] then name else cp ++ '/' :: name) u0 := by
  simp only [loopEvents, getFolderByTitle_honest, he]
  rw [if_pos hpos]

theorem loop_honest_created (st : GState) (cache : FolderCache) (name : GoString)
    (rest : List GoString) (cp : GoString) (fid : Int) (uid : GoString)
    (hmiss : ¬ 0 < (findFolderMatch st.folders name uid).1)
    (hno : ¬ ∃ f ∈ st.folders, clientMatch f name uid) :
    createFolderLoop honest (name :: rest) st cache cp fid uid =
      createFolderLoop honest rest
        ⟨st.folders ++ [⟨Int.ofNat st.nextId, mkUid st.nextId, name, uid⟩],
         st.nextId + 1, st.creates + 1⟩
        (setA (if cp = [] then name else cp ++ '/' :: name)
          (Int.ofNat st.nextId) cache)
        (if cp = [] then name else cp ++ '/' :: name)
        (Int.ofNat st.nextId) (mkUid st.nextId) := by
  obtain ⟨e0, u0, he⟩ : ∃ e0 u0, findFolderMatch st.folders name uid = (e0, u0) :=
    ⟨_, _, rfl⟩
  rw [he] at hmiss
  simp only at hmiss
  simp only [createFolderLoop, getFolderByTitle_honest, he]
  rw [if_neg hmiss, honest_create_nomatch st name uid hno]
  have h200 : ¬ (300 ≤ 200) := by decide
  simp only [if_neg h200]

theorem loopEvents_honest_created (st : GState) (cache : FolderCache)
    (name : GoString) (rest : List GoString) (cp uid : GoString)
    (hmiss : ¬ 0 < (findFolderMatch st.folders name uid).1)
    (hno : ¬ ∃ f ∈ st.folders, clientMatch f name uid) :
    loopEvents honest (name :: rest) st cache cp uid =
      ((if cp = [] then name else cp ++ '/' :: name), Int.ofNat st.nextId) ::
        loopEvents honest rest
          ⟨st.folders ++ [⟨Int.ofNat st.nextId, mkUid st.nextId, name, uid⟩],
           st.nextId + 1, st.creates + 1⟩
          (setA (if cp = [] then name else cp ++ '/' :: name)
            (Int.ofNat st.nextId) cache)
          (if cp = [] then name else cp ++ '/' :: name) (mkUid st.nextId) := by
  obtain ⟨e0, u0, he⟩ : ∃ e0 u0, findFolderMatch st.folders name uid = (e0, u0) :=
    ⟨_, _, rfl⟩
  rw [he] at hmiss
  simp only at hmiss
  simp only [loopEvents, getFolderByTitle_honest, he]
  rw [if_neg hmiss, honest_create_nomatch st name uid hno]
  have h200 : ¬ (300 ≤ 200) := by decide
  simp only [if_neg h200]

/-- Freshly created folders are well formed and only extend the server state. -/
theorem newFolder_wf (st : GState) (name uid : GoString) (hwf : wellFormedServer st) :
    wellFormedServer
      ⟨st.folders ++ [⟨Int.ofNat st.nextId, mkUid st.nextId, name, uid⟩],
       st.nextId + 1, st.creates + 1⟩ := by
  constructor
  · intro f hf
    rcases List.mem_append.mp hf with hf | hf
    · exact hwf.1 f hf
    · have hfe : f = ⟨Int.ofNat st.nextId, mkUid st.nextId, name, uid⟩ := by
        simpa using hf
      subst hfe
      show 0 < Int.ofNat st.nextId
      have h1 := hwf.2
      rw [Int.ofNat_eq_natCast]
      omega
  · show 1 ≤ st.nextId + 1
    omega

theorem loop_honest_stable :
    ∀ (parts : List GoString) (st : GState) (cache : FolderCache)
      (cp : GoString) (fid : Int) (uid : GoString), wellFormedServer st →
      (∃ D, (createFolderLoop honest parts st cache cp fid uid).2.1.folders =
        st.folders ++ D) ∧
      wellFormedServer (createFolderLoop honest parts st cache cp fid uid).2.1 := by
  intro parts
  induction parts with
  | nil =>
    intro st cache cp fid uid hwf
    exact ⟨⟨[], by simp [createFolderLoop]⟩, hwf⟩
  | cons name rest ih =>
    intro st cache cp fid uid hwf
    obtain ⟨e0, u0, he⟩ : ∃ e0 u0, findFolderMatch st.folders name uid = (e0, u0) :=
      ⟨_, _, rfl⟩
    by_cases hpos : 0 < e0
    · rw [loop_honest_found st cache name rest cp fid e0 u0 uid he hpos]
      exact ih st _ _ e0 u0 hwf
    · have hmiss : ¬ 0 < (findFolderMatch st.folders name uid).1 := by
        rw [he]
        exact hpos
      have hno : ¬ ∃ f ∈ st.folders, clientMatch f name uid := by
        rintro ⟨f, hf, hm⟩
        exact findFolderMatch_miss name uid st.folders hwf.1 hmiss f hf hm
      rw [loop_honest_created st cache name rest cp fid uid hmiss hno]
      obtain ⟨⟨D, hD⟩, hwf2⟩ := ih
        ⟨st.folders ++ [⟨Int.ofNat st.nextId, mkUid st.nextId, name, uid⟩],
         st.nextId + 1, st.creates + 1⟩ _ _
        (Int.ofNat st.nextId) (mkUid st.nextId)
        (newFolder_wf st name uid hwf)
      refine ⟨⟨⟨Int.ofNat st.nextId, mkUid st.nextId, name, uid⟩ :: D, ?_⟩, hwf2⟩
      rw [hD]
      simp

theorem loopEvents_ids :
    ∀ (parts : List GoString) (st : GState) (cache : FolderCache)
      (cp : GoString) (fid : Int) (uid : GoString), wellFormedServer st →
      ∀ kv ∈ loopEvents honest parts st cache cp uid,
        ∃ f ∈ (createFolderLoop honest parts st cache cp fid uid).2.1.folders,
          f.id = kv.2 := by
  intro parts
  induction parts with
  | nil =>
    intro st cache cp fid uid hwf kv hkv
    simp [loopEvents] at hkv
  | cons name rest ih =>
    intro st cache cp fid uid hwf kv hkv
    obtain ⟨e0, u0, he⟩ : ∃ e0 u0, findFolderMatch st.folders name uid = (e0, u0) :=
      ⟨_, _, rfl⟩
    by_cases hpos : 0 < e0
    · rw [loopEvents_honest_found st cache name rest cp e0 u0 uid he hpos] at hkv
      rw [loop_honest_found st cache name rest cp fid e0 u0 uid he hpos]
      rcases List.mem_cons.mp hkv with hkv | hkv
      · subst hkv
        obtain ⟨f, hf, hid⟩ :=
          findFolderMatch_mem name uid st.folders (by rw [he]; exact hpos)
        rw [he] at hid
        obtain ⟨⟨D, hD⟩, _⟩ := loop_honest_stable rest st
          (setA (if cp = [] then name else cp ++ '/' :: name) e0 cache)
          (if cp = [] then name else cp ++ '/' :: name) e0 u0 hwf
        refine ⟨f, ?_, hid⟩
        rw [hD]
        exact List.mem_append_left _ hf
      · exact ih st _ _ e0 u0 hwf kv hkv
    · have hmiss : ¬ 0 < (findFolderMatch st.folders name uid).1 := by
        rw [he]
        exact hpos
      have hno : ¬ ∃ f ∈ st.folders, clientMatch f name uid := by
        rintro ⟨f, hf, hm⟩
        exact findFolderMatch_miss name uid st.folders hwf.1 hmiss f hf hm
      rw [loopEvents_honest_created st cache name rest cp uid hmiss hno] at hkv
      rw [loop_honest_created st cache name rest cp fid uid hmiss hno]
      have hwf2 := newFolder_wf st name uid hwf
      rcases List.mem_cons.mp hkv with hkv | hkv
      · subst hkv
        obtain ⟨⟨D, hD⟩, _⟩ := loop_honest_stable rest
          ⟨st.folders ++ [⟨Int.ofNat st.nextId, mkUid st.nextId, name, uid⟩],
           st.nextId + 1, st.creates + 1⟩
          (setA (if cp = [] then name else cp ++ '/' :: name)
            (Int.ofNat st.nextId) cache)
          (if cp = [] then name else cp ++ '/' :: name)
          (Int.ofNat st.nextId) (mkUid st.nextId) hwf2
        refine ⟨⟨Int.ofNat st.nextId, mkUid st.nextId, name, uid⟩, ?_, rfl⟩
        rw [hD]
        refine List.mem_append_left _ ?_
        simp
      · exact ih _ _ _ (Int.ofNat st.nextId) (mkUid st.nextId) hwf2 kv hkv

theorem createFolderTree_cache_eq {ρ : Type} (api : Api ρ) (st : ρ)
    (cache : FolderCache) (folderPath : GoString) :
    (CreateFolderTree api st cache folderPath).2.2 =
      applyWrites (createFolderTreeEvents api st cache folderPath) cache := by
  cases hl : lookupA folderPath cache with
  | some id =>
    simp only [CreateFolderTree, createFolderTreeEvents, hl]
    rfl
  | none =>
    simp only [CreateFolderTree, createFolderTreeEvents, hl, createFolderRecursive]
    by_cases hp : splitFolderPath folderPath = []
    · rw [if_pos hp, if_pos hp]
      rfl
    · rw [if_neg hp, if_neg hp]
      exact loopEvents_cache api (splitFolderPath folderPath) st cache [] 0 []

theorem createFolderTree_ids (st : GState) (cache : FolderCache)
    (folderPath : GoString) (hwf : wellFormedServer st) :
    ∀ kv ∈ createFolderTreeEvents honest st cache folderPath,
      ∃ f ∈ (CreateFolderTree honest st cache folderPath).2.1.folders,
        f.id = kv.2 := by
  intro kv hkv
  cases hl : lookupA folderPath cache with
  | some id =>
    rw [createFolderTreeEvents, hl] at hkv
    simp at hkv
  | none =>
    rw [createFolderTreeEvents, hl] at hkv
    simp only [CreateFolderTree, hl, createFolderRecursive]
    by_cases hp : splitFolderPath folderPath = []
    · rw [if_pos hp] at hkv
      simp at hkv
    · rw [if_neg hp] at hkv
      rw [if_neg hp]
      exact loopEvents_ids (splitFolderPath folderPath) st cache [] 0 [] hwf kv hkv

/-- C5: every cache write of the client comes from a successful find-or-create.
For both entry points that touch the folder cache — the reconciliation walk
`CreateFolderTreeFromNode` and the on-demand `CreateFolderTree` (cache check,
then `createFolderRecursive`'s per-segment loop) — the cache afterwards equals
the initial cache overwritten exactly by the run's successful find-or-create
events (`walkEvents` / `createFolderTreeEvents`, which record an entry only in
the three success branches — query hit, create success, conflict recovery —
and record nothing on a failed query, failed create or failed conflict
recovery, a cache hit, or a degenerate path); and against the honest server
every recorded id is the id of a folder present in the resulting remote
state. -/
theorem folderCache_write_invariant :
    (∀ (ρ : Type) (api : Api ρ) (st : ρ) (cache : FolderCache) (t : FolderTree)
       (p : GoString),
       (CreateFolderTreeFromNode api st cache t p).2.2.2 =
         applyWrites (walkEvents api st cache t p) cache) ∧
    (∀ (st : GState) (cache : FolderCache) (t : FolderTree) (p : GoString),
       wellFormedServer st →
       ∀ kv ∈ walkEvents honest st cache t p,
         ∃ f ∈ (CreateFolderTreeFromNode honest st cache t p).2.2.1.folders,
           f.id = kv.2) ∧
    (∀ (ρ : Type) (api : Api ρ) (st : ρ) (cache : FolderCache)
       (folderPath : GoString),
       (CreateFolderTree api st cache folderPath).2.2 =
         applyWrites (createFolderTreeEvents api st cache folderPath) cache) ∧
    (∀ (st : GState) (cache : FolderCache) (folderPath : GoString),
       wellFormedServer st →
       ∀ kv ∈ createFolderTreeEvents honest st cache folderPath,
         ∃ f ∈ (CreateFolderTree honest st cache folderPath).2.1.folders,
           f.id = kv.2) :=
  ⟨fun ρ api st cache t p => eventsNode_all t ρ api st cache p,
   fun st cache t p hwf kv hkv => idsNode_all t st cache p hwf kv hkv,
   fun _ api st cache folderPath => createFolderTree_cache_eq api st cache folderPath,
   fun st cache folderPath hwf kv hkv =>
     createFolderTree_ids st cache folderPath hwf kv hkv⟩

/-- Witness for C5: a single-node walk on an empty server records exactly the
event `("a", 1)` with folder id 1 in the resulting server state, and an
on-demand `CreateFolderTree "a/b"` on an empty server and cache records the
event `("a/b", 2)` with folder id 2 in the resulting server state. -/
theorem folderCache_write_invariant_witness :
    (∃ f ∈ (CreateFolderTreeFromNode honest ⟨[], 1, 0⟩ []
        (.mk (str "a") (str "a") 0 [] []) []).2.2.1.folders,
      f.id = ((str "a", (1 : Int))).2) ∧
    (∃ f ∈ (CreateFolderTree honest ⟨[], 1, 0⟩ [] (str "a/b")).2.1.folders,
      f.id = ((str "a/b", (2 : Int))).2) :=
  ⟨folderCache_write_invariant.2.1 ⟨[], 1, 0⟩ []
     (.mk (str "a") (str "a") 0 [] []) []
     (by constructor
         · intro f hf
           simp at hf
         · decide)
     (str "a", 1) (by decide),
   folderCache_write_invariant.2.2.2 ⟨[], 1, 0⟩ [] (str "a/b")
     (by constructor
         · intro f hf
           simp at hf
         · decide)
     (str "a/b", 2) (by decide)⟩

/-! ### Correctness of the modelled `filepath.Rel` (for C9) -/

theorem splitSlash_append (y : GoString) :
    ∀ x : GoString, splitSlash (x ++ '/' :: y) = splitSlash x ++ splitSlash y := by
  intro x
  induction x with
  | nil => simp [splitSlash]
  | cons c cs ih =>
    by_cases hc : c = '/'
    · subst hc
      rw [List.cons_append]
      rw [show splitSlash ('/' :: (cs ++ '/' :: y)) = [] :: splitSlash (cs ++ '/' :: y)
        from by simp [splitSlash]]
      rw [show splitSlash ('/' :: cs) = [] :: splitSlash cs from by simp [splitSlash]]
      rw [ih]
      rfl
    · simp only [List.cons_append, splitSlash, hc, if_false, List.append_eq]
      rw [ih]
      cases hs : splitSlash cs with
      | nil => exact absurd hs (splitSlash_ne_nil cs)
      | cons p ps => simp

theorem splitBy_append (x y : GoString) :
    splitBy (x ++ '/' :: y) '/' = splitBy x '/' ++ splitBy y '/' := by
  rw [splitBy_eq_filter, splitBy_eq_filter, splitBy_eq_filter, splitSlash_append,
    List.filter_append]

theorem splitBy_elems (s : GoString) :
    ∀ t ∈ splitBy s '/', t ≠ [] ∧ '/' ∉ t := by
  intro t ht
  rw [splitBy_eq_filter] at ht
  rw [List.mem_filter] at ht
  refine ⟨by simpa using ht.2, splitSlash_parts_slashfree s t ht.1⟩

theorem splitBy_cons_slash (s : GoString) : splitBy ('/' :: s) '/' = splitBy s '/' := by
  rw [splitBy_eq_filter, splitBy_eq_filter]
  simp [splitSlash]

theorem splitBy_joinSlash (segs : List GoString) (hne : segs ≠ [])
    (hel : ∀ t ∈ segs, t ≠ [] ∧ '/' ∉ t) :
    splitBy (joinSlash segs) '/' = segs := by
  rw [splitBy_eq_filter, splitSlash_joinSlash segs hne (fun p hp => (hel p hp).2)]
  rw [List.filter_eq_self]
  intro a ha
  simpa using (hel a ha).1

theorem cleanSegs_nil (rooted : Bool) (acc : List GoString) :
    cleanSegs rooted acc [] = acc.reverse := rfl

theorem cleanSegs_cons (rooted : Bool) (acc : List GoString) (s : GoString)
    (rest : List GoString) :
    cleanSegs rooted acc (s :: rest) =
      if s = [] ∨ s = str "." then cleanSegs rooted acc rest
      else if s = str ".." then
        match acc with
        | a :: acc' =>
          if a = str ".." then cleanSegs rooted (s :: a :: acc') rest
          else cleanSegs rooted acc' rest
        | [] => if rooted then cleanSegs rooted [] rest else cleanSegs rooted [s] rest
      else cleanSegs rooted (s :: acc) rest := rfl

theorem cleanSegs_cons_skip (rooted : Bool) (acc : List GoString) (s : GoString)
    (rest : List GoString) (h : s = [] ∨ s = str ".") :
    cleanSegs rooted acc (s :: rest) = cleanSegs rooted acc rest := by
  rw [cleanSegs_cons, if_pos h]

theorem cleanSegs_cons_dd_nil (rooted : Bool) (s : GoString) (rest : List GoString)
    (h1 : ¬(s = [] ∨ s = str ".")) (h2 : s = str "..") :
    cleanSegs rooted [] (s :: rest) =
      if rooted then cleanSegs rooted [] rest else cleanSegs rooted [s] rest := by
  rw [cleanSegs_cons, if_neg h1, if_pos h2]

theorem cleanSegs_cons_dd_cons (rooted : Bool) (a : GoString) (acc' : List GoString)
    (s : GoString) (rest : List GoString)
    (h1 : ¬(s = [] ∨ s = str ".")) (h2 : s = str "..") :
    cleanSegs rooted (a :: acc') (s :: rest) =
      if a = str ".." then cleanSegs rooted (s :: a :: acc') rest
      else cleanSegs rooted acc' rest := by
  rw [cleanSegs_cons, if_neg h1, if_pos h2]

theorem cleanSegs_cons_push (rooted : Bool) (acc : List GoString) (s : GoString)
    (rest : List GoString) (h1 : ¬(s = [] ∨ s = str ".")) (h2 : ¬ s = str "..") :
    cleanSegs rooted acc (s :: rest) = cleanSegs rooted (s :: acc) rest := by
  rw [cleanSegs_cons, if_neg h1, if_neg h2]

/-- Elements produced by `cleanSegs` come from the input or are `".."`, and
are nonempty, slash-free and not `"."` when the input elements are. -/
theorem cleanSegs_elems (rooted : Bool) :
    ∀ (ts acc : List GoString),
      (∀ t ∈ ts, t ≠ [] ∧ '/' ∉ t) → (∀ t ∈ acc, t ≠ [] ∧ '/' ∉ t ∧ t ≠ str ".") →
      ∀ t ∈ cleanSegs rooted acc ts, t ≠ [] ∧ '/' ∉ t ∧ t ≠ str "." := by
  intro ts
  induction ts with
  | nil =>
    intro acc _ hacc t ht
    rw [cleanSegs_nil] at ht
    exact hacc t (by simpa using ht)
  | cons s rest ih =>
    intro acc hts hacc t ht
    by_cases h1 : s = [] ∨ s = str "."
    · rw [cleanSegs_cons_skip rooted acc s rest h1] at ht
      exact ih acc (fun x hx => hts x (by simp [hx])) hacc t ht
    · push_neg at h1
      have h1' : ¬(s = [] ∨ s = str ".") := by
        rintro (h | h)
        exacts [h1.1 h, h1.2 h]
      have hsdd : s = str ".." → (s ≠ [] ∧ '/' ∉ s ∧ s ≠ str ".") := by
        intro h2
        subst h2
        refine ⟨by decide, by decide, by decide⟩
      by_cases h2 : s = str ".."
      · cases hcc : acc with
        | nil =>
          rw [hcc, cleanSegs_cons_dd_nil rooted s rest h1' h2] at ht
          by_cases hr : rooted
          · rw [if_pos hr] at ht
            exact ih [] (fun x hx => hts x (by simp [hx])) (by simp) t ht
          · rw [if_neg hr] at ht
            refine ih [s] (fun x hx => hts x (by simp [hx])) ?_ t ht
            intro x hx
            have hxe : x = s := by simpa using hx
            subst hxe
            exact hsdd h2
        | cons a acc' =>
          rw [hcc, cleanSegs_cons_dd_cons rooted a acc' s rest h1' h2] at ht
          by_cases ha : a = str ".."
          · rw [if_pos ha] at ht
            refine ih (s :: a :: acc') (fun x hx => hts x (by simp [hx])) ?_ t ht
            intro x hx
            rcases List.mem_cons.mp hx with hx | hx
            · subst hx
              exact hsdd h2
            · exact hacc x (by simp [hcc, hx])
          · rw [if_neg ha] at ht
            exact ih acc' (fun x hx => hts x (by simp [hx]))
              (fun x hx => hacc x (by simp [hcc, hx])) t ht
      · rw [cleanSegs_cons_push rooted acc s rest h1' h2] at ht
        refine ih (s :: acc) (fun x hx => hts x (by simp [hx])) ?_ t ht
        intro x hx
        rcases List.mem_cons.mp hx with hx | hx
        · subst hx
          exact ⟨h1.1, (hts x (by simp)).2, h1.2⟩
        · exact hacc x (by simp [hx])

theorem append_single_inj {α : Type} (l₁ l₂ : List α) (a b : α)
    (h : l₁ ++ [a] = l₂ ++ [b]) : l₁ = l₂ ∧ a = b := by
  have := List.append_inj' h rfl
  simpa using this

def ddFree (l : List GoString) : Prop := ∀ x ∈ l, x ≠ ddots

/-- A cleaned segment list: a block of `".."` followed by a `".."`-free tail,
with no `".."` at all in a rooted path. -/
def IsShaped (rooted : Bool) (l : List GoString) : Prop :=
  ∃ k rest, l = List.replicate k ddots ++ rest ∧ ddFree rest ∧ (rooted = true → k = 0)

theorem isShaped_nil (rooted : Bool) : IsShaped rooted [] :=
  ⟨0, [], rfl, fun x hx => absurd hx (List.not_mem_nil x), fun _ => rfl⟩

theorem isShaped_push (rooted : Bool) (l : List GoString) (s : GoString)
    (h : IsShaped rooted l) (hs : s ≠ ddots) : IsShaped rooted (l ++ [s]) := by
  obtain ⟨k, rest, heq, hfree, hk⟩ := h
  refine ⟨k, rest ++ [s], by rw [heq, List.append_assoc], ?_, hk⟩
  intro x hx
  rcases List.mem_append.mp hx with hx | hx
  · exact hfree x hx
  · rw [List.mem_singleton.mp hx]
    exact hs

theorem isShaped_dd_extend (rooted : Bool) (l : List GoString)
    (h : IsShaped rooted (l ++ [ddots])) : IsShaped rooted (l ++ [ddots, ddots]) := by
  obtain ⟨k, rest, heq, hfree, hk⟩ := h
  rcases List.eq_nil_or_concat rest with hre | ⟨r', x, hre⟩
  · subst hre
    rw [List.append_nil] at heq
    cases k with
    | zero =>
      exfalso
      have := congrArg List.length heq
      simp at this
    | succ m =>
      have hrep : List.replicate (m + 1) ddots = List.replicate m ddots ++ [ddots] :=
        List.replicate_succ' m ddots
      rw [hrep] at heq
      obtain ⟨hl, _⟩ := append_single_inj _ _ _ _ heq
      subst hl
      refine ⟨m + 2, [], ?_, fun x hx => absurd hx (List.not_mem_nil x), ?_⟩
      · rw [show List.replicate (m + 2) ddots =
            List.replicate m ddots ++ [ddots, ddots] from ?_]
        · simp
        · rw [show (List.replicate (m + 2) ddots) =
              List.replicate (m + 1) ddots ++ [ddots] from List.replicate_succ' (m + 1) ddots]
          rw [hrep]
          simp
      · intro hro
        exact absurd (hk hro) (by omega)
  · rw [List.concat_eq_append] at hre
    subst hre
    exfalso
    rw [show List.replicate k ddots ++ (r' ++ [x]) =
        (List.replicate k ddots ++ r') ++ [x] from by simp] at heq
    obtain ⟨_, hx⟩ := append_single_inj _ _ _ _ heq
    exact hfree x (by simp) hx.symm

theorem isShaped_pop (rooted : Bool) (l : List GoString) (a : GoString)
    (h : IsShaped rooted (l ++ [a])) (ha : a ≠ ddots) : IsShaped rooted l := by
  obtain ⟨k, rest, heq, hfree, hk⟩ := h
  rcases List.eq_nil_or_concat rest with hre | ⟨r', x, hre⟩
  · subst hre
    rw [List.append_nil] at heq
    cases k with
    | zero =>
      exfalso
      have := congrArg List.length heq
      simp at this
    | succ m =>
      exfalso
      have hrep : List.replicate (m + 1) ddots = List.replicate m ddots ++ [ddots] :=
        List.replicate_succ' m ddots
      rw [hrep] at heq
      obtain ⟨_, hx⟩ := append_single_inj _ _ _ _ heq
      exact ha hx
  · rw [List.concat_eq_append] at hre
    subst hre
    rw [show List.replicate k ddots ++ (r' ++ [x]) =
        (List.replicate k ddots ++ r') ++ [x] from by simp] at heq
    obtain ⟨hl, _⟩ := append_single_inj _ _ _ _ heq
    exact ⟨k, r', hl, fun y hy => hfree y (by simp [hy]), hk⟩

theorem cleanSegs_shaped (rooted : Bool) :
    ∀ (ts acc : List GoString), IsShaped rooted acc.reverse →
      IsShaped rooted (cleanSegs rooted acc ts) := by
  intro ts
  induction ts with
  | nil =>
    intro acc h
    rw [cleanSegs_nil]
    exact h
  | cons s rest ih =>
    intro acc hacc
    by_cases h1 : s = [] ∨ s = str "."
    · rw [cleanSegs_cons_skip _ _ _ _ h1]
      exact ih acc hacc
    · by_cases h2 : s = str ".."
      · cases acc with
        | nil =>
          rw [cleanSegs_cons_dd_nil _ _ _ h1 h2]
          by_cases hr : rooted
          · rw [if_pos hr]
            exact ih [] (isShaped_nil rooted)
          · rw [if_neg hr]
            refine ih [s] ?_
            subst h2
            exact ⟨1, [], by simp [ddots], fun x hx => absurd hx (List.not_mem_nil x),
              fun hro => absurd hro hr⟩
        | cons a acc' =>
          rw [cleanSegs_cons_dd_cons _ _ _ _ _ h1 h2]
          by_cases ha : a = str ".."
          · rw [if_pos ha]
            refine ih (s :: a :: acc') ?_
            subst h2
            subst ha
            have hrw : (ddots :: ddots :: acc').reverse =
                acc'.reverse ++ [ddots, ddots] := by simp
            rw [show str ".." = ddots from rfl, hrw]
            apply isShaped_dd_extend
            have hrw2 : (ddots :: acc').reverse = acc'.reverse ++ [ddots] := by simp
            rw [← hrw2]
            exact hacc
          · rw [if_neg ha]
            refine ih acc' ?_
            have hrw : (a :: acc').reverse = acc'.reverse ++ [a] := by simp
            rw [hrw] at hacc
            exact isShaped_pop rooted acc'.reverse a hacc ha
      · rw [cleanSegs_cons_push _ _ _ _ h1 h2]
        refine ih (s :: acc) ?_
        rw [List.reverse_cons]
        exact isShaped_push rooted acc.reverse s hacc h2

theorem cleanSegs_append (rooted : Bool) :
    ∀ (A B acc : List GoString),
      cleanSegs rooted acc (A ++ B) =
        cleanSegs rooted (cleanSegs rooted acc A).reverse B := by
  intro A
  induction A with
  | nil =>
    intro B acc
    rw [List.nil_append, cleanSegs_nil, List.reverse_reverse]
  | cons s rest ih =>
    intro B acc
    by_cases h1 : s = [] ∨ s = str "."
    · rw [List.cons_append, cleanSegs_cons_skip _ _ _ _ h1, ih,
        cleanSegs_cons_skip _ _ _ _ h1]
    · by_cases h2 : s = str ".."
      · cases acc with
        | nil =>
          rw [List.cons_append, cleanSegs_cons_dd_nil _ _ _ h1 h2,
            cleanSegs_cons_dd_nil _ _ _ h1 h2]
          by_cases hr : rooted
          · rw [if_pos hr, if_pos hr, ih]
          · rw [if_neg hr, if_neg hr, ih]
        | cons a acc' =>
          rw [List.cons_append, cleanSegs_cons_dd_cons _ _ _ _ _ h1 h2,
            cleanSegs_cons_dd_cons _ _ _ _ _ h1 h2]
          by_cases ha : a = str ".."
          · rw [if_pos ha, if_pos ha, ih]
          · rw [if_neg ha, if_neg ha, ih]
      · rw [List.cons_append, cleanSegs_cons_push _ _ _ _ h1 h2, ih,
          cleanSegs_cons_push _ _ _ _ h1 h2]

theorem cleanSegs_pushall (rooted : Bool) :
    ∀ (rest acc : List GoString),
      (∀ x ∈ rest, x ≠ [] ∧ x ≠ str "." ∧ x ≠ ddots) →
      cleanSegs rooted acc rest = acc.reverse ++ rest := by
  intro rest
  induction rest with
  | nil =>
    intro acc _
    rw [cleanSegs_nil, List.append_nil]
  | cons r rest ih =>
    intro acc h
    have hr := h r (by simp)
    have h1 : ¬(r = [] ∨ r = str ".") := by
      rintro (hh | hh)
      exacts [hr.1 hh, hr.2.1 hh]
    rw [cleanSegs_cons_push _ _ _ _ h1 hr.2.2,
      ih (r :: acc) (fun x hx => h x (by simp [hx]))]
    simp

theorem dd_not_trivial : ¬(ddots = [] ∨ ddots = str ".") := by
  rintro (hh | hh) <;> exact absurd hh (by decide)

theorem cleanSegs_dd_run (rest : List GoString) :
    ∀ (k m : Nat),
      cleanSegs false (List.replicate m ddots) (List.replicate k ddots ++ rest) =
        cleanSegs false (List.replicate (k + m) ddots) rest := by
  intro k
  induction k with
  | zero => intro m; simp
  | succ j ih =>
    intro m
    rw [show List.replicate (j + 1) ddots ++ rest =
        ddots :: (List.replicate j ddots ++ rest) from by rw [List.replicate_succ]; rfl]
    cases m with
    | zero =>
      rw [show List.replicate 0 ddots = ([] : List GoString) from rfl]
      rw [cleanSegs_cons_dd_nil _ _ _ dd_not_trivial rfl]
      rw [if_neg (by simp)]
      rw [show [ddots] = List.replicate 1 ddots from rfl]
      rw [ih 1]
    | succ n =>
      rw [show List.replicate (n + 1) ddots = ddots :: List.replicate n ddots from
        List.replicate_succ ..]
      rw [cleanSegs_cons_dd_cons _ _ _ _ _ dd_not_trivial rfl,
        if_pos (show ddots = str ".." from rfl)]
      rw [show ddots :: ddots :: List.replicate n ddots =
          List.replicate (n + 2) ddots from by
        rw [List.replicate_succ, List.replicate_succ]]
      rw [ih (n + 2), show j + (n + 2) = j + 1 + (n + 1) from by omega]

theorem cleanSegs_fix (rooted : Bool) (k : Nat) (rest : List GoString)
    (hfree : ∀ x ∈ rest, x ≠ [] ∧ x ≠ str "." ∧ x ≠ ddots)
    (hk : rooted = true → k = 0) :
    cleanSegs rooted [] (List.replicate k ddots ++ rest) =
      List.replicate k ddots ++ rest := by
  by_cases hr : rooted
  · rw [hk hr]
    simp only [List.replicate, List.nil_append]
    rw [cleanSegs_pushall rooted rest [] hfree]
    rfl
  · have hb : rooted = false := by revert hr; cases rooted <;> simp
    subst hb
    rw [show ([] : List GoString) = List.replicate 0 ddots from rfl,
      cleanSegs_dd_run rest k 0,
      cleanSegs_pushall false rest _ hfree]
    simp

theorem cleanSegs_pop_run (rooted : Bool) (B : List GoString) :
    ∀ (bs : List GoString) (acc : List GoString),
      (∀ x ∈ bs, x ≠ [] ∧ x ≠ str "." ∧ x ≠ ddots) →
      cleanSegs rooted (bs.reverse ++ acc) (List.replicate bs.length ddots ++ B) =
        cleanSegs rooted acc B := by
  intro bs
  induction bs using List.reverseRecOn with
  | nil => intro acc _; simp
  | append_singleton l a ih =>
    intro acc h
    have ha := h a (by simp)
    rw [List.reverse_append, List.length_append]
    simp only [List.reverse_singleton, List.singleton_append, List.length_singleton]
    rw [show List.replicate (l.length + 1) ddots ++ B =
        ddots :: (List.replicate l.length ddots ++ B) from by
      rw [List.replicate_succ]; rfl]
    rw [List.cons_append]
    rw [cleanSegs_cons_dd_cons rooted a (l.reverse ++ acc) _ _ dd_not_trivial rfl]
    rw [if_neg (show ¬a = str ".." from ha.2.2)]
    exact ih acc (fun x hx => h x (by simp [hx]))

theorem prefixShaped (rooted : Bool) :
    ∀ (a b : List GoString), IsShaped rooted (a ++ b) → IsShaped rooted a := by
  intro a
  induction a with
  | nil => intro b _; exact isShaped_nil rooted
  | cons x a' ih =>
    intro b hsh
    obtain ⟨k, rest, heq, hfree, hk⟩ := hsh
    cases k with
    | zero =>
      simp only [List.replicate, List.nil_append] at heq
      refine ⟨0, x :: a', rfl, ?_, fun _ => rfl⟩
      intro y hy
      apply hfree
      rw [← heq]
      rcases List.mem_cons.mp hy with hy | hy
      · simp [hy]
      · simp [hy]
    | succ m =>
      rw [List.replicate_succ, List.cons_append] at heq
      rw [List.cons_append] at heq
      injection heq with hx htail
      obtain ⟨k', rest', heq', hfree', _⟩ :=
        ih b ⟨m, rest, htail, hfree, fun hro => by have := hk hro; omega⟩
      exact ⟨k' + 1, rest',
        by rw [List.replicate_succ, List.cons_append, ← heq', hx],
        hfree', fun hro => by have := hk hro; omega⟩

theorem suffix_ddFree_aux :
    ∀ (a : List GoString) (k : Nat) (rest b : List GoString),
      a ++ b = List.replicate k ddots ++ rest → ddFree rest →
      b.head? ≠ some ddots → ddFree b := by
  intro a
  induction a with
  | nil =>
    intro k rest b heq hfree hb
    rw [List.nil_append] at heq
    cases k with
    | zero =>
      simp only [List.replicate, List.nil_append] at heq
      rw [heq]
      exact hfree
    | succ m =>
      exfalso
      rw [List.replicate_succ, List.cons_append] at heq
      apply hb
      rw [heq]
      rfl
  | cons x a' ih =>
    intro k rest b heq hfree hb
    cases k with
    | zero =>
      simp only [List.replicate, List.nil_append] at heq
      intro y hy
      apply hfree
      rw [← heq, List.cons_append]
      rcases List.mem_cons.mp (List.mem_cons_of_mem x (List.mem_append_right a' hy)) with hh | hh
      · simp [← heq]
        exact Or.inr (Or.inr hy)
      · simp
        exact Or.inr (Or.inr hy)
    | succ m =>
      rw [List.replicate_succ, List.cons_append, List.cons_append] at heq
      injection heq with _ htail
      exact ih m rest b htail hfree hb

theorem dropCommon_cons (b t : GoString) (bs ts : List GoString) :
    dropCommon (b :: bs) (t :: ts) =
      if b = t then dropCommon bs ts else (b :: bs, t :: ts) := rfl

theorem dropCommon_spec : ∀ bs ts : List GoString,
    ∃ common, bs = common ++ (dropCommon bs ts).1 ∧
      ts = common ++ (dropCommon bs ts).2 := by
  intro bs
  induction bs with
  | nil => intro ts; exact ⟨[], rfl, rfl⟩
  | cons b bs ih =>
    intro ts
    cases ts with
    | nil => exact ⟨[], rfl, rfl⟩
    | cons t ts' =>
      by_cases h : b = t
      · subst h
        rw [dropCommon_cons, if_pos rfl]
        obtain ⟨common, h1, h2⟩ := ih ts'
        exact ⟨b :: common,
          by rw [List.cons_append, ← h1],
          by rw [List.cons_append, ← h2]⟩
      · rw [dropCommon_cons, if_neg h]
        exact ⟨[], rfl, rfl⟩

/-- `joinSlash` of nonempty segments is empty only for the empty list. -/
theorem joinSlash_eq_nil (segs : List GoString)
    (hel : ∀ t ∈ segs, t ≠ []) (h : joinSlash segs = []) : segs = [] := by
  match segs with
  | [] => rfl
  | [x] => exact absurd h (hel x (by simp))
  | x :: y :: t =>
    exfalso
    rw [joinSlash_cons x (y :: t) (by simp)] at h
    rcases List.append_eq_nil.mp h with ⟨_, h2⟩
    exact List.cons_ne_nil _ _ h2

/-- `joinSlash` of nonempty, slash-free, non-`"."` segments is never `"."`. -/
theorem joinSlash_ne_dot (segs : List GoString)
    (hel : ∀ t ∈ segs, t ≠ [] ∧ '/' ∉ t ∧ t ≠ str ".") : joinSlash segs ≠ str "." := by
  match segs with
  | [] => intro h; exact absurd h (by decide)
  | [x] => exact (hel x (by simp)).2.2
  | x :: y :: t =>
    intro h
    rw [joinSlash_cons x (y :: t) (by simp)] at h
    have hlen := congrArg List.length h
    rw [List.length_append] at hlen
    have hx := (hel x (by simp)).1
    have : 0 < x.length := List.length_pos.mpr hx
    simp [str] at hlen
    omega

/-- Head of a `joinSlash` with a nonempty first segment. -/
theorem joinSlash_head (x : GoString) (tl : List GoString) (hx : x ≠ []) :
    (joinSlash (x :: tl)).head? = x.head? := by
  cases tl with
  | nil => rfl
  | cons y t =>
    rw [joinSlash_cons x (y :: t) (by simp)]
    cases x with
    | nil => exact absurd rfl hx
    | cons c cs => rfl

/-- `filepath.Rel`'s pre-pass on a cleaned path: `"."` becomes the empty string. -/
def stripDot (s : GoString) : GoString := if s = str "." then [] else s

/-- Whether a path is rooted (begins with `'/'`). -/
def rootedFlag (p : GoString) : Bool := decide (p.head? = some '/')

/-- Rendering of a cleaned segment list, as done by `filepath.Clean`. -/
def renderPath (rooted : Bool) (segs : List GoString) : GoString :=
  if rooted then '/' :: joinSlash segs
  else if joinSlash segs = [] then str "." else joinSlash segs

theorem renderPath_true (segs : List GoString) :
    renderPath true segs = '/' :: joinSlash segs := rfl

theorem renderPath_false (segs : List GoString) :
    renderPath false segs =
      if joinSlash segs = [] then str "." else joinSlash segs := rfl

/-- `cleanPath` factored through `renderPath`. -/
theorem cleanPath_eq_render (p : GoString) :
    cleanPath p = renderPath (rootedFlag p) (cleanSegs (rootedFlag p) [] (splitBy p '/')) := by
  by_cases hp : p = []
  · subst hp; rfl
  · unfold cleanPath renderPath rootedFlag
    rw [if_neg hp]

/-- Elements of a cleaned token list of a path. -/
theorem cleanTokens_elems (p : GoString) :
    ∀ t ∈ cleanSegs (rootedFlag p) [] (splitBy p '/'),
      t ≠ [] ∧ '/' ∉ t ∧ t ≠ str "." :=
  cleanSegs_elems (rootedFlag p) (splitBy p '/') [] (splitBy_elems p) (by simp)

/-- Splitting `Clean(p)` (with `"."` stripped) recovers the cleaned tokens of `p`. -/
theorem tokens_cleanPath (p : GoString) :
    splitBy (stripDot (cleanPath p)) '/' =
      cleanSegs (rootedFlag p) [] (splitBy p '/') := by
  by_cases hp : p = []
  · subst hp; rfl
  · have hel := cleanTokens_elems p
    rw [cleanPath_eq_render p]
    cases hr : rootedFlag p with
    | true =>
      rw [hr] at hel
      rw [renderPath_true]
      rw [stripDot, if_neg (by
        intro hcon
        have := congrArg List.head? hcon
        simp [str] at this)]
      rw [splitBy_cons_slash]
      cases hse : cleanSegs true [] (splitBy p '/') with
      | nil => rfl
      | cons a tl =>
        refine splitBy_joinSlash _ (by simp) ?_
        intro t ht
        have ht' : t ∈ cleanSegs true [] (splitBy p '/') := by rw [hse]; exact ht
        exact ⟨(hel t ht').1, (hel t ht').2.1⟩
    | false =>
      rw [hr] at hel
      rw [renderPath_false]
      by_cases hj : joinSlash (cleanSegs false [] (splitBy p '/')) = []
      · rw [if_pos hj]
        have hnil : cleanSegs false [] (splitBy p '/') = [] :=
          joinSlash_eq_nil _ (fun t ht => (hel t ht).1) hj
        rw [hnil]
        rfl
      · rw [if_neg hj]
        rw [stripDot, if_neg (joinSlash_ne_dot _ hel)]
        exact splitBy_joinSlash _ (fun hnil => hj (by rw [hnil]; rfl))
          (fun t ht => ⟨(hel t ht).1, (hel t ht).2.1⟩)

/-- The rooted flag survives cleaning and `"."`-stripping. -/
theorem rootedFlag_stripDot_cleanPath (p : GoString) :
    rootedFlag (stripDot (cleanPath p)) = rootedFlag p := by
  by_cases hp : p = []
  · subst hp; rfl
  · have hel := cleanTokens_elems p
    rw [cleanPath_eq_render p]
    cases hr : rootedFlag p with
    | true =>
      rw [hr] at hel
      rw [renderPath_true]
      rw [stripDot, if_neg (by
        intro hcon
        have := congrArg List.head? hcon
        simp [str] at this)]
      rfl
    | false =>
      rw [hr] at hel
      rw [renderPath_false]
      by_cases hj : joinSlash (cleanSegs false [] (splitBy p '/')) = []
      · rw [if_pos hj]; rfl
      · rw [if_neg hj]
        rw [stripDot, if_neg (joinSlash_ne_dot _ hel)]
        cases hse : cleanSegs false [] (splitBy p '/') with
        | nil => rw [hse] at hj; exact absurd rfl hj
        | cons x tl =>
          have hmem : x ∈ cleanSegs false [] (splitBy p '/') := by rw [hse]; simp
          have hx := (hel x hmem).1
          have hsl := (hel x hmem).2.1
          rw [rootedFlag]
          rw [joinSlash_head x tl hx]
          cases x with
          | nil => exact absurd rfl hx
          | cons c cs =>
            have hc : c ≠ '/' := fun h => hsl (by simp [h])
            simp [hc]

theorem head_append_ne_nil {α : Type} (l l' : List α) (h : l ≠ []) :
    (l ++ l').head? = l.head? := by
  cases l with
  | nil => exact absurd rfl h
  | cons c cs => rfl

/-- A `joinSlash` of nonempty slash-free segments never starts with `'/'`. -/
theorem rootedFlag_joinSlash (segs : List GoString)
    (hel : ∀ t ∈ segs, t ≠ [] ∧ '/' ∉ t) : rootedFlag (joinSlash segs) = false := by
  cases segs with
  | nil => rfl
  | cons x tl =>
    have hx := (hel x (by simp)).1
    have hsl := (hel x (by simp)).2
    rw [rootedFlag, joinSlash_head x tl hx]
    cases x with
    | nil => exact absurd rfl hx
    | cons c cs =>
      have hc : c ≠ '/' := fun h => hsl (by simp [h])
      simp [hc]

/-- `cleanSegs` fixes any already-cleaned (shaped) segment list. -/
theorem cleanSegs_of_shaped (rooted : Bool) (l : List GoString)
    (hsh : IsShaped rooted l) (hel : ∀ t ∈ l, t ≠ [] ∧ t ≠ str ".") :
    cleanSegs rooted [] l = l := by
  obtain ⟨k, rest, heq, hfree, hk⟩ := hsh
  subst heq
  exact cleanSegs_fix rooted k rest
    (fun x hx => ⟨(hel x (by simp [hx])).1, (hel x (by simp [hx])).2, hfree x hx⟩) hk

/-- Resuming `cleanSegs` after a cleaned common part leaves it in place. -/
theorem cleanSegs_common (rooted : Bool) (common ts' : List GoString)
    (hsh : IsShaped rooted (common ++ ts'))
    (hel : ∀ t ∈ common ++ ts', t ≠ [] ∧ t ≠ str ".") :
    cleanSegs rooted common.reverse ts' = common ++ ts' := by
  have h2 : cleanSegs rooted [] common = common :=
    cleanSegs_of_shaped rooted common (prefixShaped rooted common ts' hsh)
      (fun t ht => hel t (List.mem_append_left _ ht))
  have h1 : cleanSegs rooted [] (common ++ ts') = common ++ ts' :=
    cleanSegs_of_shaped rooted _ hsh hel
  rw [cleanSegs_append, h2] at h1
  exact h1

/-- `filepath.Join` of two elements (Unix convention): empty elements are
dropped and the result is cleaned. -/
def goJoin (a b : GoString) : GoString :=
  if a = [] then (if b = [] then [] else cleanPath b)
  else if b = [] then cleanPath a
  else cleanPath (a ++ '/' :: b)

/-- `goRel` with its lets inlined and phrased through `stripDot`/`rootedFlag`. -/
theorem goRel_eq (basep targp : GoString) :
    goRel basep targp =
      if cleanPath targp = cleanPath basep then some (str ".")
      else if rootedFlag (stripDot (cleanPath basep)) ≠
              rootedFlag (stripDot (cleanPath targp)) then none
      else if (dropCommon (splitBy (stripDot (cleanPath basep)) '/')
          (splitBy (stripDot (cleanPath targp)) '/')).1.head? = some ddots then none
      else if (dropCommon (splitBy (stripDot (cleanPath basep)) '/')
          (splitBy (stripDot (cleanPath targp)) '/')).1 ≠ [] then
        some (joinSlash (List.replicate (dropCommon (splitBy (stripDot (cleanPath basep)) '/')
            (splitBy (stripDot (cleanPath targp)) '/')).1.length ddots ++
          (dropCommon (splitBy (stripDot (cleanPath basep)) '/')
            (splitBy (stripDot (cleanPath targp)) '/')).2))
      else some (joinSlash (dropCommon (splitBy (stripDot (cleanPath basep)) '/')
          (splitBy (stripDot (cleanPath targp)) '/')).2) := rfl

/-- Core token computation behind the `Join(base, Rel(base, targ)) = Clean(targ)`
identity: cleaning the tokens of `base + "/" + rel` recovers the cleaned
tokens of the target. -/
theorem rel_core (fl : Bool) (basep r : GoString) (common bs' ts' : List GoString)
    (hbasepne : basep ≠ [])
    (hflB : rootedFlag basep = fl)
    (hBtok : cleanSegs fl [] (splitBy basep '/') = common ++ bs')
    (htok_r : splitBy r '/' = List.replicate bs'.length ddots ++ ts')
    (hTshape : IsShaped fl (common ++ ts'))
    (hT_el : ∀ t ∈ common ++ ts', t ≠ [] ∧ t ≠ str ".")
    (hbs_el : ∀ t ∈ bs', t ≠ [] ∧ t ≠ str "." ∧ t ≠ ddots) :
    cleanSegs (rootedFlag (basep ++ '/' :: r)) [] (splitBy (basep ++ '/' :: r) '/') =
      common ++ ts' ∧ rootedFlag (basep ++ '/' :: r) = fl := by
  have hflQ : rootedFlag (basep ++ '/' :: r) = fl := by
    rw [rootedFlag, head_append_ne_nil _ _ hbasepne]
    exact hflB
  refine ⟨?_, hflQ⟩
  rw [splitBy_append, htok_r, hflQ, cleanSegs_append, hBtok, List.reverse_append,
    cleanSegs_pop_run fl ts' bs' common.reverse hbs_el]
  exact cleanSegs_common fl common ts' hTshape hT_el

/-- The documented contract of `filepath.Rel`:
`Join(base, Rel(base, targ))` is `Clean(targ)` (for a non-degenerate result). -/
theorem goRel_join (basep targp r : GoString)
    (h : goRel basep targp = some r) (hne : r ≠ []) (hdot : r ≠ str ".") :
    goJoin basep r = cleanPath targp := by
  rw [goRel_eq] at h
  by_cases heq : cleanPath targp = cleanPath basep
  · rw [if_pos heq] at h
    exact absurd (Option.some.inj h).symm hdot
  rw [if_neg heq] at h
  rw [tokens_cleanPath basep, tokens_cleanPath targp,
    rootedFlag_stripDot_cleanPath basep, rootedFlag_stripDot_cleanPath targp] at h
  by_cases hfl : rootedFlag basep ≠ rootedFlag targp
  · rw [if_pos hfl] at h
    exact absurd h (by simp)
  rw [if_neg hfl] at h
  have hflagsBT : rootedFlag targp = rootedFlag basep := (not_ne_iff.mp hfl).symm
  rw [hflagsBT] at h
  set fl := rootedFlag basep with hfldef
  set Bs := cleanSegs fl [] (splitBy basep '/') with hBsdef
  set Ts := cleanSegs fl [] (splitBy targp '/') with hTsdef
  set pr := dropCommon Bs Ts with hprdef
  by_cases hdd : pr.1.head? = some ddots
  · rw [if_pos hdd] at h
    exact absurd h (by simp)
  rw [if_neg hdd] at h
  have hrU : r = joinSlash (List.replicate pr.1.length ddots ++ pr.2) := by
    by_cases hb1 : pr.1 ≠ []
    · rw [if_pos hb1] at h
      exact (Option.some.inj h).symm
    · rw [if_neg hb1] at h
      have hb1' : pr.1 = [] := not_not.mp hb1
      rw [hb1']
      simpa using (Option.some.inj h).symm
  obtain ⟨common, hcB, hcT⟩ := dropCommon_spec Bs Ts
  rw [← hprdef] at hcB hcT
  have hflT : rootedFlag targp = fl := hflagsBT
  have helB : ∀ t ∈ Bs, t ≠ [] ∧ '/' ∉ t ∧ t ≠ str "." := cleanTokens_elems basep
  have helT : ∀ t ∈ Ts, t ≠ [] ∧ '/' ∉ t ∧ t ≠ str "." := by
    rw [hTsdef, ← hflT]
    exact cleanTokens_elems targp
  have hshB : IsShaped fl Bs := by
    rw [hBsdef]
    exact cleanSegs_shaped fl (splitBy basep '/') [] (isShaped_nil fl)
  have hshT : IsShaped fl Ts := by
    rw [hTsdef]
    exact cleanSegs_shaped fl (splitBy targp '/') [] (isShaped_nil fl)
  have hddfree : ddFree pr.1 := by
    obtain ⟨k, rest, hbe, hfree, _⟩ := hshB
    rw [hcB] at hbe
    exact suffix_ddFree_aux common k rest pr.1 hbe hfree hdd
  have hbs'_el : ∀ t ∈ pr.1, t ≠ [] ∧ t ≠ str "." ∧ t ≠ ddots := by
    intro t ht
    have hmem : t ∈ Bs := by rw [hcB]; exact List.mem_append_right _ ht
    exact ⟨(helB t hmem).1, (helB t hmem).2.2, hddfree t ht⟩
  have hts'_mem : ∀ t ∈ pr.2, t ∈ Ts := by
    intro t ht
    rw [hcT]
    exact List.mem_append_right _ ht
  have hcommon_el : ∀ t ∈ common ++ pr.2, t ≠ [] ∧ t ≠ str "." := by
    intro t ht
    have hmem : t ∈ Ts := by rw [hcT]; exact ht
    exact ⟨(helT t hmem).1, (helT t hmem).2.2⟩
  have hshT2 : IsShaped fl (common ++ pr.2) := by rw [← hcT]; exact hshT
  have hL_el : ∀ t ∈ List.replicate pr.1.length ddots ++ pr.2, t ≠ [] ∧ '/' ∉ t := by
    intro t ht
    rcases List.mem_append.mp ht with ht | ht
    · rw [List.eq_of_mem_replicate ht]
      exact ⟨by decide, by decide⟩
    · exact ⟨(helT t (hts'_mem t ht)).1, (helT t (hts'_mem t ht)).2.1⟩
  have hLne : List.replicate pr.1.length ddots ++ pr.2 ≠ [] := by
    intro hl
    apply hne
    rw [hrU, hl]
    rfl
  have htok_r : splitBy r '/' = List.replicate pr.1.length ddots ++ pr.2 := by
    rw [hrU]
    exact splitBy_joinSlash _ hLne hL_el
  by_cases hbp : basep = []
  · have hgj : goJoin basep r = cleanPath r := by
      rw [goJoin, if_pos hbp, if_neg hne]
    have hBnil : Bs = [] := by rw [hBsdef, hbp]; rfl
    have hcommon_nil : common = [] := by
      rcases List.append_eq_nil.mp (hcB.symm.trans hBnil) with ⟨hc, _⟩
      exact hc
    have hb1_nil : pr.1 = [] := by
      rcases List.append_eq_nil.mp (hcB.symm.trans hBnil) with ⟨_, hc⟩
      exact hc
    have hflf : fl = false := by rw [hfldef, hbp]; rfl
    have hTeq : Ts = pr.2 := by rw [hcT, hcommon_nil]; rfl
    have hrootr : rootedFlag r = false := by
      rw [hrU]
      exact rootedFlag_joinSlash _ hL_el
    rw [hgj, cleanPath_eq_render r, hrootr, htok_r, hb1_nil]
    rw [show (List.replicate ([] : List GoString).length ddots ++ pr.2) = pr.2 from by simp]
    rw [← hTeq]
    have hclean : cleanSegs false [] Ts = Ts := by
      rw [← hflf]
      exact cleanSegs_of_shaped fl Ts hshT
        (fun t ht => ⟨(helT t ht).1, (helT t ht).2.2⟩)
    rw [hclean]
    rw [cleanPath_eq_render targp, hflT, hflf, hTsdef, hflf]
  · have hgj : goJoin basep r = cleanPath (basep ++ '/' :: r) := by
      rw [goJoin, if_neg hbp, if_neg hne]
    obtain ⟨hseg, hflQ⟩ := rel_core fl basep r common pr.1 pr.2 hbp hfldef.symm
      hcB htok_r hshT2 hcommon_el hbs'_el
    rw [hgj, cleanPath_eq_render (basep ++ '/' :: r)]
    rw [hflQ] at hseg ⊢
    rw [hseg, ← hcT, cleanPath_eq_render targp, hflT]

/-- `detectFolderFromPath` with `toSlash` (the identity here) and lets reduced. -/
theorem detectFolderFromPath_eq (s : Service) (f : GoString) :
    detectFolderFromPath s f =
      match goRel s.dashboardsDir (goDir f) with
      | none => []
      | some rel0 => if rel0 = str "." ∨ rel0 = [] then [] else rel0 := rfl

/-! ### The Windows path-separator convention (`filepath` compiled for Windows,
volume names aside): both `'/'` and `'\'` separate segments, cleaned output
uses `'\'`, and `ToSlash` rewrites `'\'` to `'/'`. -/

/-- Spelling a slash-path in the Windows convention. -/
def winChar (c : Char) : Char := if c = '/' then '\\' else c

def winOf (p : GoString) : GoString := p.map winChar

def slashChar (c : Char) : Char := if c = '\\' then '/' else c

/-- Accumulator loop of splitting on both Windows separators, dropping empties. -/
def splitSepsAux : GoString → GoString → List GoString
  | [], current => if current = [] then [] else [current]
  | c :: cs, current =>
    if c = '/' ∨ c = '\\' then
      if current = [] then splitSepsAux cs []
      else current :: splitSepsAux cs []
    else splitSepsAux cs (current ++ [c])

def splitSeps (s : GoString) : List GoString := splitSepsAux s []

/-- `strings.Join(parts, "\\")`. -/
def joinBack : List GoString → GoString
  | [] => []
  | [p] => p
  | p :: q :: ps => p ++ '\\' :: joinBack (q :: ps)

/-- `filepath.Clean` under the Windows separator convention. -/
def cleanPathW (p : GoString) : GoString :=
  if p = [] then str "."
  else
    let rooted := decide (p.head? = some '/' ∨ p.head? = some '\\')
    let core := joinBack (cleanSegs rooted [] (splitSeps p))
    if rooted then '\\' :: core
    else if core = [] then str "." else core

/-- `filepath.Dir`'s raw prefix under the Windows convention. -/
def dirRawW (p : GoString) : GoString :=
  (p.reverse.dropWhile (fun c => c ≠ '/' ∧ c ≠ '\\')).reverse

def goDirW (p : GoString) : GoString := cleanPathW (dirRawW p)

/-- `filepath.Rel` under the Windows convention. -/
def goRelW (basep targp : GoString) : Option GoString :=
  let base0 := cleanPathW basep
  let targ0 := cleanPathW targp
  if targ0 = base0 then some (str ".")
  else
    let base := if base0 = str "." then [] else base0
    let targ := if targ0 = str "." then [] else targ0
    if (decide (base.head? = some '\\')) ≠ (decide (targ.head? = some '\\')) then none
    else
      let pair := dropCommon (splitBy base '\\') (splitBy targ '\\')
      if pair.1.head? = some ddots then none
      else if pair.1 ≠ [] then
        some (joinBack (List.replicate pair.1.length ddots ++ pair.2))
      else some (joinBack pair.2)

/-- `filepath.ToSlash` under the Windows convention. -/
def toSlashW (p : GoString) : GoString := p.map slashChar

/-- `detectFolderFromPath` as compiled under the Windows convention. -/
def detectFolderFromPathW (s : Service) (filePath : GoString) : GoString :=
  match goRelW s.dashboardsDir (goDirW filePath) with
  | none => []
  | some rel0 =>
    let rel := toSlashW rel0
    if rel = str "." ∨ rel = [] then [] else rel

theorem winChar_eq_self (c : Char) (h : c ≠ '/') : winChar c = c := by
  unfold winChar
  rw [if_neg h]

theorem winOf_id (l : GoString) (h : '/' ∉ l) : winOf l = l := by
  unfold winOf
  have : ∀ c ∈ l, winChar c = id c := by
    intro c hc
    exact winChar_eq_self c (fun h' => h (h' ▸ hc))
  rw [List.map_congr_left this, List.map_id]

theorem winOf_nil_iff (l : GoString) : winOf l = [] ↔ l = [] := by
  unfold winOf
  simp

theorem winChar_inj (c d : Char) (hc : c ≠ '\\') (hd : d ≠ '\\')
    (h : winChar c = winChar d) : c = d := by
  unfold winChar at h
  by_cases h1 : c = '/'
  · by_cases h2 : d = '/'
    · rw [h1, h2]
    · rw [if_pos h1, if_neg h2] at h
      exact absurd h.symm hd
  · by_cases h2 : d = '/'
    · rw [if_neg h1, if_pos h2] at h
      exact absurd h hc
    · rw [if_neg h1, if_neg h2] at h
      exact h

theorem winOf_inj : ∀ (a b : GoString), '\\' ∉ a → '\\' ∉ b →
    winOf a = winOf b → a = b := by
  intro a
  induction a with
  | nil =>
    intro b _ _ h
    cases b with
    | nil => rfl
    | cons c cs => exact absurd h (by simp [winOf])
  | cons c cs ih =>
    intro b ha hb h
    cases b with
    | nil => exact absurd h (by simp [winOf])
    | cons d ds =>
      simp only [winOf, List.map_cons, List.cons.injEq] at h
      obtain ⟨h1, h2⟩ := h
      have hc : c ≠ '\\' := fun hh => ha (by simp [hh])
      have hd : d ≠ '\\' := fun hh => hb (by simp [hh])
      rw [winChar_inj c d hc hd h1]
      rw [ih ds (fun hh => ha (by simp [hh])) (fun hh => hb (by simp [hh])) h2]

theorem splitSepsAux_cons (c : Char) (cs current : GoString) :
    splitSepsAux (c :: cs) current =
      if c = '/' ∨ c = '\\' then
        if current = [] then splitSepsAux cs []
        else current :: splitSepsAux cs []
      else splitSepsAux cs (current ++ [c]) := rfl

theorem splitByAux_cons (sep c : Char) (cs current : GoString) :
    splitByAux sep (c :: cs) current =
      if c = sep then
        if current = [] then splitByAux sep cs []
        else current :: splitByAux sep cs []
      else splitByAux sep cs (current ++ [c]) := rfl

theorem splitSepsAux_winOf : ∀ (s cur : GoString), '\\' ∉ s →
    splitSepsAux (winOf s) cur = splitByAux '/' s cur := by
  intro s
  induction s with
  | nil => intro cur _; rfl
  | cons c cs ih =>
    intro cur hbs
    have hc : c ≠ '\\' := fun h => hbs (by simp [h])
    have hcs : '\\' ∉ cs := fun h => hbs (by simp [h])
    show splitSepsAux (winChar c :: winOf cs) cur = splitByAux '/' (c :: cs) cur
    rw [splitSepsAux_cons, splitByAux_cons]
    by_cases h : c = '/'
    · subst h
      rw [if_pos (show winChar '/' = '/' ∨ winChar '/' = '\\' from Or.inr rfl),
        if_pos rfl]
      by_cases hcur : cur = []
      · rw [if_pos hcur, if_pos hcur, ih [] hcs]
      · rw [if_neg hcur, if_neg hcur, ih [] hcs]
    · rw [winChar_eq_self c h]
      rw [if_neg (by rintro (hh | hh); exacts [h hh, hc hh]), if_neg h]
      exact ih (cur ++ [c]) hcs

theorem splitSeps_winOf (s : GoString) (h : '\\' ∉ s) :
    splitSeps (winOf s) = splitBy s '/' :=
  splitSepsAux_winOf s [] h

theorem splitByAux_back_winOf : ∀ (s cur : GoString), '\\' ∉ s →
    splitByAux '\\' (winOf s) cur = splitByAux '/' s cur := by
  intro s
  induction s with
  | nil => intro cur _; rfl
  | cons c cs ih =>
    intro cur hbs
    have hc : c ≠ '\\' := fun h => hbs (by simp [h])
    have hcs : '\\' ∉ cs := fun h => hbs (by simp [h])
    show splitByAux '\\' (winChar c :: winOf cs) cur = splitByAux '/' (c :: cs) cur
    rw [splitByAux_cons, splitByAux_cons]
    by_cases h : c = '/'
    · subst h
      rw [if_pos (show winChar '/' = '\\' from rfl), if_pos rfl]
      by_cases hcur : cur = []
      · rw [if_pos hcur, if_pos hcur, ih [] hcs]
      · rw [if_neg hcur, if_neg hcur, ih [] hcs]
    · rw [winChar_eq_self c h]
      rw [if_neg hc, if_neg h]
      exact ih (cur ++ [c]) hcs

theorem splitBy_back_winOf (s : GoString) (h : '\\' ∉ s) :
    splitBy (winOf s) '\\' = splitBy s '/' :=
  splitByAux_back_winOf s [] h

theorem winOf_joinSlash : ∀ segs : List GoString,
    winOf (joinSlash segs) = joinBack (segs.map winOf)
  | [] => rfl
  | [p] => rfl
  | p :: q :: ps => by
    rw [joinSlash_cons p (q :: ps) (by simp)]
    show (p ++ '/' :: joinSlash (q :: ps)).map winChar = _
    rw [List.map_append, List.map_cons]
    rw [show winChar '/' = '\\' from rfl]
    rw [show (joinSlash (q :: ps)).map winChar = winOf (joinSlash (q :: ps)) from rfl]
    rw [winOf_joinSlash (q :: ps)]
    rw [List.map_cons, List.map_cons]
    rfl

theorem splitSlash_parts_subset :
    ∀ (s p : GoString), p ∈ splitSlash s → ∀ c ∈ p, c ∈ s := by
  intro s
  induction s with
  | nil =>
    intro p hp c hc
    simp [splitSlash] at hp
    subst hp
    simp at hc
  | cons d ds ih =>
    intro p hp c hc
    by_cases h : d = '/'
    · rw [show splitSlash (d :: ds) = [] :: splitSlash ds from by simp [splitSlash, h]] at hp
      rcases List.mem_cons.mp hp with hp | hp
      · subst hp; simp at hc
      · exact List.mem_cons_of_mem d (ih p hp c hc)
    · rw [show splitSlash (d :: ds) = (match splitSlash ds with
          | [] => [[d]]
          | q :: qs => (d :: q) :: qs) from by simp [splitSlash, h]] at hp
      cases hs : splitSlash ds with
      | nil => exact absurd hs (splitSlash_ne_nil ds)
      | cons q qs =>
        rw [hs] at hp
        rcases List.mem_cons.mp hp with hp | hp
        · subst hp
          rcases List.mem_cons.mp hc with hc | hc
          · simp [hc]
          · exact List.mem_cons_of_mem d (ih q (by simp [hs]) c hc)
        · exact List.mem_cons_of_mem d (ih p (by simp [hs, hp]) c hc)

theorem splitBy_bsfree (s : GoString) (hs : '\\' ∉ s) :
    ∀ t ∈ splitBy s '/', '\\' ∉ t := by
  intro t ht hbt
  rw [splitBy_eq_filter, List.mem_filter] at ht
  exact hs (splitSlash_parts_subset s t ht.1 '\\' hbt)

/-- Every element produced by `cleanSegs` comes from the input, the
accumulator, or is `".."`. -/
theorem cleanSegs_mem (rooted : Bool) :
    ∀ (ts acc : List GoString), ∀ t ∈ cleanSegs rooted acc ts,
      t ∈ ts ∨ t ∈ acc ∨ t = ddots := by
  intro ts
  induction ts with
  | nil =>
    intro acc t ht
    rw [cleanSegs_nil] at ht
    exact Or.inr (Or.inl (by simpa using ht))
  | cons s rest ih =>
    intro acc t ht
    by_cases h1 : s = [] ∨ s = str "."
    · rw [cleanSegs_cons_skip _ _ _ _ h1] at ht
      rcases ih acc t ht with hh | hh
      · exact Or.inl (List.mem_cons_of_mem s hh)
      · exact Or.inr hh
    · by_cases h2 : s = str ".."
      · cases acc with
        | nil =>
          rw [cleanSegs_cons_dd_nil _ _ _ h1 h2] at ht
          by_cases hr : rooted
          · rw [if_pos hr] at ht
            rcases ih [] t ht with hh | hh | hh
            · exact Or.inl (List.mem_cons_of_mem s hh)
            · simp at hh
            · exact Or.inr (Or.inr hh)
          · rw [if_neg hr] at ht
            rcases ih [s] t ht with hh | hh | hh
            · exact Or.inl (List.mem_cons_of_mem s hh)
            · rw [List.mem_singleton.mp hh]
              exact Or.inl (List.mem_cons_self s rest)
            · exact Or.inr (Or.inr hh)
        | cons a acc' =>
          rw [cleanSegs_cons_dd_cons _ _ _ _ _ h1 h2] at ht
          by_cases ha : a = str ".."
          · rw [if_pos ha] at ht
            rcases ih (s :: a :: acc') t ht with hh | hh | hh
            · exact Or.inl (List.mem_cons_of_mem s hh)
            · rcases List.mem_cons.mp hh with hh | hh
              · rw [hh]
                exact Or.inl (List.mem_cons_self s rest)
              · exact Or.inr (Or.inl hh)
            · exact Or.inr (Or.inr hh)
          · rw [if_neg ha] at ht
            rcases ih acc' t ht with hh | hh | hh
            · exact Or.inl (List.mem_cons_of_mem s hh)
            · exact Or.inr (Or.inl (List.mem_cons_of_mem a hh))
            · exact Or.inr (Or.inr hh)
      · rw [cleanSegs_cons_push _ _ _ _ h1 h2] at ht
        rcases ih (s :: acc) t ht with hh | hh | hh
        · exact Or.inl (List.mem_cons_of_mem s hh)
        · rcases List.mem_cons.mp hh with hh | hh
          · rw [hh]
            exact Or.inl (List.mem_cons_self s rest)
          · exact Or.inr (Or.inl hh)
        · exact Or.inr (Or.inr hh)

theorem joinSlash_bsfree : ∀ segs : List GoString,
    (∀ t ∈ segs, '\\' ∉ t) → '\\' ∉ joinSlash segs
  | [] => fun _ h => by simp [joinSlash] at h
  | [p] => fun hel h => (hel p (by simp)) h
  | p :: q :: ps => fun hel h => by
    rw [joinSlash_cons p (q :: ps) (by simp)] at h
    rcases List.mem_append.mp h with hh | hh
    · exact (hel p (by simp)) hh
    · rcases List.mem_cons.mp hh with hh | hh
      · exact absurd hh.symm (by decide)
      · exact joinSlash_bsfree (q :: ps) (fun t ht => hel t (List.mem_cons_of_mem p ht)) hh

/-- The cleaned tokens of a backslash-free path are backslash-free. -/
theorem cleanTokens_bsfree (p : GoString) (hp : '\\' ∉ p) :
    ∀ t ∈ cleanSegs (rootedFlag p) [] (splitBy p '/'), '\\' ∉ t := by
  intro t ht
  rcases cleanSegs_mem (rootedFlag p) (splitBy p '/') [] t ht with hh | hh | hh
  · exact splitBy_bsfree p hp t hh
  · simp at hh
  · rw [hh]
    decide

theorem cleanPath_bsfree (p : GoString) (hp : '\\' ∉ p) : '\\' ∉ cleanPath p := by
  have htok := cleanTokens_bsfree p hp
  rw [cleanPath_eq_render p]
  cases hr : rootedFlag p with
  | true =>
    rw [hr] at htok
    rw [renderPath_true]
    intro h
    rcases List.mem_cons.mp h with hh | hh
    · exact absurd hh.symm (by decide)
    · exact joinSlash_bsfree _ htok hh
  | false =>
    rw [hr] at htok
    rw [renderPath_false]
    by_cases hj : joinSlash (cleanSegs false [] (splitBy p '/')) = []
    · rw [if_pos hj]
      decide
    · rw [if_neg hj]
      exact joinSlash_bsfree _ htok

theorem stripDot_bsfree (s : GoString) (hs : '\\' ∉ s) : '\\' ∉ stripDot s := by
  unfold stripDot
  by_cases h : s = str "."
  · rw [if_pos h]; simp
  · rw [if_neg h]; exact hs

theorem dirRaw_bsfree (p : GoString) (hp : '\\' ∉ p) : '\\' ∉ dirRaw p := by
  intro h
  unfold dirRaw at h
  rw [List.mem_reverse] at h
  exact hp (by
    rw [← List.mem_reverse]
    exact (List.dropWhile_sublist _).subset h)

theorem winOf_map_id (segs : List GoString) (h : ∀ t ∈ segs, '/' ∉ t) :
    segs.map winOf = segs := by
  have hc : ∀ t ∈ segs, winOf t = id t := fun t ht => winOf_id t (h t ht)
  rw [List.map_congr_left hc, List.map_id]

theorem cleanPathW_eq (p : GoString) :
    cleanPathW p =
      if p = [] then str "."
      else if decide (p.head? = some '/' ∨ p.head? = some '\\') then
        '\\' :: joinBack (cleanSegs (decide (p.head? = some '/' ∨ p.head? = some '\\'))
          [] (splitSeps p))
      else if joinBack (cleanSegs (decide (p.head? = some '/' ∨ p.head? = some '\\'))
          [] (splitSeps p)) = [] then str "."
      else joinBack (cleanSegs (decide (p.head? = some '/' ∨ p.head? = some '\\'))
        [] (splitSeps p)) := rfl

theorem cleanPathW_winOf (p : GoString) (hp : '\\' ∉ p) :
    cleanPathW (winOf p) = winOf (cleanPath p) := by
  by_cases hnil : p = []
  · subst hnil; rfl
  · have hwne : winOf p ≠ [] := fun h => hnil ((winOf_nil_iff p).mp h)
    have hel := cleanTokens_elems p
    have hroot : decide ((winOf p).head? = some '/' ∨ (winOf p).head? = some '\\') =
        rootedFlag p := by
      cases p with
      | nil => exact absurd rfl hnil
      | cons c cs =>
        show decide (some (winChar c) = some '/' ∨ some (winChar c) = some '\\') =
          decide (some c = some '/')
        by_cases h : c = '/'
        · subst h; rfl
        · have hc : c ≠ '\\' := fun hh => hp (by simp [hh])
          rw [winChar_eq_self c h]
          simp [h, hc]
    rw [cleanPathW_eq, if_neg hwne, hroot, splitSeps_winOf p hp, cleanPath_eq_render p]
    cases hr : rootedFlag p with
    | true =>
      rw [hr] at hel
      rw [if_pos rfl, renderPath_true]
      rw [show winOf ('/' :: joinSlash (cleanSegs true [] (splitBy p '/'))) =
        '\\' :: winOf (joinSlash (cleanSegs true [] (splitBy p '/'))) from rfl]
      rw [winOf_joinSlash, winOf_map_id _ (fun t ht => (hel t ht).2.1)]
    | false =>
      rw [hr] at hel
      rw [renderPath_false]
      have hjb : winOf (joinSlash (cleanSegs false [] (splitBy p '/'))) =
          joinBack (cleanSegs false [] (splitBy p '/')) := by
        rw [winOf_joinSlash, winOf_map_id _ (fun t ht => (hel t ht).2.1)]
      rw [if_neg (by simp)]
      by_cases hj : joinSlash (cleanSegs false [] (splitBy p '/')) = []
      · have hjn : joinBack (cleanSegs false [] (splitBy p '/')) = [] := by
          rw [← hjb, hj]; rfl
        rw [if_pos hj, if_pos hjn]
        rfl
      · have hjbne : joinBack (cleanSegs false [] (splitBy p '/')) ≠ [] := by
          rw [← hjb]
          exact fun h => hj ((winOf_nil_iff _).mp h)
        rw [if_neg hj, if_neg hjbne]
        exact hjb.symm

theorem dropWhile_winOf (pW pU : Char → Bool)
    (hcomp : ∀ c, c ≠ '\\' → pW (winChar c) = pU c) :
    ∀ l : GoString, '\\' ∉ l → (winOf l).dropWhile pW = winOf (l.dropWhile pU) := by
  intro l
  induction l with
  | nil => intro _; rfl
  | cons c cs ih =>
    intro hbs
    have hc : c ≠ '\\' := fun h => hbs (by simp [h])
    have hcs : '\\' ∉ cs := fun h => hbs (by simp [h])
    show (winChar c :: winOf cs).dropWhile pW = winOf ((c :: cs).dropWhile pU)
    rw [List.dropWhile_cons, List.dropWhile_cons, hcomp c hc]
    cases h : pU c with
    | false =>
      rw [if_neg Bool.false_ne_true, if_neg Bool.false_ne_true]
      rfl
    | true =>
      rw [if_pos rfl, if_pos rfl]
      exact ih hcs

theorem winOf_reverse (l : GoString) : (winOf l).reverse = winOf l.reverse := by
  unfold winOf
  rw [List.map_reverse]

theorem dirRawW_winOf (p : GoString) (hp : '\\' ∉ p) :
    dirRawW (winOf p) = winOf (dirRaw p) := by
  have hcomp : ∀ c : Char, c ≠ '\\' →
      (fun c => decide (c ≠ '/' ∧ c ≠ '\\')) (winChar c) = (fun c => decide (c ≠ '/')) c := by
    intro c hc
    show decide (winChar c ≠ '/' ∧ winChar c ≠ '\\') = decide (c ≠ '/')
    by_cases h : c = '/'
    · subst h; rfl
    · rw [winChar_eq_self c h]
      simp [h, hc]
  unfold dirRawW dirRaw
  rw [winOf_reverse]
  rw [dropWhile_winOf _ _ hcomp p.reverse (fun h => hp (List.mem_reverse.mp h))]
  rw [winOf_reverse]

theorem stripDot_winOf (x : GoString) (hx : '\\' ∉ x) :
    stripDot (winOf x) = winOf (stripDot x) := by
  unfold stripDot
  by_cases h : x = str "."
  · rw [if_pos h, if_pos (by rw [h]; rfl)]
    rfl
  · rw [if_neg h,
      if_neg (fun hcon => h (winOf_inj x (str ".") hx (by decide) (by rw [hcon]; rfl)))]

theorem headBack_winOf (x : GoString) (hx : '\\' ∉ x) :
    decide ((winOf x).head? = some '\\') = rootedFlag x := by
  cases x with
  | nil => rfl
  | cons c cs =>
    have hc : c ≠ '\\' := fun h => hx (by simp [h])
    show decide (some (winChar c) = some '\\') = decide (some c = some '/')
    by_cases h : c = '/'
    · subst h; rfl
    · rw [winChar_eq_self c h]
      simp [h, hc]

theorem goRelW_eq (basep targp : GoString) :
    goRelW basep targp =
      if cleanPathW targp = cleanPathW basep then some (str ".")
      else if (decide ((stripDot (cleanPathW basep)).head? = some '\\')) ≠
              (decide ((stripDot (cleanPathW targp)).head? = some '\\')) then none
      else if (dropCommon (splitBy (stripDot (cleanPathW basep)) '\\')
          (splitBy (stripDot (cleanPathW targp)) '\\')).1.head? = some ddots then none
      else if (dropCommon (splitBy (stripDot (cleanPathW basep)) '\\')
          (splitBy (stripDot (cleanPathW targp)) '\\')).1 ≠ [] then
        some (joinBack (List.replicate (dropCommon (splitBy (stripDot (cleanPathW basep)) '\\')
            (splitBy (stripDot (cleanPathW targp)) '\\')).1.length ddots ++
          (dropCommon (splitBy (stripDot (cleanPathW basep)) '\\')
            (splitBy (stripDot (cleanPathW targp)) '\\')).2))
      else some (joinBack (dropCommon (splitBy (stripDot (cleanPathW basep)) '\\')
          (splitBy (stripDot (cleanPathW targp)) '\\')).2) := rfl

theorem goRel_bsfree (b t r : GoString) (_hb : '\\' ∉ b) (ht : '\\' ∉ t)
    (h : goRel b t = some r) : '\\' ∉ r := by
  have htokf : ∀ x ∈ splitBy (stripDot (cleanPath t)) '/', '\\' ∉ x :=
    splitBy_bsfree _ (stripDot_bsfree _ (cleanPath_bsfree t ht))
  rw [goRel_eq] at h
  by_cases heq : cleanPath t = cleanPath b
  · rw [if_pos heq] at h
    rw [← Option.some.inj h]
    decide
  rw [if_neg heq] at h
  by_cases hfl : rootedFlag (stripDot (cleanPath b)) ≠ rootedFlag (stripDot (cleanPath t))
  · rw [if_pos hfl] at h
    exact absurd h (by simp)
  rw [if_neg hfl] at h
  by_cases hdd : (dropCommon (splitBy (stripDot (cleanPath b)) '/')
      (splitBy (stripDot (cleanPath t)) '/')).1.head? = some ddots
  · rw [if_pos hdd] at h
    exact absurd h (by simp)
  rw [if_neg hdd] at h
  obtain ⟨common, _, hcT⟩ := dropCommon_spec (splitBy (stripDot (cleanPath b)) '/')
    (splitBy (stripDot (cleanPath t)) '/')
  have h2f : ∀ x ∈ (dropCommon (splitBy (stripDot (cleanPath b)) '/')
      (splitBy (stripDot (cleanPath t)) '/')).2, '\\' ∉ x := by
    intro x hx
    exact htokf x (by rw [hcT]; exact List.mem_append_right _ hx)
  have hLf : ∀ x ∈ List.replicate (dropCommon (splitBy (stripDot (cleanPath b)) '/')
      (splitBy (stripDot (cleanPath t)) '/')).1.length ddots ++
      (dropCommon (splitBy (stripDot (cleanPath b)) '/')
        (splitBy (stripDot (cleanPath t)) '/')).2, '\\' ∉ x := by
    intro x hx
    rcases List.mem_append.mp hx with hx | hx
    · rw [List.eq_of_mem_replicate hx]
      decide
    · exact h2f x hx
  by_cases hb1 : (dropCommon (splitBy (stripDot (cleanPath b)) '/')
      (splitBy (stripDot (cleanPath t)) '/')).1 ≠ []
  · rw [if_pos hb1] at h
    rw [← Option.some.inj h]
    exact joinSlash_bsfree _ hLf
  · rw [if_neg hb1] at h
    rw [← Option.some.inj h]
    exact joinSlash_bsfree _ h2f

theorem toSlashW_winOf (r : GoString) (hr : '\\' ∉ r) : toSlashW (winOf r) = r := by
  unfold toSlashW winOf
  rw [List.map_map]
  have hid : ∀ c ∈ r, (slashChar ∘ winChar) c = id c := by
    intro c hc
    have hc' : c ≠ '\\' := fun h => hr (h ▸ hc)
    show slashChar (winChar c) = c
    by_cases h : c = '/'
    · subst h; rfl
    · rw [winChar_eq_self c h]
      unfold slashChar
      rw [if_neg hc']
  rw [List.map_congr_left hid, List.map_id]

theorem goRelW_winOf (b t : GoString) (hb : '\\' ∉ b) (ht : '\\' ∉ t) :
    goRelW (winOf b) (winOf t) = (goRel b t).map winOf := by
  have hbf := cleanPath_bsfree b hb
  have htf := cleanPath_bsfree t ht
  have hbsf := stripDot_bsfree _ hbf
  have htsf := stripDot_bsfree _ htf
  rw [goRelW_eq, goRel_eq, cleanPathW_winOf b hb, cleanPathW_winOf t ht]
  by_cases heq : cleanPath t = cleanPath b
  · rw [if_pos heq, if_pos (congrArg winOf heq)]
    rfl
  · rw [if_neg heq, if_neg (fun hcon => heq (winOf_inj _ _ htf hbf hcon))]
    rw [stripDot_winOf _ hbf, stripDot_winOf _ htf,
      headBack_winOf _ hbsf, headBack_winOf _ htsf,
      splitBy_back_winOf _ hbsf, splitBy_back_winOf _ htsf]
    by_cases hfl : rootedFlag (stripDot (cleanPath b)) ≠ rootedFlag (stripDot (cleanPath t))
    · rw [if_pos hfl, if_pos hfl]
      rfl
    · rw [if_neg hfl, if_neg hfl]
      by_cases hdd : (dropCommon (splitBy (stripDot (cleanPath b)) '/')
          (splitBy (stripDot (cleanPath t)) '/')).1.head? = some ddots
      · rw [if_pos hdd, if_pos hdd]
        rfl
      · rw [if_neg hdd, if_neg hdd]
        obtain ⟨common, hcB, hcT⟩ := dropCommon_spec (splitBy (stripDot (cleanPath b)) '/')
          (splitBy (stripDot (cleanPath t)) '/')
        have h2sl : ∀ x ∈ (dropCommon (splitBy (stripDot (cleanPath b)) '/')
            (splitBy (stripDot (cleanPath t)) '/')).2, '/' ∉ x := by
          intro x hx
          exact (splitBy_elems _ x (by rw [hcT]; exact List.mem_append_right _ hx)).2
        have hLsl : ∀ x ∈ List.replicate (dropCommon (splitBy (stripDot (cleanPath b)) '/')
            (splitBy (stripDot (cleanPath t)) '/')).1.length ddots ++
            (dropCommon (splitBy (stripDot (cleanPath b)) '/')
              (splitBy (stripDot (cleanPath t)) '/')).2, '/' ∉ x := by
          intro x hx
          rcases List.mem_append.mp hx with hx | hx
          · rw [List.eq_of_mem_replicate hx]
            decide
          · exact h2sl x hx
        by_cases hb1 : (dropCommon (splitBy (stripDot (cleanPath b)) '/')
            (splitBy (stripDot (cleanPath t)) '/')).1 ≠ []
        · rw [if_pos hb1, if_pos hb1, Option.map_some', winOf_joinSlash,
            winOf_map_id _ hLsl]
        · rw [if_neg hb1, if_neg hb1, Option.map_some', winOf_joinSlash,
            winOf_map_id _ h2sl]

theorem goDirW_winOf (f : GoString) (hf : '\\' ∉ f) :
    goDirW (winOf f) = winOf (goDir f) := by
  unfold goDirW goDir
  rw [dirRawW_winOf f hf, cleanPathW_winOf _ (dirRaw_bsfree f hf)]

/-- Classifying the Windows spelling of a path under the Windows separator
convention gives exactly the Unix-convention result. -/
theorem detectFolderFromPathW_winOf (s sW : Service) (f : GoString)
    (hdir : sW.dashboardsDir = winOf s.dashboardsDir)
    (hb : '\\' ∉ s.dashboardsDir) (hf : '\\' ∉ f) :
    detectFolderFromPathW sW (winOf f) = detectFolderFromPath s f := by
  have hgf : '\\' ∉ goDir f := cleanPath_bsfree _ (dirRaw_bsfree f hf)
  unfold detectFolderFromPathW
  rw [hdir, goDirW_winOf f hf, goRelW_winOf _ _ hb hgf]
  rw [detectFolderFromPath_eq]
  cases hrel : goRel s.dashboardsDir (goDir f) with
  | none => rfl
  | some r0 =>
    have hr0f : '\\' ∉ r0 := goRel_bsfree _ _ r0 hb hgf hrel
    show (if toSlashW (winOf r0) = str "." ∨ toSlashW (winOf r0) = [] then []
      else toSlashW (winOf r0)) = _
    rw [toSlashW_winOf r0 hr0f]

/-- C9: `detectFolderFromPath` classifies a file path by its containing
directory relative to the dashboards directory.  The result depends only on
the `dashboardsDir` field of the service and on the file path (the function
has no side effects); it is the empty string whenever the containing
directory cleans to the dashboards directory itself; a nonempty result is
exactly the `filepath.Rel` of the containing directory from the base, so
joining it back onto the base recovers the cleaned containing directory;
and the Windows spelling of both paths, classified under the Windows
path-separator convention, yields the same forward-slash result. -/
theorem detectFolderFromPath_classification (s s' : Service) (filePath : GoString)
    (hdir : s'.dashboardsDir = s.dashboardsDir)
    (hbs : '\\' ∉ s.dashboardsDir) (hfs : '\\' ∉ filePath)
    (sW : Service) (hw : sW.dashboardsDir = winOf s.dashboardsDir) :
    detectFolderFromPath s' filePath = detectFolderFromPath s filePath ∧
    (cleanPath (goDir filePath) = cleanPath s.dashboardsDir →
      detectFolderFromPath s filePath = []) ∧
    (detectFolderFromPath s filePath ≠ [] →
      goRel s.dashboardsDir (goDir filePath) =
        some (detectFolderFromPath s filePath) ∧
      goJoin s.dashboardsDir (detectFolderFromPath s filePath) =
        cleanPath (goDir filePath)) ∧
    detectFolderFromPathW sW (winOf filePath) = detectFolderFromPath s filePath := by
  refine ⟨?_, ?_, ?_, ?_⟩
  · rw [detectFolderFromPath_eq, detectFolderFromPath_eq, hdir]
  · intro h
    have hrel : goRel s.dashboardsDir (goDir filePath) = some (str ".") := by
      rw [goRel_eq, if_pos h]
    rw [detectFolderFromPath_eq, hrel]
    decide
  · intro hne
    cases hrel : goRel s.dashboardsDir (goDir filePath) with
    | none =>
      exfalso
      apply hne
      rw [detectFolderFromPath_eq, hrel]
    | some r0 =>
      have hval : detectFolderFromPath s filePath =
          if r0 = str "." ∨ r0 = [] then [] else r0 := by
        rw [detectFolderFromPath_eq, hrel]
      by_cases hc : r0 = str "." ∨ r0 = []
      · exfalso
        apply hne
        rw [hval, if_pos hc]
      · have hval' : detectFolderFromPath s filePath = r0 := by rw [hval, if_neg hc]
        push_neg at hc
        refine ⟨?_, ?_⟩
        · rw [hval']
        · rw [hval']
          exact goRel_join _ _ r0 hrel hc.2 hc.1
  · exact detectFolderFromPathW_winOf s sW filePath hw hbs hfs

/-- Concrete instance of C9: classifying `dash/team/file.json` against base
`dash` yields folder `team` under both separator conventions, and the
relative-path identities hold. -/
theorem detectFolderFromPath_classification_witness :
    detectFolderFromPath (NewService (str "dash")) (str "dash/team/file.json") = str "team" ∧
    ((NewService (str "dash")).dashboardsDir = (NewService (str "dash")).dashboardsDir ∧
      '\\' ∉ (NewService (str "dash")).dashboardsDir ∧
      '\\' ∉ str "dash/team/file.json") ∧
    (detectFolderFromPath (NewService (str "dash")) (str "dash/team/file.json") =
        detectFolderFromPath (NewService (str "dash")) (str "dash/team/file.json") ∧
      (cleanPath (goDir (str "dash/team/file.json")) =
          cleanPath (NewService (str "dash")).dashboardsDir →
        detectFolderFromPath (NewService (str "dash")) (str "dash/team/file.json") = []) ∧
      (detectFolderFromPath (NewService (str "dash")) (str "dash/team/file.json") ≠ [] →
        goRel (NewService (str "dash")).dashboardsDir (goDir (str "dash/team/file.json")) =
          some (detectFolderFromPath (NewService (str "dash")) (str "dash/team/file.json")) ∧
        goJoin (NewService (str "dash")).dashboardsDir
            (detectFolderFromPath (NewService (str "dash")) (str "dash/team/file.json")) =
          cleanPath (goDir (str "dash/team/file.json"))) ∧
      detectFolderFromPathW (NewService (winOf (str "dash")))
          (winOf (str "dash/team/file.json")) =
        detectFolderFromPath (NewService (str "dash")) (str "dash/team/file.json")) :=
  ⟨by decide, ⟨rfl, by decide, by decide⟩,
    detectFolderFromPath_classification (NewService (str "dash")) (NewService (str "dash"))
      (str "dash/team/file.json") rfl (by decide) (by decide)
      (NewService (winOf (str "dash"))) rfl⟩
